import Mathlib

/-!
# UART bridge with co-simulation protocol (sim/firesim-lib/src/main/cc/bridges/uart.cc)

A shallow embedding of the host-side UART bridge driver: the per-tick ready/valid drain
loop (uart_t::tick, uart_t::recv, uart_t::send), the co-simulation command dispatcher
(uart_t::process_packet) and the interrupt override byte (specialchar, sighand).

The driver talks to four outside parties: the memory-mapped register port, the input
descriptor (inputfd), the output and log descriptors, and the peer socket.  Every call
to one of them is recorded, in program order, in a trace of events carried by the state;
what the outside world answers is given by an environment of oracles that see the trace
so far.  All C integer and character values are mathematical integers (Int); the one
place where a machine width is fixed by the source, the "%d" conversion of sprintf, is
modelled with an explicit wrap to 32 bits.
-/

namespace Uart

/-! ## Data model -/

/-- Registers of the bridge named through mmio_addrs in the source (and cycle_count,
which only appears in a commented-out line). -/
inductive Reg
  | in_bits | in_valid | in_ready
  | out_bits | out_valid | out_ready
  | in_ctrl_bits | in_ctrl_valid
  | cycle_count | cycle_budget | cycle_step
  deriving DecidableEq, Repr

/-- One externally visible action of the driver, in program order. -/
inductive Event
  /-- Register port read(addr) returning v. -/
  | mmio_read (r : Reg) (v : Int)
  /-- Register port write(addr, v). -/
  | mmio_write (r : Reg) (v : Int)
  /-- Call net_read(sockfd, buf, count) returning ret, with the bytes it stored. -/
  | net_read (count : Nat) (ret : Int) (bytes : List Int)
  /-- Call net_write(sockfd, buf, strlen(buf)) with the bytes handed over. -/
  | net_write (bytes : List Int)
  /-- Call ::read(inputfd, &inp, 1) returning ret, with the byte it stored (if any). -/
  | input_read (ret : Int) (bytes : List Int)
  /-- The statements inp = specialchar; specialchar = 0 (lines 223-224). -/
  | take_special (v : Int)
  /-- Call ::write(outputfd, &data.out.bits, 1) returning ret. -/
  | output_write (bits : Int) (ret : Int)
  /-- Call ::write(loggingfd, &data.out.bits, 1) returning ret. -/
  | log_write (bits : Int) (ret : Int)
  /-- The printf of line 187. -/
  | printf_received
  /-- The printf of line 190 with its argument atoi(buf). -/
  | printf_step (v : Int)
  deriving DecidableEq, Repr

/-- One direction of the ready/valid handshake (data.in or data.out). -/
structure Channel where
  bits : Int
  valid : Bool
  ready : Bool
  deriving DecidableEq, Repr

/-- The fire() predicate of a channel: valid && ready. -/
def Channel.fire (c : Channel) : Bool := c.valid && c.ready

/-- The mutable state the driver code touches, together with the trace of its external
actions so far. -/
structure State where
  data_in : Channel
  data_out : Channel
  specialchar : Int
  buf : List Int
  n : Int
  loggingfd : Int
  trace : List Event
  deriving DecidableEq, Repr

/-- Constants of packet.h (included at line 21), whose values the driver does not fix:
they are parameters of the embedding.  The three command codes are case labels of one
switch, so in a program that compiles they are pairwise distinct. -/
structure Consts where
  CS_GRANT_TOKEN : Int
  CS_REQ_CYCLES : Int
  CS_DEFINE_STEP : Int
  CS_DEFINE_LEN : Nat
  ROBOTICS_COSIM_BUFSIZE : Nat

/-- The outside world.  Each oracle sees the trace so far.  For a descriptor read the
answer is what the descriptor offers at that moment: none when the read fails (returns
-1, for instance because nothing has arrived on a non-blocking descriptor), some l when
the bytes l are pending (some [] is end of file, the read returns 0). -/
structure Env where
  /-- Value returned by a register port read. -/
  mmio : List Event → Reg → Int
  /-- What inputfd offers. -/
  input : List Event → Option (List Int)
  /-- What the peer socket offers. -/
  net : List Event → Option (List Int)
  /-- Return value of a write to outputfd. -/
  output : List Event → Int
  /-- Return value of a write to loggingfd. -/
  log : List Event → Int

/-- How a call of the driver ends: it returns in state s, or it is still inside one of
its loops, in state s, when the iteration allowance is used up. -/
inductive Outcome
  | done (s : State)
  | spin (s : State)
  deriving DecidableEq, Repr

/-- The state carried by an outcome. -/
def Outcome.state : Outcome → State
  | .done s => s
  | .spin s => s

/-! ## C library and system calls -/

/-- The system call read(fd, buf, count) on a descriptor offering a: the return value
and the bytes stored at the start of the buffer. -/
def sys_read (a : Option (List Int)) (count : Nat) : Int × List Int :=
  match a with
  | none => (-1, [])
  | some l => (((l.take count).length : Nat), l.take count)

/-- Storing bytes at the start of a buffer, keeping what lies behind them. -/
def store (buf bytes : List Int) : List Int :=
  bytes ++ buf.drop bytes.length

/-- The call bzero(buf, size). -/
def bzero (size : Nat) : List Int := List.replicate size 0

/-- The call strlen(buf): the number of bytes before the first zero byte. -/
def strlen : List Int → Nat
  | [] => 0
  | c :: rest => if c = 0 then 0 else strlen rest + 1

/-- Decimal digits of n as character codes, most significant first (worker). -/
def dec_digits : Nat → Nat → List Int → List Int
  | 0, _, acc => acc
  | fuel + 1, n, acc =>
    if n < 10 then ((48 + n : Nat) : Int) :: acc
    else dec_digits fuel (n / 10) (((48 + n % 10 : Nat) : Int) :: acc)

/-- Decimal digits of n as character codes, most significant first. -/
def to_dec (n : Nat) : List Int := dec_digits (n + 1) n []

/-- The value an int argument takes when v is passed for a "%d" conversion: the low 32
bits of v read as a signed two-complement number. -/
def to_int32 (v : Int) : Int := (v + 2 ^ 31) % 2 ^ 32 - 2 ^ 31

/-- The characters produced by the "%d" conversion for the argument v. -/
def fmt_d (v : Int) : List Int :=
  let x := to_int32 v
  if x < 0 then 45 :: to_dec x.natAbs else to_dec x.natAbs

/-- The call sprintf(buf, "%d", v): the characters and the terminating zero byte are
stored at the start of buf. -/
def sprintf_d (buf : List Int) (v : Int) : List Int :=
  store buf (fmt_d v ++ [0])

/-- The C predicate isspace in the C locale. -/
def isspace (c : Int) : Bool := c = 32 || (9 ≤ c && c ≤ 13)

/-- The C predicate isdigit. -/
def isdigit (c : Int) : Bool := 48 ≤ c && c ≤ 57

/-- The digit loop of atoi: accumulate the leading run of decimal digits. -/
def atoi_digits : List Int → Nat → Nat
  | [], acc => acc
  | c :: rest, acc => if isdigit c then atoi_digits rest (acc * 10 + (c - 48).toNat) else acc

/-- The sign and digits part of atoi, after the leading white space. -/
def atoi_signed : List Int → Int
  | [] => 0
  | c :: rest =>
    if c = 45 then - (atoi_digits rest 0 : Int)
    else if c = 43 then (atoi_digits rest 0 : Int)
    else (atoi_digits (c :: rest) 0 : Int)

/-- The call atoi(buf): skip white space, read an optional sign, then the leading run of
decimal digits.  The value is the mathematical one; C leaves the result undefined when it
does not fit an int. -/
def atoi : List Int → Int
  | [] => 0
  | c :: rest => if isspace c then atoi rest else atoi_signed (c :: rest)

/-! ## The driver -/

/-- Signal number of SIGINT. -/
def SIGINT : Int := 2

/-- The signal handler sighand (lines 44-53). -/
def sighand (sig : Int) (s : State) : State :=
  if sig = SIGINT then { s with specialchar := 3 } else { s with specialchar := 0 }

/-- Append one event to the trace. -/
def State.emit (s : State) (e : Event) : State := { s with trace := s.trace ++ [e] }

/-- The method uart_t::recv (lines 156-162). -/
def recv (env : Env) (s : State) : State :=
  let r := env.mmio s.trace .in_ready
  let s := { s.emit (.mmio_read .in_ready r) with
             data_in := { s.data_in with ready := decide (r ≠ 0) } }
  let v := env.mmio s.trace .out_valid
  let s := { s.emit (.mmio_read .out_valid v) with
             data_out := { s.data_out with valid := decide (v ≠ 0) } }
  if s.data_out.valid then
    let b := env.mmio s.trace .out_bits
    { s.emit (.mmio_read .out_bits b) with data_out := { s.data_out with bits := b } }
  else s

/-- The method uart_t::send (lines 146-154). -/
def send (s : State) : State :=
  let s :=
    if s.data_in.fire then
      (s.emit (.mmio_write .in_bits s.data_in.bits)).emit
        (.mmio_write .in_valid (if s.data_in.valid then 1 else 0))
    else s
  if s.data_out.fire then
    s.emit (.mmio_write .out_ready (if s.data_out.ready then 1 else 0))
  else s

/-- The busy-wait of line 189: read CS_DEFINE_LEN + 1 bytes into the start of buf until
one read returns exactly that count. -/
def define_wait (k : Consts) (env : Env) : Nat → State → Outcome
  | 0, s => .spin s
  | fuel + 1, s =>
    let r := sys_read (env.net s.trace) (k.CS_DEFINE_LEN + 1)
    let s1 := { s.emit (.net_read (k.CS_DEFINE_LEN + 1) r.1 r.2) with
                buf := store s.buf r.2 }
    if r.1 ≠ ((k.CS_DEFINE_LEN + 1 : Nat) : Int) then define_wait k env fuel s1
    else .done s1

/-- The method uart_t::process_packet (lines 165-196).  The allowance fuel bounds the
number of reads of the busy-wait of line 189. -/
def process_packet (k : Consts) (env : Env) (fuel : Nat) (s : State) : Outcome :=
  let s := { s with buf := bzero k.ROBOTICS_COSIM_BUFSIZE }
  let r := sys_read (env.net s.trace) 1
  let s := { s.emit (.net_read 1 r.1 r.2) with n := r.1, buf := store s.buf r.2 }
  if (0 : Int) < s.n then
    let c := s.buf.headD 0 % 256
    if c = k.CS_GRANT_TOKEN then
      .done ((s.emit (.mmio_write .in_ctrl_bits 1)).emit (.mmio_write .in_ctrl_valid 1))
    else if c = k.CS_REQ_CYCLES then
      let s := { s with buf := bzero k.ROBOTICS_COSIM_BUFSIZE }
      let v := env.mmio s.trace .cycle_budget
      let s := { s.emit (.mmio_read .cycle_budget v) with buf := sprintf_d s.buf v }
      .done (s.emit (.net_write (s.buf.take (strlen s.buf))))
    else if c = k.CS_DEFINE_STEP then
      let s := s.emit .printf_received
      let s := { s with buf := bzero k.ROBOTICS_COSIM_BUFSIZE }
      match define_wait k env fuel s with
      | .spin s => .spin s
      | .done s =>
        let s := s.emit (.printf_step (atoi s.buf))
        .done (s.emit (.mmio_write .cycle_step (atoi s.buf)))
    else .done s
  else .done s

/-- The input part of one loop iteration (lines 215-235). -/
def input_step (env : Env) (s : State) : State :=
  if s.data_in.ready then
    if s.specialchar ≠ 0 then
      let inp := s.specialchar
      let s := { s.emit (.take_special inp) with specialchar := 0 }
      -- readamt = 1
      { s with data_in := { s.data_in with bits := inp, valid := true } }
    else
      let r := sys_read (env.input s.trace) 1
      let s := s.emit (.input_read r.1 r.2)
      if r.1 > 0 then
        { s with data_in := { s.data_in with bits := r.2.headD 0, valid := true } }
      else s
  else s

/-- The output part of one loop iteration (lines 237-242). -/
def output_step (env : Env) (s : State) : State :=
  if s.data_out.fire then
    let s := s.emit (.output_write s.data_out.bits (env.output s.trace))
    if s.loggingfd ≠ 0 then
      s.emit (.log_write s.data_out.bits (env.log s.trace))
    else s
  else s

/-- Lines 215-245: what one loop iteration does after recv and process_packet. -/
def transfer (env : Env) (s : State) : State :=
  let s := send (output_step env (input_step env s))
  { s with data_in := { s.data_in with valid := false } }

/-- One execution of the body of the do-while loop (lines 203-245). -/
def tick_body (k : Consts) (env : Env) (fuel : Nat) (s : State) : Outcome :=
  match process_packet k env fuel (recv env s) with
  | .spin s1 => .spin s1
  | .done s1 => .done (transfer env s1)

/-- The do-while loop of uart_t::tick (lines 202-246); fuel bounds the number of
iterations. -/
def tick_loop (k : Consts) (env : Env) : Nat → State → Outcome
  | 0, s => .spin s
  | fuel + 1, s =>
    match tick_body k env (fuel + 1) s with
    | .spin s1 => .spin s1
    | .done s1 =>
      if s1.data_in.fire || s1.data_out.fire then tick_loop k env fuel s1
      else .done s1

/-- The two assignments before the loop (lines 200-201). -/
def tick_init (s : State) : State :=
  { s with data_out := { s.data_out with ready := true },
           data_in := { s.data_in with valid := false } }

/-- The method uart_t::tick (lines 199-247). -/
def tick (k : Consts) (env : Env) (fuel : Nat) (s : State) : Outcome :=
  tick_loop k env fuel (tick_init s)

/-- What the harness and the operating system do to a bridge: call tick, or deliver a
signal to sighand. -/
inductive Action
  | tick
  | signal (sig : Int)
  deriving DecidableEq, Repr

/-- A sequence of ticks and signal deliveries. -/
def run (k : Consts) (env : Env) (fuel : Nat) : List Action → State → Outcome
  | [], s => .done s
  | .tick :: rest, s =>
    match tick k env fuel s with
    | .done s1 => run k env fuel rest s1
    | .spin s1 => .spin s1
  | .signal sig :: rest, s => run k env fuel rest (sighand sig s)

/-- Successive calls of process_packet (polls), n of them. -/
def poll_n (k : Consts) (env : Env) (fuel : Nat) : Nat → State → Outcome
  | 0, s => .done s
  | n + 1, s =>
    match process_packet k env fuel s with
    | .done s1 => poll_n k env fuel n s1
    | .spin s1 => .spin s1

/-! ## Reading the trace -/

/-- The value of a write to the in_bits register. -/
def in_bits_of : Event → Option Int
  | .mmio_write .in_bits v => some v
  | _ => none

/-- The values written to in_bits, in order. -/
def in_bits_writes (tr : List Event) : List Int := tr.filterMap in_bits_of

/-- The byte an event consumes from the input side: the override value taken, or the
byte a successful read of inputfd returned. -/
def consumed_of : Event → Option Int
  | .take_special v => some v
  | .input_read ret bytes => if 0 < ret then some (bytes.headD 0) else none
  | _ => none

/-- The bytes the drainer consumed, in order. -/
def consumed (tr : List Event) : List Int := tr.filterMap consumed_of

/-- The byte a successful read of inputfd returned. -/
def input_of : Event → Option Int
  | .input_read ret bytes => if 0 < ret then some (bytes.headD 0) else none
  | _ => none

/-- The bytes read from the Character Stream, in order. -/
def input_bytes (tr : List Event) : List Int := tr.filterMap input_of

/-- The value an event takes from the override byte. -/
def take_of : Event → Option Int
  | .take_special v => some v
  | _ => none

/-- The override values taken, in order. -/
def takes (tr : List Event) : List Int := tr.filterMap take_of

/-- A read of inputfd. -/
def is_input_read : Event → Bool
  | .input_read _ _ => true
  | _ => false

/-- The number of reads of the Character Stream (successful or not). -/
def input_reads (tr : List Event) : Nat := tr.countP is_input_read

/-- Every write to in_bits is immediately followed by a write of 1 (true) to in_valid. -/
def paired : List Event → Bool
  | [] => true
  | .mmio_write .in_bits _ :: .mmio_write .in_valid v :: rest => decide (v = 1) && paired rest
  | .mmio_write .in_bits _ :: _ => false
  | _ :: rest => paired rest

/-- A read of the in_ready register. -/
def reads_in_ready : Event → Bool
  | .mmio_read .in_ready _ => true
  | _ => false

/-- The number of loop iterations started: recv reads in_ready once per iteration and
nothing else reads it. -/
def iterations (tr : List Event) : Nat := tr.countP reads_in_ready

/-- A write to out_ready, by which an output byte is acknowledged. -/
def is_ack : Event → Bool
  | .mmio_write .out_ready _ => true
  | _ => false

/-- The number of output bytes acknowledged. -/
def acks (tr : List Event) : Nat := tr.countP is_ack

/-- A register write, as a register and a value. -/
def reg_write_of : Event → Option (Reg × Int)
  | .mmio_write r v => some (r, v)
  | _ => none

/-- All register port writes, in order. -/
def reg_writes (tr : List Event) : List (Reg × Int) := tr.filterMap reg_write_of

/-- A register read, as a register and the value returned. -/
def reg_read_of : Event → Option (Reg × Int)
  | .mmio_read r v => some (r, v)
  | _ => none

/-- All register port reads, in order. -/
def reg_reads (tr : List Event) : List (Reg × Int) := tr.filterMap reg_read_of

/-- The bytes of a write to the peer socket. -/
def net_write_of : Event → Option (List Int)
  | .net_write bytes => some bytes
  | _ => none

/-- All writes to the peer socket, in order. -/
def net_writes (tr : List Event) : List (List Int) := tr.filterMap net_write_of

/-- The effect by which a command shows: the grant write for GRANT_TOKEN, the reply for
REQUEST_CYCLES, the cycle_step write for DEFINE_STEP. -/
def is_dispatch : Event → Bool
  | .mmio_write .in_ctrl_bits _ => true
  | .net_write _ => true
  | .mmio_write .cycle_step _ => true
  | _ => false

/-- The number of commands dispatched. -/
def dispatched (tr : List Event) : Nat := tr.countP is_dispatch

/-! ## Decimal strings -/

/-- The decimal digits of n, least significant first; the single digit 0 for n = 0. -/
def decimal (n : Nat) : List Nat := if n = 0 then [0] else Nat.digits 10 n

/-- The character code of a decimal digit. -/
def digit_char (d : Nat) : Int := ((48 + d : Nat) : Int)

/-- The decimal ASCII string of n: its decimal digits, most significant first. -/
def decimal_ascii (n : Nat) : List Int := (decimal n).reverse.map digit_char

/-- The number a string of decimal digit characters denotes. -/
def decimal_value (ds : List Int) : Nat :=
  Nat.ofDigits 10 ((ds.map fun d => (d - 48).toNat).reverse)

/-! ## Event classes and closed forms used in the proofs -/

/-- The trace of t is the trace of s followed by a stretch of events satisfying P. -/
def Grows (P : List Event → Prop) (s t : State) : Prop :=
  ∃ ev, t.trace = s.trace ++ ev ∧ P ev

/-- Events recv can produce: reads of in_ready, out_valid and out_bits. -/
def of_recv : Event → Bool
  | .mmio_read .in_ready _ => true
  | .mmio_read .out_valid _ => true
  | .mmio_read .out_bits _ => true
  | _ => false

/-- Events process_packet can produce: peer socket traffic, the control register writes,
the read of cycle_budget and the two printf calls. -/
def of_process_packet : Event → Bool
  | .net_read _ _ _ => true
  | .net_write _ => true
  | .mmio_write .in_ctrl_bits _ => true
  | .mmio_write .in_ctrl_valid _ => true
  | .mmio_write .cycle_step _ => true
  | .mmio_read .cycle_budget _ => true
  | .printf_received => true
  | .printf_step _ => true
  | _ => false

/-- Events the transfer part of an iteration can produce. -/
def of_transfer : Event → Bool
  | .take_special _ => true
  | .input_read _ _ => true
  | .output_write _ _ => true
  | .log_write _ _ => true
  | .mmio_write .in_bits _ => true
  | .mmio_write .in_valid _ => true
  | .mmio_write .out_ready _ => true
  | _ => false

/-- Events the busy-wait of line 189 produces: reads of CS_DEFINE_LEN + 1 bytes. -/
def of_define_wait (k : Consts) : Event → Bool
  | .net_read c _ _ => decide (c = k.CS_DEFINE_LEN + 1)
  | _ => false

/-- Events neither written to in_bits nor consuming an input byte. -/
def input_neutral (e : Event) : Bool := (in_bits_of e).isNone && (consumed_of e).isNone

/-- Input-side bookkeeping of a stretch of trace: what was written to in_bits is what was
consumed, and every such write is directly followed by in_valid = 1. -/
def delivered_once (ev : List Event) : Prop :=
  in_bits_writes ev = consumed ev ∧ paired ev = true

/-- The events recv appends. -/
def recv_events (env : Env) (s : State) : List Event :=
  let r := env.mmio s.trace .in_ready
  let v := env.mmio (s.trace ++ [.mmio_read .in_ready r]) .out_valid
  [.mmio_read .in_ready r, .mmio_read .out_valid v] ++
    (if v ≠ 0 then
      [.mmio_read .out_bits
        (env.mmio (s.trace ++ [.mmio_read .in_ready r, .mmio_read .out_valid v]) .out_bits)]
     else [])

/-- What recv reads from out_valid. -/
def out_valid_read (env : Env) (s : State) : Int :=
  env.mmio (s.trace ++ [.mmio_read .in_ready (env.mmio s.trace .in_ready)]) .out_valid

/-- The events input_step appends. -/
def input_events (env : Env) (s : State) : List Event :=
  if s.data_in.ready then
    if s.specialchar ≠ 0 then [.take_special s.specialchar]
    else [.input_read (sys_read (env.input s.trace) 1).1 (sys_read (env.input s.trace) 1).2]
  else []

/-- The byte input_step obtains, if any. -/
def obtained (env : Env) (s : State) : Option Int :=
  if s.data_in.ready then
    if s.specialchar ≠ 0 then some s.specialchar
    else if 0 < (sys_read (env.input s.trace) 1).1
      then some ((sys_read (env.input s.trace) 1).2.headD 0) else none
  else none

/-- The events output_step appends. -/
def output_events (env : Env) (s : State) : List Event :=
  if s.data_out.fire then
    .output_write s.data_out.bits (env.output s.trace) ::
      (if s.loggingfd ≠ 0 then
        [.log_write s.data_out.bits
          (env.log (s.trace ++ [.output_write s.data_out.bits (env.output s.trace)]))]
       else [])
  else []

/-- The events send appends. -/
def send_events (s : State) : List Event :=
  (if s.data_in.fire then
    [.mmio_write .in_bits s.data_in.bits,
     .mmio_write .in_valid (if s.data_in.valid then 1 else 0)] else []) ++
  (if s.data_out.fire then [.mmio_write .out_ready (if s.data_out.ready then 1 else 0)]
   else [])

/-- The state process_packet is in after its first read returned the byte b. -/
def after_command (k : Consts) (s : State) (b : Int) : State :=
  { s with buf := store (bzero k.ROBOTICS_COSIM_BUFSIZE) [b], n := 1,
           trace := s.trace ++ [.net_read 1 1 [b]] }

/-- The state process_packet returns in when its first read returned no byte. -/
def after_no_command (k : Consts) (env : Env) (s : State) : State :=
  { s with buf := bzero k.ROBOTICS_COSIM_BUFSIZE, n := (sys_read (env.net s.trace) 1).1,
           trace := s.trace ++ [.net_read 1 (sys_read (env.net s.trace) 1).1 []] }

/-! ## Concrete surroundings used to run the model -/

/-- Number of bytes the peer socket has handed out so far. -/
def net_taken : List Event → Nat
  | [] => 0
  | .net_read _ _ bytes :: rest => bytes.length + net_taken rest
  | _ :: rest => net_taken rest

/-- Number of bytes inputfd has handed out so far. -/
def input_taken : List Event → Nat
  | [] => 0
  | .input_read _ bytes :: rest => bytes.length + input_taken rest
  | _ :: rest => input_taken rest

/-- A descriptor holding the bytes content, of which taken have been read: it offers the
rest, and fails once nothing is left. -/
def queue (content : List Int) (taken : Nat) : Option (List Int) :=
  if content.drop taken = [] then none else some (content.drop taken)

/-- Sample values for the constants of packet.h. -/
def k0 : Consts := ⟨128, 129, 130, 4, 64⟩

/-- A freshly constructed bridge on stdin/stdout (loggingfd = 0), nothing done yet. -/
def s0 : State := ⟨⟨0, false, false⟩, ⟨0, false, false⟩, 0, [], 0, 0, []⟩

/-- Surroundings given by the contents of the two byte streams and by three register
functions of the trace; writes to the sinks succeed. -/
def env_of (in_ready out_valid : List Event → Int) (regs : Reg → Int)
    (input net : List Int) : Env where
  mmio := fun tr r =>
    match r with
    | .in_ready => in_ready tr
    | .out_valid => out_valid tr
    | r => regs r
  input := fun tr => queue input (input_taken tr)
  net := fun tr => queue net (net_taken tr)
  output := fun _ => 1
  log := fun _ => 1

/-- Surroundings for a tick with an idle output: in_ready always reads 1, out_valid always
reads 0, inputfd holds the two bytes "ab", the peer socket is silent. -/
def env_idle_output : Env :=
  env_of (fun _ => 1) (fun _ => 0) (fun _ => 0) [97, 98] []

/-- Surroundings for a tick with one output byte: in_ready always reads 1, out_valid reads
1 in the first loop iteration and 0 afterwards, inputfd holds the two bytes "ab", the peer
socket is silent. -/
def env_one_output : Env :=
  env_of (fun _ => 1) (fun tr => if iterations tr = 1 then 1 else 0) (fun _ => 0) [97, 98] []

/-- Surroundings in which in_ready reads 1 in every other loop iteration (the first, the
third, ...), the output is idle, and inputfd holds "ab". -/
def env_alternating : Env :=
  env_of (fun tr => if iterations tr % 2 = 0 then 1 else 0) (fun _ => 0) (fun _ => 0)
    [97, 98] []

/-- Surroundings in which the device has two output bytes 'A' (65): out_valid reads 1
until two bytes have been acknowledged; the input side is not ready, and the peer socket
offers a GRANT_TOKEN byte (128) at every read. -/
def env_two_outputs : Env where
  mmio := fun tr r =>
    match r with
    | .out_valid => if acks tr < 2 then 1 else 0
    | .out_bits => 65
    | _ => 0
  input := fun _ => none
  net := fun _ => some [128]
  output := fun _ => 1
  log := fun _ => 1

/-- Surroundings in which the peer has sent REQUEST_CYCLES (129) while the cycle_budget
register holds 4294967295. -/
def env_large_budget : Env :=
  env_of (fun _ => 0) (fun _ => 0)
    (fun r => match r with
      | .cycle_budget => 4294967295
      | _ => 0) [] [129]

/-- Surroundings in which the peer has sent REQUEST_CYCLES (129) while the cycle_budget
register holds 42. -/
def env_budget_42 : Env :=
  env_of (fun _ => 0) (fun _ => 0)
    (fun r => match r with
      | .cycle_budget => 42
      | _ => 0) [] [129]

/-- Surroundings in which the peer has sent DEFINE_STEP (130), the four digits "0100" and
then a GRANT_TOKEN command (128). -/
def env_step_then_grant : Env :=
  env_of (fun _ => 0) (fun _ => 0) (fun _ => 0) [] [130, 48, 49, 48, 48, 128]

/-- Surroundings in which the peer has sent DEFINE_STEP (130), the four digits "0100", a
zero byte, and then a GRANT_TOKEN command (128). -/
def env_step_100 : Env :=
  env_of (fun _ => 0) (fun _ => 0) (fun _ => 0) [] [130, 48, 49, 48, 48, 0, 128]

/-- Surroundings in which the peer has sent three GRANT_TOKEN bytes (128) and then the
byte 7, which is no command. -/
def env_three_grants : Env :=
  env_of (fun _ => 0) (fun _ => 0) (fun _ => 0) [] [128, 128, 128, 7]

/-- Surroundings in which the peer has sent the byte 7, which is no command. -/
def env_unknown : Env :=
  env_of (fun _ => 0) (fun _ => 0) (fun _ => 0) [] [7]

/-! ## Reading the trace: the output side -/

/-- The value returned by a read of the out_bits register. -/
def out_bits_of : Event → Option Int
  | .mmio_read .out_bits v => some v
  | _ => none

/-- The values read from out_bits, in order. -/
def out_bits_reads (tr : List Event) : List Int := tr.filterMap out_bits_of

/-- The byte handed to a write on outputfd. -/
def sink_of : Event → Option Int
  | .output_write b _ => some b
  | _ => none

/-- The bytes written to the Character Stream sink (outputfd), in order. -/
def sink_writes (tr : List Event) : List Int := tr.filterMap sink_of

/-- The byte handed to a write on loggingfd. -/
def log_of : Event → Option Int
  | .log_write b _ => some b
  | _ => none

/-- The bytes written to the log sink (loggingfd), in order. -/
def log_writes (tr : List Event) : List Int := tr.filterMap log_of

/-- The value of a write to the out_ready register. -/
def ack_of : Event → Option Int
  | .mmio_write .out_ready v => some v
  | _ => none

/-- The values written to out_ready, in order. -/
def ack_values (tr : List Event) : List Int := tr.filterMap ack_of

/-- The outcome is a return. -/
def Outcome.returned : Outcome → Bool
  | .done _ => true
  | .spin _ => false

/-- An action on the output side: a byte written to the sink, a byte written to the log,
or a value written to out_ready. -/
inductive OutAct
  | sink (b : Int)
  | log (b : Int)
  | ack (v : Int)
  deriving DecidableEq, Repr

/-- The output-side action of an event. -/
def out_act_of : Event → Option OutAct
  | .output_write b _ => some (.sink b)
  | .log_write b _ => some (.log b)
  | .mmio_write .out_ready v => some (.ack v)
  | _ => none

/-- The output-side actions, in order. -/
def out_acts (tr : List Event) : List OutAct := tr.filterMap out_act_of

/-- What delivering one output byte b looks like: the byte goes to the sink, then to the
log if one is configured, then out_ready = 1 is written. -/
def delivery (logging : Bool) (b : Int) : List OutAct :=
  .sink b :: ((if logging then [.log b] else []) ++ [.ack 1])

/-- The output half of the bookkeeping of a stretch of execution from s to t: the bytes w
were read from out_bits and delivered, one after the other; pending (at most one byte) was
read from out_bits but not yet delivered, which happens only when the execution has not
returned. -/
def OutputLedger (s t : State) (returned : Bool) : Prop :=
  ∃ w pending,
    out_bits_reads t.trace = out_bits_reads s.trace ++ (w ++ pending) ∧
    out_acts t.trace = out_acts s.trace ++ w.flatMap (delivery (decide (s.loggingfd ≠ 0))) ∧
    sink_writes t.trace = sink_writes s.trace ++ w ∧
    log_writes t.trace = log_writes s.trace ++ (if s.loggingfd ≠ 0 then w else []) ∧
    ack_values t.trace = ack_values s.trace ++ List.replicate w.length 1 ∧
    pending.length ≤ 1 ∧ (returned = true → pending = [])

/-- A bridge on a pseudo-terminal with an open log file (loggingfd = 5), nothing done yet. -/
def s0_logging : State := { s0 with loggingfd := 5 }

/-- The return value of a write on outputfd. -/
def sink_result_of : Event → Option Int
  | .output_write _ ret => some ret
  | _ => none

/-- The return values of the writes to the Character Stream sink, in order. -/
def sink_results (tr : List Event) : List Int := tr.filterMap sink_result_of

/-- Surroundings like env_two_outputs, but every write to outputfd fails (returns -1). -/
def env_sink_fails : Env := { env_two_outputs with output := fun _ => -1 }

/-- A string at which the digit loop of atoi stops: it is empty or starts with a
character that is not a decimal digit. -/
def stops (tail : List Int) : Prop := ∀ c, tail.head? = some c → isdigit c = false

/-- A string that does not begin with a number: it is empty or starts with a character
that is neither white space, nor a sign, nor a decimal digit. -/
def no_number (tail : List Int) : Prop :=
  ∀ c, tail.head? = some c → isspace c = false ∧ c ≠ 45 ∧ c ≠ 43 ∧ isdigit c = false

/-- Surroundings in which the peer has sent DEFINE_STEP (130) and then the five bytes
"12x4" and 10 (a payload that is not a number throughout). -/
def env_step_garbled : Env :=
  env_of (fun _ => 0) (fun _ => 0) (fun _ => 0) [] [130, 49, 50, 120, 52, 10]

/-- A sequence of signal deliveries, handled one after the other. -/
def signals (sigs : List Int) (s : State) : State :=
  sigs.foldl (fun st sig => sighand sig st) s

/-! ## Reading the trace: phases of an iteration -/

/-- A write to one of the two input registers in_bits and in_valid. -/
def in_port_of : Event → Option (Reg × Int)
  | .mmio_write .in_bits v => some (.in_bits, v)
  | .mmio_write .in_valid v => some (.in_valid, v)
  | _ => none

/-- The writes to in_bits and in_valid, in order. -/
def in_port_writes (tr : List Event) : List (Reg × Int) := tr.filterMap in_port_of

/-- Events of the channel transfer decisions: the override take, the read of inputfd, the
writes to the sink and to the log. -/
def of_decision : Event → Bool
  | .take_special _ => true
  | .input_read _ _ => true
  | .output_write _ _ => true
  | .log_write _ _ => true
  | _ => false

/-- Events of send: the writes of in_bits, in_valid and out_ready. -/
def of_send : Event → Bool
  | .mmio_write .in_bits _ => true
  | .mmio_write .in_valid _ => true
  | .mmio_write .out_ready _ => true
  | _ => false

/-- Surroundings with a GRANT_TOKEN and then a REQUEST_CYCLES command on the peer socket,
in_ready reading 1, an idle output, "ab" on inputfd and cycle_budget = 42. -/
def env_commands : Env :=
  env_of (fun _ => 1) (fun _ => 0)
    (fun r => match r with
      | .cycle_budget => 42
      | _ => 0) [97, 98] [128, 129]

/-- Surroundings in which in_ready reads 1 but nothing is waiting anywhere: inputfd and
the peer socket are empty and the output is idle. -/
def env_no_input : Env :=
  env_of (fun _ => 1) (fun _ => 0) (fun _ => 0) [] []

/-! ## The DEFINE_STEP wait -/

/-- A read of the peer socket. -/
def is_net_read : Event → Bool
  | .net_read _ _ _ => true
  | _ => false

/-- The number of reads of the peer socket so far. -/
def net_read_count (tr : List Event) : Nat := tr.countP is_net_read

/-- A read of the busy-wait that did not return the full count: it asked for
CS_DEFINE_LEN + 1 bytes, returned something else and stored fewer bytes. -/
def short_read (k : Consts) (e : Event) : Prop :=
  ∃ r bs, e = .net_read (k.CS_DEFINE_LEN + 1) r bs ∧
    r ≠ ((k.CS_DEFINE_LEN + 1 : Nat) : Int) ∧ bs.length < k.CS_DEFINE_LEN + 1

/-- A peer socket on which bytes arrive in pieces: the i-th read finds the i-th piece
(as far as it is asked for); when the pieces are used up nothing arrives any more. -/
def pieces (ps : List (List Int)) (tr : List Event) : Option (List Int) :=
  ps.get? (net_read_count tr)

/-- Surroundings in which the peer sends DEFINE_STEP (130) and a payload "0100" plus zero
byte that arrives split in two pieces, "01" and "00" plus zero byte, followed later by the
five bytes "00250" in one piece. -/
def env_split_payload : Env :=
  { env_no_input with
    net := pieces [[130], [48, 49], [48, 48, 0], [48, 48, 50, 53, 48]] }

/-- Surroundings as env_split_payload, but nothing arrives after the split payload. -/
def env_split_only : Env :=
  { env_no_input with net := pieces [[130], [48, 49], [48, 48, 0]] }

/-! ## Reading the trace: polls that find GRANT_TOKEN -/

/-- The events of successive polls that each read one GRANT_TOKEN byte, given the bytes
read: per byte the read, the write of 1 to in_ctrl_bits and the write of 1 to
in_ctrl_valid. -/
def grant_events (bs : List Int) : List Event :=
  (bs.map fun b =>
    [Event.net_read 1 1 [b], .mmio_write .in_ctrl_bits 1, .mmio_write .in_ctrl_valid 1]).flatten

/-- Surroundings like env_two_outputs, but only the first write to outputfd fails (returns
-1); every later write succeeds. -/
def env_first_write_fails : Env :=
  { env_two_outputs with output := fun tr => if sink_results tr = [] then -1 else 1 }

/-! ## Signal delivery inside the input step -/

/-- The input side of a loop iteration (lines 215-235 of tick) with the signals that are
delivered while the override branch runs: the list before is handled after the test
`if (specialchar)` of line 218 and before `inp = specialchar` (line 223), the list between
is handled after line 223 and before `specialchar = 0` (line 224), and the list after is
handled after line 224.  With no signal at all this is input_step. -/
def input_step_signals (env : Env) (before between after : List Int) (s : State) : State :=
  if s.data_in.ready then
    if s.specialchar ≠ 0 then
      let s := signals before s
      let inp := s.specialchar
      let s := signals between s
      let s := { s.emit (.take_special inp) with specialchar := 0 }
      let s := signals after s
      { s with data_in := { s.data_in with bits := inp, valid := true } }
    else
      let r := sys_read (env.input s.trace) 1
      let s := s.emit (.input_read r.1 r.2)
      if r.1 > 0 then { s with data_in := { s.data_in with bits := r.2.headD 0, valid := true } }
      else s
  else s

/-- The channel transfers of a loop iteration, as transfer, with signals delivered inside
the input step. -/
def transfer_signals (env : Env) (before between after : List Int) (s : State) : State :=
  let s := send (output_step env (input_step_signals env before between after s))
  { s with data_in := { s.data_in with valid := false } }

/-- One iteration of the loop of tick, as tick_body, with signals delivered inside the
input step. -/
def tick_body_signals (k : Consts) (env : Env) (fuel : Nat) (before between after : List Int)
    (s : State) : Outcome :=
  match process_packet k env fuel (recv env s) with
  | .spin s1 => .spin s1
  | .done s1 => .done (transfer_signals env before between after s1)

/-! ## Lemmas and theorems -/

theorem state_done (s : State) : (Outcome.done s).state = s := rfl

theorem state_spin (s : State) : (Outcome.spin s).state = s := rfl

theorem Grows.refl {P : List Event → Prop} (h : P []) (s : State) : Grows P s s :=
  ⟨[], by simp, h⟩

theorem Grows.trans {P : List Event → Prop} (hP : ∀ a b, P a → P b → P (a ++ b))
    {s t u : State} (h1 : Grows P s t) (h2 : Grows P t u) : Grows P s u := by
  obtain ⟨e1, ht, p1⟩ := h1
  obtain ⟨e2, hu, p2⟩ := h2
  exact ⟨e1 ++ e2, by rw [hu, ht, List.append_assoc], hP _ _ p1 p2⟩

theorem Grows.mono {P Q : List Event → Prop} (h : ∀ ev, P ev → Q ev) {s t : State}
    (hg : Grows P s t) : Grows Q s t := by
  obtain ⟨ev, ht, p⟩ := hg
  exact ⟨ev, ht, h ev p⟩

theorem paired_cons (e : Event) (l : List Event) (h : in_bits_of e = none) :
    paired (e :: l) = paired l := by
  cases e with
  | mmio_write r v => cases r <;> first | rfl | simp [in_bits_of] at h
  | _ => rfl

theorem paired_append (a b : List Event) (ha : paired a = true) (hb : paired b = true) :
    paired (a ++ b) = true := by
  induction a using paired.induct with
  | case1 => simpa using hb
  | case2 x v rest ih =>
    simp only [paired, Bool.and_eq_true, decide_eq_true_eq] at ha
    simp only [List.cons_append, paired, Bool.and_eq_true, decide_eq_true_eq]
    exact ⟨ha.1, ih ha.2⟩
  | case3 x rest hne =>
    exfalso
    cases rest with
    | nil => simp [paired] at ha
    | cons e r =>
      rw [paired] at ha
      · exact absurd ha (by simp)
      · intro v r' h; exact hne v r' h
  | case4 e rest _ hl2 ih =>
    have he : in_bits_of e = none := by
      cases e with
      | mmio_write r v => cases r <;> first | rfl | exact absurd rfl (fun h => hl2 v h)
      | _ => rfl
    rw [paired_cons e rest he] at ha
    rw [List.cons_append, paired_cons e _ he]
    exact ih ha

theorem delivered_once_nil : delivered_once [] := ⟨rfl, rfl⟩

theorem delivered_once_append (a b : List Event) (ha : delivered_once a)
    (hb : delivered_once b) : delivered_once (a ++ b) := by
  refine ⟨?_, paired_append a b ha.2 hb.2⟩
  simp only [in_bits_writes, consumed, List.filterMap_append]
  have h1 := ha.1
  have h2 := hb.1
  simp only [in_bits_writes, consumed] at h1 h2
  rw [h1, h2]

theorem delivered_once_of_neutral (ev : List Event)
    (h : ev.all input_neutral = true) : delivered_once ev := by
  induction ev with
  | nil => exact delivered_once_nil
  | cons e rest ih =>
    simp only [List.all_cons, Bool.and_eq_true, input_neutral, Option.isNone_iff_eq_none] at h
    obtain ⟨⟨hb, hc⟩, hr⟩ := h
    have := ih hr
    refine ⟨?_, ?_⟩
    · simp only [in_bits_writes, consumed, List.filterMap_cons, hb, hc]
      exact this.1
    · rw [paired_cons e rest hb]; exact this.2

theorem all_mono {p q : Event → Bool} (h : ∀ e, p e = true → q e = true) (ev : List Event)
    (hp : ev.all p = true) : ev.all q = true := by
  simp only [List.all_eq_true] at hp ⊢
  exact fun e he => h e (hp e he)

theorem of_recv_neutral (e : Event) (h : of_recv e = true) : input_neutral e = true := by
  cases e with
  | mmio_read r v => rfl
  | _ => simp [of_recv] at h

theorem of_process_packet_neutral (e : Event) (h : of_process_packet e = true) :
    input_neutral e = true := by
  cases e with
  | mmio_write r v => cases r <;> first | rfl | simp [of_process_packet] at h
  | input_read r b => simp [of_process_packet] at h
  | take_special v => simp [of_process_packet] at h
  | _ => rfl

theorem recv_grows (env : Env) (s : State) :
    Grows (fun ev => ev.all of_recv = true) s (recv env s) := by
  unfold recv Grows
  simp only [State.emit]
  split
  · refine ⟨_, by simp only [List.append_assoc]; rfl, ?_⟩; simp [of_recv]
  · refine ⟨_, by simp only [List.append_assoc]; rfl, ?_⟩; simp [of_recv]

theorem define_wait_grows (k : Consts) (env : Env) (fuel : Nat) (s : State) :
    Grows (fun ev => ev.all of_process_packet = true) s (define_wait k env fuel s).state := by
  induction fuel generalizing s with
  | zero => exact Grows.refl (by simp) s
  | succ f ih =>
    unfold define_wait
    simp only [State.emit]
    split
    · refine Grows.trans (fun a b ha hb => by simp [List.all_append, ha, hb]) ?_ (ih _)
      exact ⟨[_], rfl, by simp [of_process_packet]⟩
    · exact ⟨[_], rfl, by simp [of_process_packet]⟩

theorem define_wait_grows_eq {k : Consts} {env : Env} {fuel : Nat} {s : State} {o : Outcome}
    (h : define_wait k env fuel s = o) :
    Grows (fun ev => ev.all of_process_packet = true) s o.state :=
  h ▸ define_wait_grows k env fuel s

theorem process_packet_grows (k : Consts) (env : Env) (fuel : Nat) (s : State) :
    Grows (fun ev => ev.all of_process_packet = true) s
      (process_packet k env fuel s).state := by
  unfold process_packet
  simp only [State.emit]
  split
  · split
    · refine ⟨_, by simp only [Outcome.state, List.append_assoc]; rfl, ?_⟩; simp [of_process_packet]
    · split
      · refine ⟨_, by simp only [Outcome.state, List.append_assoc]; rfl, ?_⟩; simp [of_process_packet]
      · split
        · have hall : ∀ a b : List Event, a.all of_process_packet = true →
              b.all of_process_packet = true → (a ++ b).all of_process_packet = true :=
            fun a b ha hb => by simp [List.all_append, ha, hb]
          split
          · rename_i s1 heq
            have h := define_wait_grows_eq heq
            refine Grows.trans hall ?_ h
            refine ⟨_, by simp only [List.append_assoc]; rfl, ?_⟩; simp [of_process_packet]
          · rename_i s1 heq
            have h := define_wait_grows_eq heq
            refine Grows.trans hall (Grows.trans hall ?_ h) ?_
            · refine ⟨_, by simp only [List.append_assoc]; rfl, ?_⟩; simp [of_process_packet]
            · refine ⟨_, by simp only [Outcome.state, List.append_assoc]; rfl, ?_⟩
              simp [of_process_packet]
        · refine ⟨_, by simp only [Outcome.state]; rfl, ?_⟩; simp [of_process_packet]
  · refine ⟨_, by simp only [Outcome.state]; rfl, ?_⟩; simp [of_process_packet]

/-! ## Closed forms of the three parts of a transfer -/

theorem input_step_eq (env : Env) (s : State) :
    input_step env s =
      { s with
        trace := s.trace ++ input_events env s
        specialchar := if s.data_in.ready then 0 else s.specialchar
        data_in :=
          match obtained env s with
          | some b => { s.data_in with bits := b, valid := true }
          | none => s.data_in } := by
  unfold input_step input_events obtained
  simp only [State.emit]
  split_ifs <;> simp_all

theorem output_step_eq (env : Env) (s : State) :
    output_step env s = { s with trace := s.trace ++ output_events env s } := by
  unfold output_step output_events
  simp only [State.emit]
  split_ifs <;> simp

theorem send_eq (s : State) :
    send s = { s with trace := s.trace ++ send_events s } := by
  unfold send send_events
  simp only [State.emit]
  split_ifs <;> simp

theorem transfer_eq (env : Env) (s : State) :
    transfer env s =
      { input_step env s with
        trace := s.trace ++ (input_events env s ++ (output_events env (input_step env s)
                   ++ send_events (output_step env (input_step env s))))
        data_in := { (input_step env s).data_in with valid := false } } := by
  have ht : (input_step env s).trace = s.trace ++ input_events env s := by
    rw [input_step_eq]
  unfold transfer
  rw [send_eq, output_step_eq env (input_step env s)]
  simp [ht]

/-! ## Frame properties -/

theorem recv_frame (env : Env) (s : State) :
    (recv env s).data_in.valid = s.data_in.valid ∧
    (recv env s).data_in.bits = s.data_in.bits ∧
    (recv env s).data_in.ready = decide (env.mmio s.trace .in_ready ≠ 0) ∧
    (recv env s).data_out.ready = s.data_out.ready ∧
    (recv env s).specialchar = s.specialchar ∧
    (recv env s).loggingfd = s.loggingfd := by
  unfold recv
  simp only [State.emit]
  split <;> simp

theorem define_wait_frame (k : Consts) (env : Env) (fuel : Nat) (s : State) :
    (define_wait k env fuel s).state.data_in = s.data_in ∧
    (define_wait k env fuel s).state.data_out = s.data_out ∧
    (define_wait k env fuel s).state.specialchar = s.specialchar ∧
    (define_wait k env fuel s).state.loggingfd = s.loggingfd := by
  induction fuel generalizing s with
  | zero => simp [define_wait, Outcome.state]
  | succ f ih =>
    unfold define_wait
    simp only [State.emit]
    split
    · have := ih { s with
        buf := store s.buf (sys_read (env.net s.trace) (k.CS_DEFINE_LEN + 1)).2
        trace := s.trace ++ [.net_read (k.CS_DEFINE_LEN + 1)
          (sys_read (env.net s.trace) (k.CS_DEFINE_LEN + 1)).1
          (sys_read (env.net s.trace) (k.CS_DEFINE_LEN + 1)).2] }
      simpa using this
    · simp [Outcome.state]

theorem define_wait_frame_eq {k : Consts} {env : Env} {fuel : Nat} {s : State} {o : Outcome}
    (h : define_wait k env fuel s = o) :
    o.state.data_in = s.data_in ∧ o.state.data_out = s.data_out ∧
    o.state.specialchar = s.specialchar ∧ o.state.loggingfd = s.loggingfd :=
  h ▸ define_wait_frame k env fuel s

theorem process_packet_frame (k : Consts) (env : Env) (fuel : Nat) (s : State) :
    (process_packet k env fuel s).state.data_in = s.data_in ∧
    (process_packet k env fuel s).state.data_out = s.data_out ∧
    (process_packet k env fuel s).state.specialchar = s.specialchar ∧
    (process_packet k env fuel s).state.loggingfd = s.loggingfd := by
  unfold process_packet
  simp only [State.emit]
  split
  · split
    · simp [Outcome.state]
    · split
      · simp [Outcome.state]
      · split
        · split
          · rename_i s1 heq
            simpa [Outcome.state] using define_wait_frame_eq heq
          · rename_i s1 heq
            simpa [Outcome.state] using define_wait_frame_eq heq
        · simp [Outcome.state]
  · simp [Outcome.state]

theorem output_events_neutral (env : Env) (s : State) :
    (output_events env s).all input_neutral = true := by
  unfold output_events
  split_ifs <;> simp [input_neutral, in_bits_of, consumed_of]

theorem neutral_in_bits (ev : List Event) (h : ev.all input_neutral = true) :
    in_bits_writes ev = [] := by
  have := (delivered_once_of_neutral ev h)
  induction ev with
  | nil => rfl
  | cons e rest ih =>
    simp only [List.all_cons, Bool.and_eq_true, input_neutral, Option.isNone_iff_eq_none] at h
    simp only [in_bits_writes, List.filterMap_cons, h.1.1]
    exact ih h.2 (delivered_once_of_neutral rest h.2)

theorem neutral_consumed (ev : List Event) (h : ev.all input_neutral = true) :
    consumed ev = [] := by
  rw [← (delivered_once_of_neutral ev h).1]
  exact neutral_in_bits ev h

theorem paired_append_free (a b : List Event) (h : in_bits_writes a = []) :
    paired (a ++ b) = paired b := by
  induction a with
  | nil => rfl
  | cons e rest ih =>
    have he : in_bits_of e = none := by
      cases hh : in_bits_of e with
      | none => rfl
      | some v => simp [in_bits_writes, List.filterMap_cons, hh] at h
    have hr : in_bits_writes rest = [] := by
      simpa [in_bits_writes, List.filterMap_cons, he] using h
    rw [List.cons_append, paired_cons e _ he]
    exact ih hr

theorem input_events_proj (env : Env) (s : State) :
    in_bits_writes (input_events env s) = [] ∧
    consumed (input_events env s) = (obtained env s).toList := by
  unfold input_events obtained
  split_ifs <;> simp_all [in_bits_writes, consumed, in_bits_of, consumed_of]

theorem send_events_proj (s : State) :
    in_bits_writes (send_events s) = (if s.data_in.fire then [s.data_in.bits] else []) ∧
    consumed (send_events s) = [] ∧ paired (send_events s) = true := by
  unfold send_events
  simp only [Channel.fire]
  split_ifs <;> simp_all [in_bits_writes, consumed, in_bits_of, consumed_of, paired]

theorem input_step_fire (env : Env) (s : State)
    (hv : s.data_in.valid = false ∨ (obtained env s).isSome = true) :
    (if (input_step env s).data_in.fire then [(input_step env s).data_in.bits] else [])
      = (obtained env s).toList := by
  rw [input_step_eq]
  unfold obtained at hv ⊢
  simp only [Channel.fire]
  split_ifs at hv ⊢ <;> simp_all

theorem transfer_delivered (env : Env) (s : State) (hv : s.data_in.valid = false) :
    delivered_once (input_events env s ++ (output_events env (input_step env s)
      ++ send_events (output_step env (input_step env s)))) := by
  have hn := output_events_neutral env (input_step env s)
  have hi := input_events_proj env s
  have hs := send_events_proj (output_step env (input_step env s))
  have hf := input_step_fire env s (Or.inl hv)
  have hd : (output_step env (input_step env s)).data_in = (input_step env s).data_in := by
    rw [output_step_eq]
  rw [hd] at hs
  refine ⟨?_, ?_⟩
  · simp only [in_bits_writes, consumed, List.filterMap_append] at hi hs ⊢
    have h1 := neutral_in_bits _ hn
    have h2 := neutral_consumed _ hn
    simp only [in_bits_writes, consumed] at h1 h2
    rw [hi.1, hi.2, h1, h2, hs.1, hs.2.1, hf]
    simp
  · rw [paired_append_free _ _ hi.1, paired_append_free _ _ (neutral_in_bits _ hn)]
    exact hs.2.2

/-! ## The input side over whole ticks -/

theorem process_packet_grows_eq {k : Consts} {env : Env} {fuel : Nat} {s : State}
    {o : Outcome} (h : process_packet k env fuel s = o) :
    Grows (fun ev => ev.all of_process_packet = true) s o.state :=
  h ▸ process_packet_grows k env fuel s

theorem process_packet_frame_eq {k : Consts} {env : Env} {fuel : Nat} {s : State}
    {o : Outcome} (h : process_packet k env fuel s = o) :
    o.state.data_in = s.data_in ∧ o.state.data_out = s.data_out ∧
    o.state.specialchar = s.specialchar ∧ o.state.loggingfd = s.loggingfd :=
  h ▸ process_packet_frame k env fuel s

theorem recv_delivered (env : Env) (s : State) : Grows delivered_once s (recv env s) :=
  Grows.mono (fun ev h => delivered_once_of_neutral ev (all_mono of_recv_neutral ev h))
    (recv_grows env s)

theorem process_packet_delivered {k : Consts} {env : Env} {fuel : Nat} {s : State}
    {o : Outcome} (h : process_packet k env fuel s = o) : Grows delivered_once s o.state :=
  Grows.mono
    (fun ev h => delivered_once_of_neutral ev (all_mono of_process_packet_neutral ev h))
    (process_packet_grows_eq h)

theorem transfer_grows (env : Env) (s : State) (hv : s.data_in.valid = false) :
    Grows delivered_once s (transfer env s) :=
  ⟨_, by rw [transfer_eq], transfer_delivered env s hv⟩

theorem transfer_valid (env : Env) (s : State) : (transfer env s).data_in.valid = false := by
  rw [transfer_eq]

theorem tick_body_delivered (k : Consts) (env : Env) (fuel : Nat) (s : State)
    (hv : s.data_in.valid = false) :
    Grows delivered_once s (tick_body k env fuel s).state ∧
    (tick_body k env fuel s).state.data_in.valid = false := by
  unfold tick_body
  have hr := recv_delivered env s
  have hrv := (recv_frame env s).1
  cases h : process_packet k env fuel (recv env s) with
  | spin s1 =>
    have hp := process_packet_delivered h
    have hf := (process_packet_frame_eq h).1
    simp only [Outcome.state] at hp hf ⊢
    exact ⟨Grows.trans delivered_once_append hr hp, by rw [hf, hrv, hv]⟩
  | done s1 =>
    have hp := process_packet_delivered h
    have hf := (process_packet_frame_eq h).1
    simp only [Outcome.state] at hp hf ⊢
    have hv1 : s1.data_in.valid = false := by rw [hf, hrv, hv]
    exact ⟨Grows.trans delivered_once_append (Grows.trans delivered_once_append hr hp)
      (transfer_grows env s1 hv1), transfer_valid env s1⟩

theorem tick_loop_delivered (k : Consts) (env : Env) (fuel : Nat) (s : State)
    (hv : s.data_in.valid = false) :
    Grows delivered_once s (tick_loop k env fuel s).state := by
  induction fuel generalizing s with
  | zero => exact Grows.refl delivered_once_nil s
  | succ f ih =>
    unfold tick_loop
    have hb := tick_body_delivered k env (f + 1) s hv
    cases h : tick_body k env (f + 1) s with
    | spin s1 => rw [h] at hb; exact hb.1
    | done s1 =>
      rw [h] at hb
      simp only [Outcome.state] at hb ⊢
      by_cases hc : (s1.data_in.fire || s1.data_out.fire) = true
      · rw [if_pos hc]
        exact Grows.trans delivered_once_append hb.1 (ih s1 hb.2)
      · rw [if_neg hc]
        exact hb.1

theorem tick_delivered (k : Consts) (env : Env) (fuel : Nat) (s : State) :
    Grows delivered_once s (tick k env fuel s).state := by
  unfold tick
  exact tick_loop_delivered k env fuel _ rfl

theorem run_delivered (k : Consts) (env : Env) (fuel : Nat) (acts : List Action)
    (s : State) : Grows delivered_once s (run k env fuel acts s).state := by
  induction acts generalizing s with
  | nil => exact Grows.refl delivered_once_nil s
  | cons a rest ih =>
    cases a with
    | tick =>
      unfold run
      have ht := tick_delivered k env fuel s
      cases h : tick k env fuel s with
      | spin s1 => rw [h] at ht; exact ht
      | done s1 =>
        rw [h] at ht
        exact Grows.trans delivered_once_append ht (ih s1)
    | signal sig =>
      unfold run
      have hs : Grows delivered_once s (sighand sig s) := by
        refine ⟨[], ?_, delivered_once_nil⟩
        unfold sighand
        split <;> simp
      exact Grows.trans delivered_once_append hs (ih _)

theorem input_bytes_sublist (tr : List Event) : (input_bytes tr).Sublist (consumed tr) := by
  induction tr with
  | nil => exact List.Sublist.slnil
  | cons e rest ih =>
    cases e with
    | input_read ret bytes =>
      by_cases h : 0 < ret
      · simpa [input_bytes, consumed, List.filterMap_cons, input_of, consumed_of, h] using ih
      · simpa [input_bytes, consumed, List.filterMap_cons, input_of, consumed_of, h] using ih
    | take_special v =>
      simp only [input_bytes, consumed, List.filterMap_cons, input_of, consumed_of]
      exact List.Sublist.cons _ ih
    | _ => simpa [input_bytes, consumed, List.filterMap_cons, input_of, consumed_of] using ih

/-! ## Closed forms of process_packet -/

theorem store_head (buf : List Int) (b : Int) : (store buf [b]).headD 0 = b := by
  simp [store]

theorem process_packet_command (k : Consts) (env : Env) (fuel : Nat) (s : State) (b : Int)
    (rest : List Int) (hnet : env.net s.trace = some (b :: rest)) :
    process_packet k env fuel s =
      if b % 256 = k.CS_GRANT_TOKEN then
        .done { after_command k s b with
                trace := s.trace ++ [.net_read 1 1 [b], .mmio_write .in_ctrl_bits 1,
                                     .mmio_write .in_ctrl_valid 1] }
      else if b % 256 = k.CS_REQ_CYCLES then
        .done { after_command k s b with
                buf := sprintf_d (bzero k.ROBOTICS_COSIM_BUFSIZE)
                  (env.mmio (after_command k s b).trace .cycle_budget)
                trace := s.trace ++ [.net_read 1 1 [b],
                  .mmio_read .cycle_budget (env.mmio (after_command k s b).trace .cycle_budget),
                  .net_write ((sprintf_d (bzero k.ROBOTICS_COSIM_BUFSIZE)
                      (env.mmio (after_command k s b).trace .cycle_budget)).take
                    (strlen (sprintf_d (bzero k.ROBOTICS_COSIM_BUFSIZE)
                      (env.mmio (after_command k s b).trace .cycle_budget))))] }
      else if b % 256 = k.CS_DEFINE_STEP then
        match define_wait k env fuel
            { after_command k s b with
              buf := bzero k.ROBOTICS_COSIM_BUFSIZE
              trace := s.trace ++ [.net_read 1 1 [b], .printf_received] } with
        | .spin s1 => .spin s1
        | .done s1 =>
          .done { s1 with trace := s1.trace ++ [.printf_step (atoi s1.buf),
                                                .mmio_write .cycle_step (atoi s1.buf)] }
      else .done (after_command k s b) := by
  unfold process_packet after_command
  simp only [State.emit, hnet, sys_read, List.take_succ_cons, List.take_zero, List.length_singleton,
    Nat.cast_one, zero_lt_one, if_true, store_head, List.append_assoc, List.singleton_append]
  rfl

theorem process_packet_no_command (k : Consts) (env : Env) (fuel : Nat) (s : State)
    (h : (sys_read (env.net s.trace) 1).1 ≤ 0) :
    process_packet k env fuel s = .done (after_no_command k env s) := by
  have h2 : (sys_read (env.net s.trace) 1).2 = [] := by
    cases hn : env.net s.trace with
    | none => simp [sys_read]
    | some l =>
      cases l with
      | nil => simp [sys_read]
      | cons b rest => simp [hn, sys_read] at h
  unfold process_packet after_no_command
  simp only [State.emit, h2, not_lt.mpr h, if_false, store, List.length_nil, List.drop_zero,
    List.nil_append]

/-! ## Counting over one iteration -/

theorem recv_eq (env : Env) (s : State) :
    recv env s =
      { s with
        trace := s.trace ++ recv_events env s
        data_in := { s.data_in with ready := decide (env.mmio s.trace .in_ready ≠ 0) }
        data_out :=
          { bits := if out_valid_read env s ≠ 0 then
                      env.mmio (s.trace ++ [.mmio_read .in_ready (env.mmio s.trace .in_ready),
                        .mmio_read .out_valid (out_valid_read env s)]) .out_bits
                    else s.data_out.bits
            valid := decide (out_valid_read env s ≠ 0)
            ready := s.data_out.ready } } := by
  unfold recv recv_events out_valid_read
  simp only [State.emit]
  split_ifs <;> simp_all

theorem transfer_class (env : Env) (s : State) :
    Grows (fun ev => ev.all of_transfer = true) s (transfer env s) := by
  refine ⟨_, by rw [transfer_eq], ?_⟩
  simp only [List.all_append, Bool.and_eq_true]
  refine ⟨?_, ?_, ?_⟩
  · unfold input_events; split_ifs <;> simp [of_transfer]
  · unfold output_events; split_ifs <;> simp [of_transfer]
  · unfold send_events; split_ifs <;> simp [of_transfer]

theorem countP_zero_of_all {p q : Event → Bool} (h : ∀ e, p e = true → q e = false)
    (ev : List Event) (hp : ev.all p = true) : ev.countP q = 0 := by
  rw [List.countP_eq_zero]
  intro e he
  simp only [List.all_eq_true] at hp
  simp [h e (hp e he)]

theorem define_wait_reads (k : Consts) (env : Env) (fuel : Nat) (s : State) :
    Grows (fun ev => ev.all (of_define_wait k) = true) s (define_wait k env fuel s).state := by
  induction fuel generalizing s with
  | zero => exact Grows.refl (by simp) s
  | succ f ih =>
    unfold define_wait
    simp only [State.emit]
    split
    · refine Grows.trans (fun a b ha hb => by simp [List.all_append, ha, hb]) ?_ (ih _)
      exact ⟨[_], rfl, by simp [of_define_wait]⟩
    · exact ⟨[_], rfl, by simp [of_define_wait]⟩

theorem define_wait_reads_eq {k : Consts} {env : Env} {fuel : Nat} {s : State} {o : Outcome}
    (h : define_wait k env fuel s = o) :
    Grows (fun ev => ev.all (of_define_wait k) = true) s o.state :=
  h ▸ define_wait_reads k env fuel s

theorem of_define_wait_counts (k : Consts) (ev : List Event)
    (h : ev.all (of_define_wait k) = true) :
    dispatched ev = 0 ∧ iterations ev = 0 ∧ acks ev = 0 ∧
      ∀ c r bs, Event.net_read c r bs ∈ ev → c = k.CS_DEFINE_LEN + 1 := by
  refine ⟨countP_zero_of_all ?_ ev h, countP_zero_of_all ?_ ev h, countP_zero_of_all ?_ ev h, ?_⟩
  · intro e he; cases e <;> simp_all [of_define_wait, is_dispatch]
  · intro e he; cases e <;> simp_all [of_define_wait, reads_in_ready]
  · intro e he; cases e <;> simp_all [of_define_wait, is_ack]
  · intro c r bs hmem
    simp only [List.all_eq_true] at h
    simpa [of_define_wait] using h _ hmem

theorem process_packet_dispatched (k : Consts) (env : Env) (fuel : Nat) (s : State) :
    ∃ ev, (process_packet k env fuel s).state.trace
        = s.trace ++ .net_read 1 (sys_read (env.net s.trace) 1).1
            (sys_read (env.net s.trace) 1).2 :: ev ∧
      dispatched ev ≤ 1 ∧ iterations ev = 0 ∧ acks ev = 0 ∧
      (∀ c r bs, Event.net_read c r bs ∈ ev →
        c = k.CS_DEFINE_LEN + 1 ∧
          (sys_read (env.net s.trace) 1).2.headD 0 % 256 = k.CS_DEFINE_STEP) := by
  have hidle : (sys_read (env.net s.trace) 1).1 ≤ 0 → (sys_read (env.net s.trace) 1).2 = [] := by
    intro h
    cases hn : env.net s.trace with
    | none => simp [sys_read]
    | some l =>
      cases l with
      | nil => simp [sys_read]
      | cons b rest => simp [hn, sys_read] at h
  by_cases hret : (sys_read (env.net s.trace) 1).1 ≤ 0
  · rw [process_packet_no_command k env fuel s hret, hidle hret]
    exact ⟨[], rfl, by simp [dispatched], by simp [iterations], by simp [acks], by simp⟩
  · cases hn : env.net s.trace with
    | none => simp [hn, sys_read] at hret
    | some l =>
      cases l with
      | nil => simp [hn, sys_read] at hret
      | cons b rest =>
        rw [process_packet_command k env fuel s b rest hn]
        simp only [sys_read, List.take_succ_cons, List.take_zero, List.length_singleton,
          Nat.cast_one, List.headD_cons]
        split_ifs with h1 h2 h3
        · exact ⟨[_, _], rfl, by simp [dispatched, is_dispatch],
            by simp [iterations, reads_in_ready], by simp [acks, is_ack], by simp⟩
        · exact ⟨[_, _], rfl, by simp [dispatched, is_dispatch],
            by simp [iterations, reads_in_ready], by simp [acks, is_ack], by simp⟩
        · split
          · rename_i s1 heq
            obtain ⟨ev, ht, hall⟩ := define_wait_reads_eq heq
            simp only [Outcome.state] at ht ⊢
            obtain ⟨c1, c2, c3, c4⟩ := of_define_wait_counts k ev hall
            simp only [dispatched, iterations, acks] at c1 c2 c3
            refine ⟨.printf_received :: ev, by rw [ht]; simp [after_command], ?_, ?_, ?_, ?_⟩
            · simp [dispatched, List.countP_cons, c1, is_dispatch]
            · simp [iterations, List.countP_cons, c2, reads_in_ready]
            · simp [acks, List.countP_cons, c3, is_ack]
            · intro c r bs hmem
              simp only [List.mem_cons, reduceCtorEq, false_or] at hmem
              exact ⟨c4 c r bs hmem, h3⟩
          · rename_i s1 heq
            obtain ⟨ev, ht, hall⟩ := define_wait_reads_eq heq
            simp only [Outcome.state] at ht ⊢
            obtain ⟨c1, c2, c3, c4⟩ := of_define_wait_counts k ev hall
            simp only [dispatched, iterations, acks] at c1 c2 c3
            refine ⟨.printf_received :: (ev ++ [.printf_step (atoi s1.buf),
              .mmio_write .cycle_step (atoi s1.buf)]), by rw [ht]; simp [after_command],
              ?_, ?_, ?_, ?_⟩
            · simp [dispatched, List.countP_cons, List.countP_append, c1, is_dispatch]
            · simp [iterations, List.countP_cons, List.countP_append, c2, reads_in_ready]
            · simp [acks, List.countP_cons, List.countP_append, c3, is_ack]
            · intro c r bs hmem
              simp only [List.mem_cons, reduceCtorEq, false_or, List.mem_append,
                List.mem_singleton, or_false, List.not_mem_nil] at hmem
              exact ⟨c4 c r bs hmem, h3⟩
        · exact ⟨[], rfl, by simp [dispatched], by simp [iterations], by simp [acks],
            by simp⟩

theorem recv_counts (env : Env) (s : State) :
    iterations (recv env s).trace = iterations s.trace + 1 ∧
    dispatched (recv env s).trace = dispatched s.trace ∧
    acks (recv env s).trace = acks s.trace ∧
    in_bits_writes (recv env s).trace = in_bits_writes s.trace := by
  rw [recv_eq]
  unfold recv_events
  simp only [iterations, dispatched, acks, in_bits_writes]
  split_ifs <;>
    simp [List.countP_append, List.countP_cons, reads_in_ready, is_dispatch, is_ack,
      List.filterMap_append, in_bits_of]

theorem process_packet_counts (k : Consts) (env : Env) (fuel : Nat) (s : State) :
    iterations (process_packet k env fuel s).state.trace = iterations s.trace ∧
    dispatched (process_packet k env fuel s).state.trace ≤ dispatched s.trace + 1 ∧
    acks (process_packet k env fuel s).state.trace = acks s.trace ∧
    in_bits_writes (process_packet k env fuel s).state.trace = in_bits_writes s.trace := by
  obtain ⟨ev, ht, hd, hi, ha, _⟩ := process_packet_dispatched k env fuel s
  obtain ⟨ev2, ht2, hall⟩ := process_packet_grows k env fuel s
  refine ⟨?_, ?_, ?_, ?_⟩
  · rw [ht]; simp only [iterations] at hi ⊢
    simp [List.countP_append, List.countP_cons, hi, reads_in_ready]
  · rw [ht]; simp only [dispatched] at hd ⊢
    simp [List.countP_append, List.countP_cons, is_dispatch]
    omega
  · rw [ht]; simp only [acks] at ha ⊢
    simp [List.countP_append, List.countP_cons, ha, is_ack]
  · rw [ht2]
    have := neutral_in_bits ev2 (all_mono of_process_packet_neutral ev2 hall)
    simp only [in_bits_writes] at this ⊢
    simp [List.filterMap_append, this]

theorem transfer_counts (env : Env) (s : State) :
    iterations (transfer env s).trace = iterations s.trace ∧
    dispatched (transfer env s).trace = dispatched s.trace ∧
    acks (transfer env s).trace = acks s.trace + (if s.data_out.fire then 1 else 0) := by
  obtain ⟨ev, ht, hall⟩ := transfer_class env s
  refine ⟨?_, ?_, ?_⟩
  · rw [ht]
    have := countP_zero_of_all (q := reads_in_ready)
      (fun e he => by cases e <;> simp_all [of_transfer, reads_in_ready]) ev hall
    simp [iterations, List.countP_append, this]
  · rw [ht]
    have := countP_zero_of_all (q := is_dispatch)
      (fun e he => by
        cases e with
        | mmio_write r v => cases r <;> simp_all [of_transfer, is_dispatch]
        | _ => simp_all [of_transfer, is_dispatch]) ev hall
    simp [dispatched, List.countP_append, this]
  · rw [transfer_eq]
    have h1 : acks (input_events env s) = 0 := by
      unfold input_events; split_ifs <;> simp [acks, is_ack]
    have h2 : acks (output_events env (input_step env s)) = 0 := by
      unfold output_events; split_ifs <;> simp [acks, is_ack]
    have h3 : acks (send_events (output_step env (input_step env s)))
        = if s.data_out.fire then 1 else 0 := by
      have hd : (output_step env (input_step env s)).data_out = s.data_out := by
        rw [output_step_eq, input_step_eq]
      unfold send_events
      rw [hd]
      split_ifs <;> simp [acks, is_ack]
    simp only [acks, List.countP_append] at h1 h2 h3 ⊢
    omega

theorem transfer_in_bits (env : Env) (s : State)
    (hv : s.data_in.valid = false ∨ (obtained env s).isSome = true) :
    in_bits_writes (transfer env s).trace = in_bits_writes s.trace ++ (obtained env s).toList := by
  rw [transfer_eq]
  have hn := neutral_in_bits _ (output_events_neutral env (input_step env s))
  have hi := (input_events_proj env s).1
  have hs := (send_events_proj (output_step env (input_step env s))).1
  have hd : (output_step env (input_step env s)).data_in = (input_step env s).data_in := by
    rw [output_step_eq]
  rw [hd, input_step_fire env s hv] at hs
  simp only [in_bits_writes, List.filterMap_append] at hn hi hs ⊢
  rw [hn, hi, hs]; simp

theorem process_packet_counts_eq {k : Consts} {env : Env} {fuel : Nat} {s : State}
    {o : Outcome} (h : process_packet k env fuel s = o) :
    iterations o.state.trace = iterations s.trace ∧
    dispatched o.state.trace ≤ dispatched s.trace + 1 ∧
    acks o.state.trace = acks s.trace ∧
    in_bits_writes o.state.trace = in_bits_writes s.trace :=
  h ▸ process_packet_counts k env fuel s

theorem tick_body_counts (k : Consts) (env : Env) (fuel : Nat) (s : State)
    (hv : s.data_in.valid = false) :
    iterations (tick_body k env fuel s).state.trace = iterations s.trace + 1 ∧
    dispatched (tick_body k env fuel s).state.trace ≤ dispatched s.trace + 1 ∧
    (in_bits_writes (tick_body k env fuel s).state.trace).length
      ≤ (in_bits_writes s.trace).length + 1 := by
  obtain ⟨r1, r2, _, r4⟩ := recv_counts env s
  unfold tick_body
  cases h : process_packet k env fuel (recv env s) with
  | spin s1 =>
    obtain ⟨p1, p2, _, p4⟩ := process_packet_counts_eq h
    simp only [Outcome.state] at p1 p2 p4 ⊢
    rw [p1, r1, p4, r4]
    exact ⟨rfl, by omega, by omega⟩
  | done s1 =>
    obtain ⟨p1, p2, _, p4⟩ := process_packet_counts_eq h
    obtain ⟨t1, t2, _⟩ := transfer_counts env s1
    have hv1 : s1.data_in.valid = false := by
      have := (process_packet_frame_eq h).1
      simp only [Outcome.state] at this
      rw [this, (recv_frame env s).1, hv]
    simp only [Outcome.state] at p1 p2 p4 ⊢
    rw [t1, t2, p1, r1, transfer_in_bits env s1 (Or.inl hv1), p4, r4]
    refine ⟨rfl, by omega, ?_⟩
    cases obtained env s1 <;> simp

theorem tick_loop_counts (k : Consts) (env : Env) (fuel : Nat) (s : State)
    (hv : s.data_in.valid = false) :
    dispatched (tick_loop k env fuel s).state.trace + iterations s.trace
      ≤ dispatched s.trace + iterations (tick_loop k env fuel s).state.trace ∧
    (in_bits_writes (tick_loop k env fuel s).state.trace).length + iterations s.trace
      ≤ (in_bits_writes s.trace).length + iterations (tick_loop k env fuel s).state.trace := by
  induction fuel generalizing s with
  | zero => simp [tick_loop, Outcome.state]
  | succ f ih =>
    unfold tick_loop
    obtain ⟨b1, b2, b3⟩ := tick_body_counts k env (f + 1) s hv
    have hv2 := (tick_body_delivered k env (f + 1) s hv).2
    cases h : tick_body k env (f + 1) s with
    | spin s1 =>
      rw [h] at b1 b2 b3
      simp only [state_done, state_spin] at b1 b2 b3 ⊢
      omega
    | done s1 =>
      rw [h] at b1 b2 b3 hv2
      simp only [state_done, state_spin] at b1 b2 b3 hv2 ⊢
      by_cases hc : (s1.data_in.fire || s1.data_out.fire) = true
      · rw [if_pos hc]
        have := ih s1 hv2
        omega
      · rw [if_neg hc]
        simp only [state_done, state_spin]
        omega

/-! ## Termination of the drain loop -/

theorem process_packet_returns (k : Consts) (env : Env)
    (hdef : ∀ tr b rest, env.net tr = some (b :: rest) → b % 256 ≠ k.CS_DEFINE_STEP)
    (fuel : Nat) (s : State) : ∃ s1, process_packet k env fuel s = .done s1 := by
  by_cases hret : (sys_read (env.net s.trace) 1).1 ≤ 0
  · exact ⟨_, process_packet_no_command k env fuel s hret⟩
  · cases hn : env.net s.trace with
    | none => simp [hn, sys_read] at hret
    | some l =>
      cases l with
      | nil => simp [hn, sys_read] at hret
      | cons b rest =>
        rw [process_packet_command k env fuel s b rest hn]
        have h3 := hdef s.trace b rest hn
        split_ifs
        · exact ⟨_, rfl⟩
        · exact ⟨_, rfl⟩
        · exact ⟨_, rfl⟩

theorem transfer_data_out (env : Env) (s : State) :
    (transfer env s).data_out = s.data_out := by
  rw [transfer_eq, input_step_eq]

theorem tick_body_returns (k : Consts) (env : Env)
    (hdef : ∀ tr b rest, env.net tr = some (b :: rest) → b % 256 ≠ k.CS_DEFINE_STEP)
    (fuel : Nat) (s : State) :
    ∃ s2, tick_body k env fuel s = .done s2 ∧ s2.data_in.valid = false ∧
      s2.data_out.ready = s.data_out.ready ∧
      s2.data_out.valid = decide (out_valid_read env s ≠ 0) ∧
      iterations s2.trace = iterations s.trace + 1 ∧
      acks s2.trace = acks s.trace +
        (if (decide (out_valid_read env s ≠ 0) && s.data_out.ready) = true then 1 else 0) := by
  obtain ⟨s1, h⟩ := process_packet_returns k env hdef fuel (recv env s)
  obtain ⟨_, f2, _, _⟩ := process_packet_frame_eq h
  obtain ⟨p1, _, p3, _⟩ := process_packet_counts_eq h
  obtain ⟨r1, _, r3, _⟩ := recv_counts env s
  obtain ⟨t1, _, t3⟩ := transfer_counts env s1
  simp only [state_done] at f2 p1 p3
  have hout : s1.data_out.valid = decide (out_valid_read env s ≠ 0) ∧
      s1.data_out.ready = s.data_out.ready := by
    rw [f2, recv_eq]; exact ⟨rfl, rfl⟩
  refine ⟨transfer env s1, by simp only [tick_body, h], transfer_valid env s1, ?_, ?_, ?_, ?_⟩
  · rw [transfer_data_out, hout.2]
  · rw [transfer_data_out, hout.1]
  · rw [t1, p1, r1]
  · rw [t3, p3, r3]
    simp only [Channel.fire, hout.1, hout.2]

theorem tick_loop_terminates (k : Consts) (env : Env) (B : Nat)
    (hout : ∀ tr, B ≤ acks tr → env.mmio tr .out_valid = 0)
    (hdef : ∀ tr b rest, env.net tr = some (b :: rest) → b % 256 ≠ k.CS_DEFINE_STEP)
    (n : Nat) (s : State) (hr : s.data_out.ready = true) (hn : B - acks s.trace ≤ n) :
    ∃ s1, tick_loop k env (n + 1) s = .done s1 ∧
      iterations s1.trace + acks s.trace = iterations s.trace + acks s1.trace + 1 ∧
      iterations s1.trace ≤ iterations s.trace + (B - acks s.trace) + 1 ∧
      (out_valid_read env s = 0 → iterations s1.trace = iterations s.trace + 1) := by
  induction n generalizing s with
  | zero =>
    obtain ⟨s2, hb, hv, hrd, hvd, hi, ha⟩ := tick_body_returns k env hdef 1 s
    have hz : out_valid_read env s = 0 := by
      apply hout
      simp only [acks, List.countP_append] 
      simp [List.countP_cons, is_ack]
      simp only [acks] at hn
      omega
    refine ⟨s2, ?_, ?_, ?_, ?_⟩
    · simp only [tick_loop, hb, Channel.fire, hv, hvd, hz]
      simp
    · rw [hi, ha]; simp [hz]; omega
    · rw [hi]; omega
    · intro _; exact hi
  | succ m ih =>
    obtain ⟨s2, hb, hv, hrd, hvd, hi, ha⟩ := tick_body_returns k env hdef (m + 1 + 1) s
    by_cases hz : out_valid_read env s = 0
    · refine ⟨s2, ?_, ?_, ?_, ?_⟩
      · rw [tick_loop]
        simp only [hb, Channel.fire, hv, hvd, hz]
        simp
      · rw [hi, ha]; simp [hz]; omega
      · rw [hi]; omega
      · intro _; exact hi
    · have hlt : acks s.trace < B := by
        by_contra hge
        apply hz
        apply hout
        simp only [acks, List.countP_append] 
        simp [List.countP_cons, is_ack]
        simp only [acks] at hge
        omega
      have ha2 : acks s2.trace = acks s.trace + 1 := by
        rw [ha]; simp [hz, hr]
      obtain ⟨s3, h3, c1, c2, _⟩ := ih s2 (by rw [hrd, hr]) (by omega)
      refine ⟨s3, ?_, ?_, ?_, ?_⟩
      · rw [tick_loop]
        simp only [hb, Channel.fire, hv, hvd, hrd, hr, hz]
        simpa [hz] using h3
      · omega
      · omega
      · intro h; exact absurd h hz

/-! ## Anatomy of one iteration -/

theorem filterMap_nil_of_all {α : Type} {p : Event → Bool} {f : Event → Option α}
    (h : ∀ e, p e = true → f e = none) (ev : List Event) (hp : ev.all p = true) :
    ev.filterMap f = [] := by
  rw [List.filterMap_eq_nil_iff]
  simp only [List.all_eq_true] at hp
  exact fun e he => h e (hp e he)

theorem tick_body_done {k : Consts} {env : Env} {fuel : Nat} {s s2 : State}
    (h : tick_body k env fuel s = .done s2) :
    ∃ s1, process_packet k env fuel (recv env s) = .done s1 ∧ s2 = transfer env s1 ∧
      s1.data_in = (recv env s).data_in ∧ s1.data_out = (recv env s).data_out ∧
      s1.specialchar = s.specialchar ∧
      in_bits_writes s1.trace = in_bits_writes s.trace ∧
      takes s1.trace = takes s.trace ∧ input_reads s1.trace = input_reads s.trace := by
  unfold tick_body at h
  cases hp : process_packet k env fuel (recv env s) with
  | spin s1 => rw [hp] at h; cases h
  | done s1 =>
    rw [hp] at h
    obtain ⟨f1, f2, f3, _⟩ := process_packet_frame_eq hp
    obtain ⟨_, _, _, c4⟩ := process_packet_counts_eq hp
    obtain ⟨e1, ht1, ha1⟩ := recv_grows env s
    obtain ⟨e2, ht2, ha2⟩ := process_packet_grows_eq hp
    simp only [state_done] at f1 f2 f3 c4 ht2
    refine ⟨s1, rfl, by cases h; rfl, f1, f2, by rw [f3, (recv_frame env s).2.2.2.2.1],
      by rw [c4, (recv_counts env s).2.2.2], ?_, ?_⟩
    · rw [ht2, ht1]
      simp only [takes, List.filterMap_append]
      rw [filterMap_nil_of_all (fun e he => by cases e <;> simp_all [of_recv, take_of]) e1 ha1,
        filterMap_nil_of_all
          (fun e he => by cases e <;> simp_all [of_process_packet, take_of]) e2 ha2]
      simp
    · rw [ht2, ht1]
      simp only [input_reads, List.countP_append]
      rw [countP_zero_of_all (fun e he => by cases e <;> simp_all [of_recv, is_input_read])
          e1 ha1,
        countP_zero_of_all
          (fun e he => by cases e <;> simp_all [of_process_packet, is_input_read]) e2 ha2]
      rfl

theorem transfer_input_side (env : Env) (s : State) :
    takes (transfer env s).trace = takes s.trace ++ takes (input_events env s) ∧
    input_reads (transfer env s).trace
      = input_reads s.trace + input_reads (input_events env s) := by
  rw [transfer_eq]
  have h1 : takes (output_events env (input_step env s)) = [] ∧
      input_reads (output_events env (input_step env s)) = 0 := by
    unfold output_events; split_ifs <;> simp [takes, take_of, input_reads, is_input_read]
  have h2 : takes (send_events (output_step env (input_step env s))) = [] ∧
      input_reads (send_events (output_step env (input_step env s))) = 0 := by
    unfold send_events; split_ifs <;> simp [takes, take_of, input_reads, is_input_read]
  simp only [takes, input_reads, List.filterMap_append, List.countP_append] at h1 h2 ⊢
  rw [h1.1, h1.2, h2.1, h2.2]
  simp

theorem transfer_specialchar (env : Env) (s : State) :
    (transfer env s).specialchar = if s.data_in.ready then 0 else s.specialchar := by
  rw [transfer_eq, input_step_eq]

/-! ## The C library functions -/

theorem dec_digits_eq (fuel n : Nat) (acc : List Int) (h : n < fuel) :
    dec_digits fuel n acc = decimal_ascii n ++ acc := by
  induction fuel generalizing n acc with
  | zero => omega
  | succ f ih =>
    unfold dec_digits
    by_cases h10 : n < 10
    · rw [if_pos h10]
      by_cases h0 : n = 0
      · subst h0; simp [decimal_ascii, decimal, digit_char]
      · have : Nat.digits 10 n = [n] := Nat.digits_of_lt 10 n h0 h10
        simp [decimal_ascii, decimal, h0, this, digit_char]
    · rw [if_neg h10]
      have hpos : 0 < n := by omega
      have hdiv : n / 10 ≠ 0 := by omega
      have hn0 : n ≠ 0 := by omega
      rw [ih (n / 10) _ (by omega)]
      have hd : Nat.digits 10 n = (n % 10) :: Nat.digits 10 (n / 10) :=
        Nat.digits_def' (by norm_num) hpos
      simp [decimal_ascii, decimal, hdiv, hn0, hd, digit_char]

theorem to_dec_eq (n : Nat) : to_dec n = decimal_ascii n := by
  unfold to_dec
  rw [dec_digits_eq (n + 1) n [] (by omega)]
  simp

theorem decimal_ascii_ne_zero (n : Nat) : ∀ c ∈ decimal_ascii n, c ≠ 0 := by
  intro c hc
  simp only [decimal_ascii, List.mem_map, digit_char] at hc
  obtain ⟨d, _, rfl⟩ := hc
  omega

theorem fmt_d_ne_zero (v : Int) : ∀ c ∈ fmt_d v, c ≠ 0 := by
  intro c hc
  unfold fmt_d at hc
  simp only [to_dec_eq] at hc
  split_ifs at hc
  · rcases List.mem_cons.mp hc with rfl | h
    · decide
    · exact decimal_ascii_ne_zero _ c h
  · exact decimal_ascii_ne_zero _ c hc

theorem strlen_append_zero (l rest : List Int) (h : ∀ c ∈ l, c ≠ 0) :
    strlen (l ++ 0 :: rest) = l.length := by
  induction l with
  | nil => simp [strlen]
  | cons c tl ih =>
    have hc : c ≠ 0 := h c (List.mem_cons_self _ _)
    have := ih (fun x hx => h x (List.mem_cons_of_mem _ hx))
    rw [List.cons_append, strlen, if_neg hc, this, List.length_cons]

theorem sprintf_d_reply (buf : List Int) (v : Int) :
    (sprintf_d buf v).take (strlen (sprintf_d buf v)) = fmt_d v := by
  unfold sprintf_d store
  rw [List.append_assoc, List.singleton_append, strlen_append_zero _ _ (fmt_d_ne_zero v)]
  simp

theorem fmt_d_in_range (v : Int) (h0 : 0 ≤ v) (h1 : v < 2 ^ 31) :
    fmt_d v = decimal_ascii v.toNat := by
  have hx : to_int32 v = v := by
    unfold to_int32
    omega
  unfold fmt_d
  simp only [hx, not_lt.mpr h0, if_false, to_dec_eq]
  congr 1
  omega

theorem atoi_digits_stop (t : Int) (z : List Int) (acc : Nat) (ht : isdigit t = false) :
    atoi_digits (t :: z) acc = acc := by
  simp [atoi_digits, ht]

theorem atoi_digits_run (ds : List Int) (hd : ∀ d ∈ ds, isdigit d = true) (t : Int)
    (z : List Int) (ht : isdigit t = false) (acc : Nat) :
    atoi_digits (ds ++ t :: z) acc = acc * 10 ^ ds.length + decimal_value ds := by
  induction ds generalizing acc with
  | nil => simp [atoi_digits_stop t z acc ht, decimal_value]
  | cons d tl ih =>
    have hdd : isdigit d = true := hd d (List.mem_cons_self _ _)
    rw [List.cons_append, atoi_digits, if_pos hdd,
      ih (fun x hx => hd x (List.mem_cons_of_mem _ hx))]
    simp only [decimal_value, List.map_cons, List.reverse_cons, Nat.ofDigits_append,
      Nat.ofDigits_singleton, List.length_reverse, List.length_map, List.length_cons]
    ring

theorem atoi_zeros (m : Nat) : atoi (List.replicate m 0) = 0 := by
  cases m with
  | zero => rfl
  | succ n => simp [List.replicate_succ, atoi, isspace, atoi_signed, atoi_digits, isdigit]

theorem atoi_digits_zeros (m : Nat) : atoi_digits (List.replicate m 0) 0 = 0 := by
  cases m with
  | zero => rfl
  | succ n => simp [List.replicate_succ, atoi_digits, isdigit]

theorem isdigit_not_space (d : Int) (h : isdigit d = true) :
    isspace d = false ∧ d ≠ 45 ∧ d ≠ 43 := by
  simp only [isdigit, Bool.and_eq_true, decide_eq_true_eq] at h
  refine ⟨?_, by omega, by omega⟩
  simp only [isspace, Bool.or_eq_false_iff, decide_eq_false_iff_not, Bool.and_eq_false_iff]
  omega

theorem atoi_payload (ds : List Int) (hd : ∀ d ∈ ds, isdigit d = true) (t : Int)
    (ht : isdigit t = false) (m : Nat) :
    atoi (ds ++ t :: List.replicate m 0) = (decimal_value ds : Int) := by
  cases ds with
  | nil =>
    simp only [List.nil_append, decimal_value, List.map_nil, List.reverse_nil,
      Nat.ofDigits_nil, Nat.cast_zero]
    rw [atoi]
    split_ifs
    · exact atoi_zeros m
    · rw [atoi_signed]
      split_ifs
      · simp [atoi_digits_zeros]
      · simp [atoi_digits_zeros]
      · simp [atoi_digits_stop t _ 0 ht]
  | cons d tl =>
    obtain ⟨h1, h2, h3⟩ := isdigit_not_space d (hd d (List.mem_cons_self _ _))
    rw [List.cons_append, atoi]
    simp only [h1, Bool.false_eq_true, if_false]
    rw [atoi_signed, if_neg h2, if_neg h3, ← List.cons_append,
      atoi_digits_run (d :: tl) hd t _ ht 0]
    simp

theorem define_wait_full (k : Consts) (env : Env) (fuel : Nat) (s : State)
    (ds : List Int) (t : Int) (more : List Int) (hlen : ds.length = k.CS_DEFINE_LEN)
    (hpay : env.net s.trace = some (ds ++ t :: more)) :
    define_wait k env (fuel + 1) s =
      .done { s with
        buf := store s.buf (ds ++ [t])
        trace := s.trace ++
          [.net_read (k.CS_DEFINE_LEN + 1) ((k.CS_DEFINE_LEN + 1 : Nat) : Int) (ds ++ [t])] } := by
  have htake : (ds ++ t :: more).take (k.CS_DEFINE_LEN + 1) = ds ++ [t] := by
    rw [← hlen, List.take_append_eq_append_take]
    simp
  unfold define_wait
  simp only [State.emit, hpay, sys_read, htake]
  have hl : (ds ++ [t]).length = k.CS_DEFINE_LEN + 1 := by simp [hlen]
  simp [hl]

theorem input_taken_zero (tr : List Event) (h : input_reads tr = 0) : input_taken tr = 0 := by
  induction tr with
  | nil => rfl
  | cons e rest ih =>
    cases e with
    | input_read r b => simp [input_reads, is_input_read] at h
    | _ =>
      simp only [input_reads, List.countP_cons, is_input_read] at h
      simpa [input_taken] using ih (by simpa [input_reads] using h)

/-! ## The output side -/

theorem recv_output_side (env : Env) (s : State) :
    out_bits_reads (recv env s).trace = out_bits_reads s.trace ++
      (if (recv env s).data_out.valid then [(recv env s).data_out.bits] else []) ∧
    sink_writes (recv env s).trace = sink_writes s.trace ∧
    log_writes (recv env s).trace = log_writes s.trace ∧
    ack_values (recv env s).trace = ack_values s.trace ∧
    out_acts (recv env s).trace = out_acts s.trace := by
  rw [recv_eq]
  unfold recv_events out_valid_read
  simp only [out_bits_reads, sink_writes, log_writes, ack_values, out_acts]
  split_ifs <;>
    simp_all [List.filterMap_append, out_bits_of, sink_of, log_of, ack_of, out_act_of]

theorem of_process_packet_output (e : Event) (h : of_process_packet e = true) :
    out_bits_of e = none ∧ sink_of e = none ∧ log_of e = none ∧ ack_of e = none ∧
      out_act_of e = none := by
  cases e with
  | mmio_read r v =>
    cases r <;> simp_all [of_process_packet, out_bits_of, sink_of, log_of, ack_of, out_act_of]
  | mmio_write r v =>
    cases r <;> simp_all [of_process_packet, out_bits_of, sink_of, log_of, ack_of, out_act_of]
  | _ => simp_all [of_process_packet, out_bits_of, sink_of, log_of, ack_of, out_act_of]

theorem process_packet_output_side {k : Consts} {env : Env} {fuel : Nat} {s : State}
    {o : Outcome} (h : process_packet k env fuel s = o) :
    out_bits_reads o.state.trace = out_bits_reads s.trace ∧
    sink_writes o.state.trace = sink_writes s.trace ∧
    log_writes o.state.trace = log_writes s.trace ∧
    ack_values o.state.trace = ack_values s.trace ∧
    out_acts o.state.trace = out_acts s.trace := by
  obtain ⟨ev, ht, hall⟩ := process_packet_grows_eq h
  rw [ht]
  simp only [out_bits_reads, sink_writes, log_writes, ack_values, out_acts,
    List.filterMap_append]
  rw [filterMap_nil_of_all (fun e he => (of_process_packet_output e he).1) ev hall,
    filterMap_nil_of_all (fun e he => (of_process_packet_output e he).2.1) ev hall,
    filterMap_nil_of_all (fun e he => (of_process_packet_output e he).2.2.1) ev hall,
    filterMap_nil_of_all (fun e he => (of_process_packet_output e he).2.2.2.1) ev hall,
    filterMap_nil_of_all (fun e he => (of_process_packet_output e he).2.2.2.2) ev hall]
  simp

theorem transfer_output_side (env : Env) (s : State) :
    out_bits_reads (transfer env s).trace = out_bits_reads s.trace ∧
    sink_writes (transfer env s).trace = sink_writes s.trace ++
      (if s.data_out.fire then [s.data_out.bits] else []) ∧
    log_writes (transfer env s).trace = log_writes s.trace ++
      (if s.data_out.fire then (if s.loggingfd ≠ 0 then [s.data_out.bits] else []) else []) ∧
    ack_values (transfer env s).trace = ack_values s.trace ++
      (if s.data_out.fire then [if s.data_out.ready then 1 else 0] else []) ∧
    out_acts (transfer env s).trace = out_acts s.trace ++
      (if s.data_out.fire then
        .sink s.data_out.bits :: ((if s.loggingfd ≠ 0 then [.log s.data_out.bits] else []) ++
          [.ack (if s.data_out.ready then 1 else 0)])
       else []) := by
  rw [transfer_eq]
  have hd : (output_step env (input_step env s)).data_out = s.data_out := by
    rw [output_step_eq, input_step_eq]
  have hi : (input_step env s).data_out = s.data_out ∧
      (input_step env s).loggingfd = s.loggingfd := by
    rw [input_step_eq]; exact ⟨rfl, rfl⟩
  have h1 : out_bits_reads (input_events env s) = [] ∧ sink_writes (input_events env s) = [] ∧
      log_writes (input_events env s) = [] ∧ ack_values (input_events env s) = [] ∧
      out_acts (input_events env s) = [] := by
    unfold input_events
    split_ifs <;> simp [out_bits_reads, sink_writes, log_writes, ack_values, out_acts,
      out_bits_of, sink_of, log_of, ack_of, out_act_of]
  have h2 : out_bits_reads (output_events env (input_step env s)) = [] ∧
      sink_writes (output_events env (input_step env s))
        = (if s.data_out.fire then [s.data_out.bits] else []) ∧
      log_writes (output_events env (input_step env s))
        = (if s.data_out.fire then (if s.loggingfd ≠ 0 then [s.data_out.bits] else [])
           else []) ∧
      ack_values (output_events env (input_step env s)) = [] ∧
      out_acts (output_events env (input_step env s))
        = (if s.data_out.fire then
            .sink s.data_out.bits :: (if s.loggingfd ≠ 0 then [.log s.data_out.bits] else [])
           else []) := by
    unfold output_events
    rw [hi.1, hi.2]
    split_ifs <;> simp [out_bits_reads, sink_writes, log_writes, ack_values, out_acts,
      out_bits_of, sink_of, log_of, ack_of, out_act_of]
  have h3 : out_bits_reads (send_events (output_step env (input_step env s))) = [] ∧
      sink_writes (send_events (output_step env (input_step env s))) = [] ∧
      log_writes (send_events (output_step env (input_step env s))) = [] ∧
      ack_values (send_events (output_step env (input_step env s)))
        = (if s.data_out.fire then [if s.data_out.ready then 1 else 0] else []) ∧
      out_acts (send_events (output_step env (input_step env s)))
        = (if s.data_out.fire then [.ack (if s.data_out.ready then 1 else 0)] else []) := by
    unfold send_events
    rw [hd]
    split_ifs <;> simp [out_bits_reads, sink_writes, log_writes, ack_values, out_acts,
      out_bits_of, sink_of, log_of, ack_of, out_act_of]
  simp only [out_bits_reads, sink_writes, log_writes, ack_values, out_acts,
    List.filterMap_append] at h1 h2 h3 ⊢
  rw [h1.1, h1.2.1, h1.2.2.1, h1.2.2.2.1, h1.2.2.2.2, h2.1, h2.2.1, h2.2.2.1, h2.2.2.2.1,
    h2.2.2.2.2, h3.1, h3.2.1, h3.2.2.1, h3.2.2.2.1, h3.2.2.2.2]
  refine ⟨by simp, by simp, by simp, by simp, ?_⟩
  split_ifs <;> simp

theorem output_ledger_refl (s : State) (r : Bool) : OutputLedger s s r :=
  ⟨[], [], by rw [List.append_nil, List.append_nil],
    by rw [List.flatMap_nil, List.append_nil], by rw [List.append_nil],
    by split_ifs <;> rw [List.append_nil],
    by rw [List.length_nil, List.replicate_zero, List.append_nil],
    Nat.zero_le _, fun _ => rfl⟩

theorem output_ledger_trans {s t u : State} {r : Bool} (h1 : OutputLedger s t true)
    (hl : t.loggingfd = s.loggingfd) (h2 : OutputLedger t u r) : OutputLedger s u r := by
  obtain ⟨w1, p1, a1, a2, a3, a4, a5, _, a7⟩ := h1
  obtain ⟨w2, p2, b1, b2, b3, b4, b5, b6, b7⟩ := h2
  have hp1 : p1 = [] := a7 rfl
  subst hp1
  refine ⟨w1 ++ w2, p2, ?_, ?_, ?_, ?_, ?_, b6, b7⟩
  · rw [b1, a1]; simp
  · rw [b2, a2, hl]; simp [List.flatMap_append]
  · rw [b3, a3]; simp
  · rw [b4, a4, hl]; split_ifs <;> simp
  · rw [b5, a5, List.length_append, List.replicate_add, List.append_assoc]

theorem tick_body_ledger (k : Consts) (env : Env) (fuel : Nat) (s : State)
    (hr : s.data_out.ready = true) :
    OutputLedger s (tick_body k env fuel s).state (tick_body k env fuel s).returned ∧
    (tick_body k env fuel s).state.data_out.ready = true ∧
    (tick_body k env fuel s).state.loggingfd = s.loggingfd := by
  obtain ⟨r1, r2, r3, r4, r5⟩ := recv_output_side env s
  obtain ⟨_, _, _, fr, _, fl⟩ := recv_frame env s
  unfold tick_body
  cases h : process_packet k env fuel (recv env s) with
  | spin s1 =>
    obtain ⟨p1, p2, p3, p4, p5⟩ := process_packet_output_side h
    obtain ⟨_, f2, _, f4⟩ := process_packet_frame_eq h
    simp only [state_spin] at p1 p2 p3 p4 p5 f2 f4 ⊢
    refine ⟨⟨[], if (recv env s).data_out.valid then [(recv env s).data_out.bits] else [],
      ?_, ?_, ?_, ?_, ?_, ?_, ?_⟩, by rw [f2, fr, hr], by rw [f4, fl]⟩
    · rw [p1, r1]; simp
    · rw [p5, r5]; simp
    · rw [p2, r2]; simp
    · rw [p3, r3]; simp
    · rw [p4, r4]; simp
    · split_ifs <;> simp
    · intro hc; simp [Outcome.returned] at hc
  | done s1 =>
    obtain ⟨p1, p2, p3, p4, p5⟩ := process_packet_output_side h
    obtain ⟨_, f2, _, f4⟩ := process_packet_frame_eq h
    obtain ⟨t1, t2, t3, t4, t5⟩ := transfer_output_side env s1
    simp only [state_done] at p1 p2 p3 p4 p5 f2 f4 ⊢
    have hready : s1.data_out.ready = true := by rw [f2, fr, hr]
    have hlog : s1.loggingfd = s.loggingfd := by rw [f4, fl]
    have hfire : s1.data_out.fire = (recv env s).data_out.valid := by
      rw [Channel.fire, hready, Bool.and_true, f2]
    refine ⟨⟨if (recv env s).data_out.valid then [(recv env s).data_out.bits] else [], [],
      ?_, ?_, ?_, ?_, ?_, by simp, fun _ => rfl⟩,
      by rw [transfer_data_out, hready],
      by rw [transfer_eq, input_step_eq]; exact hlog⟩
    · rw [t1, p1, r1]; simp
    · rw [t5, p5, r5, hfire, hready, hlog, f2]
      split_ifs <;> simp_all [delivery]
    · rw [t2, p2, r2, hfire, f2]
    · rw [t3, p3, r3, hfire, hlog, f2]
      split_ifs <;> simp
    · rw [t4, p4, r4, hfire, hready]
      cases (recv env s).data_out.valid <;> simp

theorem tick_loop_ledger (k : Consts) (env : Env) (fuel : Nat) (s : State)
    (hr : s.data_out.ready = true) :
    OutputLedger s (tick_loop k env fuel s).state (tick_loop k env fuel s).returned ∧
    (tick_loop k env fuel s).state.data_out.ready = true := by
  induction fuel generalizing s with
  | zero => exact ⟨output_ledger_refl s _, hr⟩
  | succ f ih =>
    unfold tick_loop
    obtain ⟨b1, b2, b3⟩ := tick_body_ledger k env (f + 1) s hr
    cases h : tick_body k env (f + 1) s with
    | spin s1 =>
      rw [h] at b1 b2 b3
      exact ⟨b1, b2⟩
    | done s1 =>
      rw [h] at b1 b2 b3
      simp only [state_done] at b1 b2 b3 ⊢
      by_cases hc : (s1.data_in.fire || s1.data_out.fire) = true
      · rw [if_pos hc]
        obtain ⟨i1, i2⟩ := ih s1 b2
        exact ⟨output_ledger_trans b1 b3 i1, i2⟩
      · rw [if_neg hc]
        exact ⟨b1, b2⟩

theorem tick_body_idle_output (k : Consts) (env : Env) (fuel : Nat) (s : State)
    (hz : out_valid_read env s = 0) :
    out_acts (tick_body k env fuel s).state.trace = out_acts s.trace ∧
    out_bits_reads (tick_body k env fuel s).state.trace = out_bits_reads s.trace := by
  obtain ⟨r1, _, _, _, r5⟩ := recv_output_side env s
  have hv : (recv env s).data_out.valid = false := by
    rw [recv_eq]; simp [hz]
  rw [hv] at r1
  unfold tick_body
  cases h : process_packet k env fuel (recv env s) with
  | spin s1 =>
    obtain ⟨p1, _, _, _, p5⟩ := process_packet_output_side h
    simp only [state_spin] at p1 p5 ⊢
    exact ⟨by rw [p5, r5], by rw [p1, r1]; simp⟩
  | done s1 =>
    obtain ⟨p1, _, _, _, p5⟩ := process_packet_output_side h
    obtain ⟨_, f2, _, _⟩ := process_packet_frame_eq h
    obtain ⟨t1, _, _, _, t5⟩ := transfer_output_side env s1
    simp only [state_done] at p1 p5 f2 ⊢
    have hfire : s1.data_out.fire = false := by
      rw [Channel.fire, f2, hv]; rfl
    rw [hfire] at t5
    exact ⟨by rw [t5, p5, r5]; simp, by rw [t1, p1, r1]; simp⟩

theorem of_recv_sink_result (e : Event) (h : of_recv e = true) : sink_result_of e = none := by
  cases e <;> simp_all [of_recv, sink_result_of]

theorem of_process_packet_sink_result (e : Event) (h : of_process_packet e = true) :
    sink_result_of e = none := by
  cases e <;> simp_all [of_process_packet, sink_result_of]

theorem transfer_sink_results (env : Env) (s : State) :
    sink_results (transfer env s).trace = sink_results s.trace ++
      (if s.data_out.fire then [env.output (input_step env s).trace] else []) := by
  rw [transfer_eq]
  have hi : (input_step env s).data_out = s.data_out := by rw [input_step_eq]
  have hd : (output_step env (input_step env s)).data_out = s.data_out := by
    rw [output_step_eq, input_step_eq]
  have h1 : sink_results (input_events env s) = [] := by
    unfold input_events
    split_ifs <;> simp [sink_results, sink_result_of]
  have h2 : sink_results (output_events env (input_step env s))
      = (if s.data_out.fire then [env.output (input_step env s).trace] else []) := by
    unfold output_events
    rw [hi]
    split_ifs <;> simp [sink_results, sink_result_of]
  have h3 : sink_results (send_events (output_step env (input_step env s))) = [] := by
    unfold send_events
    split_ifs <;> simp [sink_results, sink_result_of]
  simp only [sink_results, List.filterMap_append] at h1 h2 h3 ⊢
  rw [h1, h2, h3]
  simp

/-! ## More on atoi and the payload read -/

theorem atoi_digits_stops (tail : List Int) (h : stops tail) (acc : Nat) :
    atoi_digits tail acc = acc := by
  cases tail with
  | nil => rfl
  | cons c z => exact atoi_digits_stop c z acc (h c rfl)

theorem atoi_digits_run_stops (ds : List Int) (hd : ∀ d ∈ ds, isdigit d = true)
    (tail : List Int) (ht : stops tail) (acc : Nat) :
    atoi_digits (ds ++ tail) acc = acc * 10 ^ ds.length + decimal_value ds := by
  cases tail with
  | nil =>
    have h := atoi_digits_run ds hd 0 [] (by decide) acc
    have h2 : atoi_digits (ds ++ [0]) acc = atoi_digits ds acc := by
      clear h
      induction ds generalizing acc with
      | nil => rfl
      | cons d tl ih =>
        have hdd : isdigit d = true := hd d (List.mem_cons_self _ _)
        simp only [List.cons_append, atoi_digits, if_pos hdd]
        exact ih (fun x hx => hd x (List.mem_cons_of_mem _ hx)) _
    rw [List.append_nil, ← h2, h]
  | cons c z => exact atoi_digits_run ds hd c z (ht c rfl) acc

theorem atoi_signed_no_number (tail : List Int) (h : no_number tail) : atoi_signed tail = 0 := by
  cases tail with
  | nil => rfl
  | cons c z =>
    obtain ⟨_, h2, h3, h4⟩ := h c rfl
    rw [atoi_signed, if_neg h2, if_neg h3, atoi_digits_stop c z 0 h4]
    rfl

theorem atoi_skip_spaces (ws : List Int) (hw : ∀ w ∈ ws, isspace w = true) (l : List Int) :
    atoi (ws ++ l) = atoi l := by
  induction ws with
  | nil => rfl
  | cons w tl ih =>
    have hww : isspace w = true := hw w (List.mem_cons_self _ _)
    rw [List.cons_append, atoi, if_pos hww]
    exact ih (fun x hx => hw x (List.mem_cons_of_mem _ hx))

theorem atoi_unsigned (ds : List Int) (hd : ∀ d ∈ ds, isdigit d = true) (hne : ds ≠ [])
    (tail : List Int) (ht : stops tail) : atoi (ds ++ tail) = (decimal_value ds : Int) := by
  cases ds with
  | nil => exact absurd rfl hne
  | cons d tl =>
    obtain ⟨h1, h2, h3⟩ := isdigit_not_space d (hd d (List.mem_cons_self _ _))
    rw [List.cons_append, atoi]
    simp only [h1, Bool.false_eq_true, if_false]
    rw [atoi_signed, if_neg h2, if_neg h3, ← List.cons_append,
      atoi_digits_run_stops (d :: tl) hd tail ht 0]
    simp

theorem atoi_minus (ds : List Int) (hd : ∀ d ∈ ds, isdigit d = true)
    (tail : List Int) (ht : stops tail) :
    atoi (45 :: (ds ++ tail)) = - (decimal_value ds : Int) := by
  rw [atoi]
  have hs : isspace 45 = false := by decide
  simp only [hs, Bool.false_eq_true, if_false]
  rw [atoi_signed, if_pos rfl, atoi_digits_run_stops ds hd tail ht 0]
  simp

theorem atoi_plus (ds : List Int) (hd : ∀ d ∈ ds, isdigit d = true)
    (tail : List Int) (ht : stops tail) :
    atoi (43 :: (ds ++ tail)) = (decimal_value ds : Int) := by
  rw [atoi]
  have hs : isspace 43 = false := by decide
  simp only [hs, Bool.false_eq_true, if_false]
  rw [atoi_signed, if_neg (by decide), if_pos rfl, atoi_digits_run_stops ds hd tail ht 0]
  simp

theorem atoi_no_number (tail : List Int) (h : no_number tail) : atoi tail = 0 := by
  cases tail with
  | nil => rfl
  | cons c z =>
    obtain ⟨h1, _⟩ := h c rfl
    rw [atoi]
    simp only [h1, Bool.false_eq_true, if_false]
    exact atoi_signed_no_number (c :: z) h

theorem atoi_digits_append_zeros (p : List Int) (m acc : Nat) :
    atoi_digits (p ++ List.replicate m 0) acc = atoi_digits p acc := by
  induction p generalizing acc with
  | nil =>
    rw [List.nil_append]
    cases m with
    | zero => rfl
    | succ n => simp [List.replicate_succ, atoi_digits, isdigit]
  | cons c tl ih =>
    simp only [List.cons_append, atoi_digits]
    split_ifs
    · exact ih _
    · rfl

theorem atoi_signed_append_zeros (p : List Int) (m : Nat) :
    atoi_signed (p ++ List.replicate m 0) = atoi_signed p := by
  cases p with
  | nil =>
    rw [List.nil_append]
    cases m with
    | zero => rfl
    | succ n => simp [List.replicate_succ, atoi_signed, atoi_digits, isdigit]
  | cons c tl =>
    simp only [List.cons_append, atoi_signed]
    split_ifs
    · rw [atoi_digits_append_zeros]
    · rw [atoi_digits_append_zeros]
    · rw [← List.cons_append, atoi_digits_append_zeros]

theorem atoi_append_zeros (p : List Int) (m : Nat) :
    atoi (p ++ List.replicate m 0) = atoi p := by
  induction p with
  | nil => rw [List.nil_append, atoi_zeros]; rfl
  | cons c tl ih =>
    simp only [List.cons_append, atoi]
    split_ifs
    · exact ih
    · exact atoi_signed_append_zeros (c :: tl) m

theorem define_wait_complete (k : Consts) (env : Env) (fuel : Nat) (s : State)
    (p more : List Int) (hlen : p.length = k.CS_DEFINE_LEN + 1)
    (hpay : env.net s.trace = some (p ++ more)) :
    define_wait k env (fuel + 1) s =
      .done { s with
        buf := store s.buf p
        trace := s.trace ++
          [.net_read (k.CS_DEFINE_LEN + 1) ((k.CS_DEFINE_LEN + 1 : Nat) : Int) p] } := by
  have htake : (p ++ more).take (k.CS_DEFINE_LEN + 1) = p := by
    rw [← hlen, List.take_append_eq_append_take]
    simp
  unfold define_wait
  simp only [State.emit, hpay, sys_read, htake]
  simp [hlen]

theorem define_step_command (k : Consts) (env : Env) (fuel : Nat) (s : State) (b : Int)
    (rest p more : List Int)
    (hg : k.CS_DEFINE_STEP ≠ k.CS_GRANT_TOKEN) (hq : k.CS_DEFINE_STEP ≠ k.CS_REQ_CYCLES)
    (hnet : env.net s.trace = some (b :: rest)) (hb : b % 256 = k.CS_DEFINE_STEP)
    (hlen : p.length = k.CS_DEFINE_LEN + 1)
    (hpay : env.net (s.trace ++ [.net_read 1 1 [b], .printf_received]) = some (p ++ more)) :
    ∃ s1, process_packet k env (fuel + 1) s = .done s1 ∧
      s1.trace = s.trace ++
        [.net_read 1 1 [b], .printf_received,
         .net_read (k.CS_DEFINE_LEN + 1) ((k.CS_DEFINE_LEN + 1 : Nat) : Int) p,
         .printf_step (atoi p), .mmio_write .cycle_step (atoi p)] := by
  have h1 : b % 256 ≠ k.CS_GRANT_TOKEN := by rw [hb]; exact hg
  have h2 : b % 256 ≠ k.CS_REQ_CYCLES := by rw [hb]; exact hq
  rw [process_packet_command k env fuel.succ s b rest hnet, if_neg h1, if_neg h2, if_pos hb]
  rw [define_wait_complete k env fuel _ p more hlen hpay]
  have hbuf : store (bzero k.ROBOTICS_COSIM_BUFSIZE) p
      = p ++ List.replicate (k.ROBOTICS_COSIM_BUFSIZE - (k.CS_DEFINE_LEN + 1)) 0 := by
    simp [store, bzero, hlen]
  refine ⟨_, rfl, ?_⟩
  simp only [hbuf, atoi_append_zeros]
  simp

/-! ## The override byte over a tick -/

theorem of_recv_take (e : Event) (h : of_recv e = true) : take_of e = none := by
  cases e <;> simp_all [of_recv, take_of]

theorem of_process_packet_take (e : Event) (h : of_process_packet e = true) :
    take_of e = none := by
  cases e <;> simp_all [of_process_packet, take_of]

theorem tick_body_takes (k : Consts) (env : Env) (fuel : Nat) (s : State) :
    ∃ t, takes (tick_body k env fuel s).state.trace = takes s.trace ++ t ∧
      ((t = [] ∧ ((tick_body k env fuel s).state.specialchar = s.specialchar ∨
                  (tick_body k env fuel s).state.specialchar = 0)) ∨
       (t = [s.specialchar] ∧ s.specialchar ≠ 0 ∧
          (tick_body k env fuel s).state.specialchar = 0)) := by
  cases h : tick_body k env fuel s with
  | spin s1 =>
    unfold tick_body at h
    cases hp : process_packet k env fuel (recv env s) with
    | done s2 => rw [hp] at h; cases h
    | spin s2 =>
      rw [hp] at h
      cases h
      obtain ⟨e1, ht1, ha1⟩ := recv_grows env s
      obtain ⟨e2, ht2, ha2⟩ := process_packet_grows_eq hp
      obtain ⟨_, _, f3, _⟩ := process_packet_frame_eq hp
      simp only [state_spin] at ht2 f3 ⊢
      refine ⟨[], ?_, Or.inl ⟨rfl, Or.inl (by rw [f3, (recv_frame env s).2.2.2.2.1])⟩⟩
      rw [ht2, ht1]
      simp only [takes, List.filterMap_append]
      rw [filterMap_nil_of_all of_recv_take e1 ha1,
        filterMap_nil_of_all of_process_packet_take e2 ha2]
      simp
  | done s2 =>
    obtain ⟨s1, _, rfl, _, _, f3, _, c2, _⟩ := tick_body_done h
    obtain ⟨t1, _⟩ := transfer_input_side env s1
    have hsp := transfer_specialchar env s1
    simp only [state_done]
    by_cases hr : s1.data_in.ready = true
    · by_cases hz : s1.specialchar = 0
      · refine ⟨[], ?_, Or.inl ⟨rfl, Or.inr (by rw [hsp, if_pos hr])⟩⟩
        rw [t1, c2]
        simp [input_events, hr, hz, takes, take_of]
      · have hz2 : s.specialchar ≠ 0 := by rw [← f3]; exact hz
        refine ⟨[s.specialchar], ?_, Or.inr ⟨rfl, hz2, by rw [hsp, if_pos hr]⟩⟩
        rw [t1, c2]
        simp [input_events, hr, hz2, takes, take_of, f3]
    · refine ⟨[], ?_, Or.inl ⟨rfl, Or.inl (by rw [hsp, if_neg hr, f3])⟩⟩
      rw [t1, c2]
      simp [input_events, hr, takes]

theorem tick_loop_takes (k : Consts) (env : Env) (fuel : Nat) (s : State) :
    ∃ t, takes (tick_loop k env fuel s).state.trace = takes s.trace ++ t ∧
      t.length ≤ 1 ∧ (∀ v ∈ t, v = s.specialchar ∧ v ≠ 0) ∧
      ((tick_loop k env fuel s).state.specialchar = s.specialchar ∨
       (tick_loop k env fuel s).state.specialchar = 0) := by
  induction fuel generalizing s with
  | zero => exact ⟨[], by simp [tick_loop, state_spin], by simp, by simp, Or.inl rfl⟩
  | succ f ih =>
    obtain ⟨t1, b1, b2⟩ := tick_body_takes k env (f + 1) s
    have hbody : ∃ t, takes (tick_body k env (f + 1) s).state.trace = takes s.trace ++ t ∧
        t.length ≤ 1 ∧ (∀ v ∈ t, v = s.specialchar ∧ v ≠ 0) ∧
        ((tick_body k env (f + 1) s).state.specialchar = s.specialchar ∨
         (tick_body k env (f + 1) s).state.specialchar = 0) := by
      rcases b2 with ⟨rfl, hsp⟩ | ⟨rfl, hne, hz⟩
      · exact ⟨[], b1, by simp, by simp, hsp⟩
      · exact ⟨[s.specialchar], b1, by simp, by simp [hne], Or.inr hz⟩
    unfold tick_loop
    cases h : tick_body k env (f + 1) s with
    | spin s1 => rw [h] at hbody; exact hbody
    | done s1 =>
      rw [h] at b1 b2
      simp only [state_done] at b1 b2 ⊢
      by_cases hc : (s1.data_in.fire || s1.data_out.fire) = true
      · rw [if_pos hc]
        obtain ⟨t2, i1, i2, i3, i4⟩ := ih s1
        rcases b2 with ⟨rfl, hsp⟩ | ⟨rfl, hne, hz⟩
        · refine ⟨t2, by rw [i1, b1]; simp, i2, ?_, ?_⟩
          · intro v hv
            obtain ⟨e1, e2⟩ := i3 v hv
            rcases hsp with hsame | hzero
            · exact ⟨by rw [e1, hsame], e2⟩
            · exact absurd (by rw [e1, hzero]) e2
          · rcases i4 with h4 | h4
            · rcases hsp with hsame | hzero
              · exact Or.inl (by rw [h4, hsame])
              · exact Or.inr (by rw [h4, hzero])
            · exact Or.inr h4
        · have ht2 : t2 = [] := by
            cases t2 with
            | nil => rfl
            | cons v tl =>
              obtain ⟨e1, e2⟩ := i3 v (List.mem_cons_self _ _)
              exact absurd (by rw [e1, hz]) e2
          subst ht2
          refine ⟨[s.specialchar], by rw [i1, b1]; simp, by simp, by simp [hne], ?_⟩
          rcases i4 with h4 | h4
          · exact Or.inr (by rw [h4, hz])
          · exact Or.inr h4
      · rw [if_neg hc]
        rw [h] at hbody
        exact hbody

theorem sighand_eq (sig : Int) (s : State) :
    sighand sig s = { s with specialchar := if sig = SIGINT then 3 else 0 } := by
  unfold sighand
  split_ifs <;> rfl

theorem signals_frame (sigs : List Int) (s : State) :
    ∃ v, signals sigs s = { s with specialchar := v } := by
  induction sigs generalizing s with
  | nil => exact ⟨s.specialchar, rfl⟩
  | cons a tl ih =>
    obtain ⟨v, hv⟩ := ih (sighand a s)
    refine ⟨v, ?_⟩
    have : signals (a :: tl) s = signals tl (sighand a s) := rfl
    rw [this, hv, sighand_eq]

theorem signals_snoc (sigs : List Int) (last : Int) (s : State) :
    signals (sigs ++ [last]) s =
      { s with specialchar := if last = SIGINT then 3 else 0 } := by
  obtain ⟨v, hv⟩ := signals_frame sigs s
  have : signals (sigs ++ [last]) s = sighand last (signals sigs s) := by
    simp [signals, List.foldl_append]
  rw [this, hv, sighand_eq]

theorem run_signals (k : Consts) (env : Env) (fuel : Nat) (sigs : List Int)
    (acts : List Action) (s : State) :
    run k env fuel (sigs.map Action.signal ++ acts) s = run k env fuel acts (signals sigs s) := by
  induction sigs generalizing s with
  | nil => rfl
  | cons a tl ih =>
    have : signals (a :: tl) s = signals tl (sighand a s) := rfl
    rw [this, ← ih]
    rfl

theorem run_single_tick (k : Consts) (env : Env) (fuel : Nat) (s : State) :
    run k env fuel [.tick] s = tick k env fuel s := by
  unfold run
  cases tick k env fuel s <;> rfl

/-! ## The phases of one iteration -/

theorem recv_events_class (env : Env) (s : State) :
    (recv_events env s).all of_recv = true := by
  unfold recv_events
  simp only []
  split_ifs <;> simp [of_recv]

theorem before_transfer {k : Consts} {env : Env} {fuel : Nat} {s : State} {o : Outcome}
    (h : process_packet k env fuel (recv env s) = o) :
    ∃ r bs e2, o.state.trace = s.trace ++ (recv_events env s ++ .net_read 1 r bs :: e2) ∧
      (Event.net_read 1 r bs :: e2).all of_process_packet = true ∧
      o.state.data_in = (recv env s).data_in ∧ o.state.data_out = (recv env s).data_out ∧
      o.state.specialchar = s.specialchar ∧ o.state.loggingfd = s.loggingfd := by
  obtain ⟨f1, f2, f3, f4⟩ := process_packet_frame_eq h
  obtain ⟨ev, ht, _⟩ := process_packet_dispatched k env fuel (recv env s)
  obtain ⟨e2, ht2, ha2⟩ := process_packet_grows_eq h
  rw [h] at ht
  have hrt : (recv env s).trace = s.trace ++ recv_events env s := by rw [recv_eq]
  have he : e2 = .net_read 1 (sys_read (env.net (recv env s).trace) 1).1
      (sys_read (env.net (recv env s).trace) 1).2 :: ev := by
    have := ht2.symm.trans ht
    exact List.append_cancel_left this
  refine ⟨(sys_read (env.net (recv env s).trace) 1).1,
    (sys_read (env.net (recv env s).trace) 1).2, ev, ?_, ?_, f1, f2,
    by rw [f3, (recv_frame env s).2.2.2.2.1], by rw [f4, (recv_frame env s).2.2.2.2.2]⟩
  · rw [ht, hrt, List.append_assoc]
  · rw [← he]; exact ha2

theorem phase_neutral (e : Event) (h : (of_recv e || of_process_packet e) = true) :
    in_port_of e = none ∧ consumed_of e = none ∧ take_of e = none ∧
      is_input_read e = false := by
  cases e with
  | mmio_read r v =>
    cases r <;> simp_all [of_recv, of_process_packet, in_port_of, consumed_of, take_of,
      is_input_read]
  | mmio_write r v =>
    cases r <;> simp_all [of_recv, of_process_packet, in_port_of, consumed_of, take_of,
      is_input_read]
  | _ => simp_all [of_recv, of_process_packet, in_port_of, consumed_of, take_of, is_input_read]

theorem before_transfer_input_side {k : Consts} {env : Env} {fuel : Nat} {s : State}
    {o : Outcome} (h : process_packet k env fuel (recv env s) = o) :
    in_port_writes o.state.trace = in_port_writes s.trace ∧
    consumed o.state.trace = consumed s.trace ∧
    takes o.state.trace = takes s.trace ∧
    input_reads o.state.trace = input_reads s.trace := by
  obtain ⟨r, bs, e2, ht, ha, _⟩ := before_transfer h
  have hall : (recv_events env s ++ .net_read 1 r bs :: e2).all
      (fun e => of_recv e || of_process_packet e) = true := by
    rw [List.all_append, Bool.and_eq_true]
    exact ⟨all_mono (fun e he => by simp [he]) _ (recv_events_class env s),
      all_mono (fun e he => by simp [he]) _ ha⟩
  generalize recv_events env s ++ Event.net_read 1 r bs :: e2 = ev at ht hall
  rw [ht]
  simp only [in_port_writes, consumed, takes, input_reads, List.filterMap_append,
    List.countP_append]
  rw [filterMap_nil_of_all (fun e he => (phase_neutral e he).1) _ hall,
    filterMap_nil_of_all (fun e he => (phase_neutral e he).2.1) _ hall,
    filterMap_nil_of_all (fun e he => (phase_neutral e he).2.2.1) _ hall,
    countP_zero_of_all (fun e he => (phase_neutral e he).2.2.2) _ hall]
  simp

theorem transfer_in_port (env : Env) (s : State) :
    in_port_writes (transfer env s).trace = in_port_writes s.trace ++
      (if (input_step env s).data_in.fire then
        [(Reg.in_bits, (input_step env s).data_in.bits),
         (Reg.in_valid, if (input_step env s).data_in.valid then 1 else 0)]
       else []) ∧
    consumed (transfer env s).trace = consumed s.trace ++ (obtained env s).toList := by
  rw [transfer_eq]
  have hd : (output_step env (input_step env s)).data_in = (input_step env s).data_in := by
    rw [output_step_eq]
  have h1 : in_port_writes (input_events env s) = [] := by
    unfold input_events
    split_ifs <;> simp [in_port_writes, in_port_of]
  have h2 : in_port_writes (output_events env (input_step env s)) = [] ∧
      consumed (output_events env (input_step env s)) = [] := by
    unfold output_events
    split_ifs <;> simp [in_port_writes, in_port_of, consumed, consumed_of]
  have h3 : in_port_writes (send_events (output_step env (input_step env s)))
      = (if (input_step env s).data_in.fire then
          [(Reg.in_bits, (input_step env s).data_in.bits),
           (Reg.in_valid, if (input_step env s).data_in.valid then 1 else 0)]
         else []) := by
    unfold send_events
    rw [hd]
    split_ifs <;> simp [in_port_writes, in_port_of]
  have h4 := (send_events_proj (output_step env (input_step env s))).2.1
  have h5 := (input_events_proj env s).2
  simp only [in_port_writes, consumed, List.filterMap_append] at h1 h2 h3 h4 h5 ⊢
  rw [h1, h2.1, h2.2, h3, h4, h5]
  simp

theorem tick_body_cases (k : Consts) (env : Env) (fuel : Nat) (s : State) :
    (∃ s1, process_packet k env fuel (recv env s) = .spin s1 ∧
      tick_body k env fuel s = .spin s1) ∨
    (∃ s1, process_packet k env fuel (recv env s) = .done s1 ∧
      tick_body k env fuel s = .done (transfer env s1)) := by
  unfold tick_body
  cases h : process_packet k env fuel (recv env s) with
  | spin s1 => exact Or.inl ⟨s1, rfl, rfl⟩
  | done s1 => exact Or.inr ⟨s1, rfl, rfl⟩

theorem input_not_ready (k : Consts) (env : Env) (fuel : Nat) (s : State)
    (hr : env.mmio s.trace .in_ready = 0) :
    input_reads (tick_body k env fuel s).state.trace = input_reads s.trace ∧
    takes (tick_body k env fuel s).state.trace = takes s.trace ∧
    consumed (tick_body k env fuel s).state.trace = consumed s.trace ∧
    (tick_body k env fuel s).state.specialchar = s.specialchar ∧
    in_port_writes (tick_body k env fuel s).state.trace = in_port_writes s.trace := by
  rcases tick_body_cases k env fuel s with ⟨s1, hp, hb⟩ | ⟨s1, hp, hb⟩
  · obtain ⟨a1, a2, a3, a4⟩ := before_transfer_input_side hp
    obtain ⟨_, _, _, _, _, _, _, f3, _⟩ := before_transfer hp
    rw [hb]
    exact ⟨a4, a3, a2, f3, a1⟩
  · obtain ⟨a1, a2, a3, a4⟩ := before_transfer_input_side hp
    obtain ⟨_, _, _, _, _, f1, _, f3, _⟩ := before_transfer hp
    simp only [state_done] at a1 a2 a3 a4 f1 f3
    have hready : s1.data_in.ready = false := by
      rw [f1, (recv_frame env s).2.2.1]; simp [hr]
    have hob : obtained env s1 = none := by simp [obtained, hready]
    have hev : input_events env s1 = [] := by simp [input_events, hready]
    have hst : (input_step env s1).data_in = s1.data_in := by
      rw [input_step_eq, hob]
    obtain ⟨t1, t2⟩ := transfer_input_side env s1
    obtain ⟨u1, u2⟩ := transfer_in_port env s1
    rw [hb]
    simp only [state_done]
    refine ⟨?_, ?_, ?_, ?_, ?_⟩
    · rw [t2, hev, a4]; rfl
    · rw [t1, hev, a3]; simp [takes]
    · rw [u2, hob, a2]; simp
    · rw [transfer_specialchar, hready, f3]; rfl
    · rw [u1, hst, a1]
      simp [Channel.fire, hready]

theorem input_no_data (k : Consts) (env : Env) (fuel : Nat) (s : State)
    (hr : env.mmio s.trace .in_ready ≠ 0) (hz : s.specialchar = 0)
    (hv : s.data_in.valid = false)
    (hnone : ∀ tr, input_reads tr = input_reads s.trace → (sys_read (env.input tr) 1).1 ≤ 0) :
    in_port_writes (tick_body k env fuel s).state.trace = in_port_writes s.trace ∧
    consumed (tick_body k env fuel s).state.trace = consumed s.trace ∧
    takes (tick_body k env fuel s).state.trace = takes s.trace ∧
    (∀ s1, process_packet k env fuel (recv env s) = .done s1 →
      tick_body k env fuel s = .done (transfer env s1) ∧
      input_reads (transfer env s1).trace = input_reads s.trace + 1) := by
  rcases tick_body_cases k env fuel s with ⟨s1, hp, hb⟩ | ⟨s1, hp, hb⟩
  · obtain ⟨a1, a2, a3, _⟩ := before_transfer_input_side hp
    rw [hb]
    refine ⟨a1, a2, a3, ?_⟩
    intro s2 hp2
    rw [hp] at hp2
    cases hp2
  · obtain ⟨a1, a2, a3, a4⟩ := before_transfer_input_side hp
    obtain ⟨_, _, _, _, _, f1, _, f3, _⟩ := before_transfer hp
    simp only [state_done] at a1 a2 a3 a4 f1 f3
    have hready : s1.data_in.ready = true := by
      rw [f1, (recv_frame env s).2.2.1]; simpa using hr
    have hvalid : s1.data_in.valid = false := by
      rw [f1, (recv_frame env s).1, hv]
    have hsp : s1.specialchar = 0 := by rw [f3, hz]
    have hnd : ¬ (0 < (sys_read (env.input s1.trace) 1).1) := not_lt.mpr (hnone s1.trace a4)
    have hob : obtained env s1 = none := by simp [obtained, hready, hsp, hnd]
    have hev : input_events env s1
        = [.input_read (sys_read (env.input s1.trace) 1).1 (sys_read (env.input s1.trace) 1).2] := by
      simp [input_events, hready, hsp]
    have hst : (input_step env s1).data_in = s1.data_in := by
      rw [input_step_eq, hob]
    obtain ⟨t1, t2⟩ := transfer_input_side env s1
    obtain ⟨u1, u2⟩ := transfer_in_port env s1
    have hin : input_reads (transfer env s1).trace = input_reads s.trace + 1 := by
      rw [t2, hev, a4]; simp [input_reads, is_input_read]
    rw [hb]
    simp only [state_done]
    refine ⟨?_, ?_, ?_, ?_⟩
    · rw [u1, hst, a1]
      simp [Channel.fire, hvalid]
    · rw [u2, hob, a2]; simp
    · rw [t1, hev, a3]; simp [takes, take_of]
    · intro s2 hp2
      rw [hp] at hp2
      cases hp2
      exact ⟨rfl, hin⟩

theorem transfer_phases (env : Env) (s : State) :
    ∃ e3 e4, (transfer env s).trace = s.trace ++ (e3 ++ e4) ∧
      e3.all of_decision = true ∧ e4.all of_send = true := by
  refine ⟨input_events env s ++ output_events env (input_step env s),
    send_events (output_step env (input_step env s)), ?_, ?_, ?_⟩
  · rw [transfer_eq]; simp
  · rw [List.all_append, Bool.and_eq_true]
    constructor
    · unfold input_events; split_ifs <;> simp [of_decision]
    · unfold output_events; split_ifs <;> simp [of_decision]
  · unfold send_events; split_ifs <;> simp [of_send]

/-! ## The channel state -/

theorem tick_loop_valid (k : Consts) (env : Env) (fuel : Nat) (s : State)
    (hv : s.data_in.valid = false) :
    (tick_loop k env fuel s).state.data_in.valid = false := by
  induction fuel generalizing s with
  | zero => exact hv
  | succ f ih =>
    unfold tick_loop
    have hb := (tick_body_delivered k env (f + 1) s hv).2
    cases h : tick_body k env (f + 1) s with
    | spin s1 => rw [h] at hb; exact hb
    | done s1 =>
      rw [h] at hb
      simp only [state_done] at hb ⊢
      by_cases hc : (s1.data_in.fire || s1.data_out.fire) = true
      · rw [if_pos hc]; exact ih s1 hb
      · rw [if_neg hc]; exact hb

theorem input_step_channel (env : Env) (s : State) (hv : s.data_in.valid = false) :
    ((input_step env s).data_in.valid = true → s.data_in.ready = true) ∧
    (input_step env s).data_in.ready = s.data_in.ready ∧
    (input_step env s).data_in.valid = (obtained env s).isSome ∧
    (input_step env s).data_in.fire = (obtained env s).isSome := by
  rw [input_step_eq]
  unfold obtained
  simp only [Channel.fire]
  split_ifs <;> simp_all

/-! ## The DEFINE_STEP wait reads afresh each time -/

theorem sys_read_length (a : Option (List Int)) (count : Nat) :
    ((sys_read a count).1 = (count : Int) → (sys_read a count).2.length = count) ∧
    ((sys_read a count).1 ≠ (count : Int) → 0 < count →
      (sys_read a count).2.length < count) := by
  cases a with
  | none =>
    refine ⟨fun h => ?_, fun _ hc => by simpa [sys_read] using hc⟩
    simp only [sys_read] at h
    omega
  | some l =>
    simp only [sys_read]
    refine ⟨fun h => by exact_mod_cast h, fun h _ => ?_⟩
    have hle : (l.take count).length ≤ count := by
      rw [List.length_take]; exact Nat.min_le_left _ _
    have hne : (l.take count).length ≠ count := fun he => h (by exact_mod_cast he)
    omega

theorem define_wait_done (k : Consts) (env : Env) (fuel : Nat) (s s1 : State)
    (h : define_wait k env fuel s = .done s1) :
    ∃ ev p, s1.trace = s.trace ++ ev ++
        [.net_read (k.CS_DEFINE_LEN + 1) ((k.CS_DEFINE_LEN + 1 : Nat) : Int) p] ∧
      p.length = k.CS_DEFINE_LEN + 1 ∧
      s1.buf = p ++ s.buf.drop (k.CS_DEFINE_LEN + 1) ∧
      ∀ e ∈ ev, short_read k e := by
  induction fuel generalizing s with
  | zero => simp [define_wait] at h
  | succ f ih =>
    unfold define_wait at h
    simp only [State.emit] at h
    obtain ⟨l1, l2⟩ := sys_read_length (env.net s.trace) (k.CS_DEFINE_LEN + 1)
    split at h
    · rename_i hne
      obtain ⟨ev, p, ht, hp, hbuf, hshort⟩ := ih _ h
      have hlt := l2 hne (Nat.succ_pos _)
      refine ⟨.net_read (k.CS_DEFINE_LEN + 1)
          (sys_read (env.net s.trace) (k.CS_DEFINE_LEN + 1)).1
          (sys_read (env.net s.trace) (k.CS_DEFINE_LEN + 1)).2 :: ev, p, ?_, hp, ?_, ?_⟩
      · rw [ht]; simp
      · rw [hbuf]
        congr 1
        simp only [store]
        rw [List.drop_append_eq_append_drop, List.drop_drop]
        have h0 : List.drop (k.CS_DEFINE_LEN + 1)
            (sys_read (env.net s.trace) (k.CS_DEFINE_LEN + 1)).2 = [] :=
          List.drop_eq_nil_of_le (by omega)
        rw [h0, List.nil_append]
        congr 1
        omega
      · intro e he
        rcases List.mem_cons.mp he with rfl | he2
        · exact ⟨_, _, rfl, hne, hlt⟩
        · exact hshort e he2
    · rename_i heq
      have heq2 := not_not.mp heq
      cases h
      refine ⟨[], (sys_read (env.net s.trace) (k.CS_DEFINE_LEN + 1)).2, ?_, l1 heq2, ?_,
        fun e he => by cases he⟩
      · simp only [List.append_nil]
        rw [heq2]
      · simp only [store]
        rw [l1 heq2]

theorem define_wait_spins (k : Consts) (env : Env)
    (hnever : ∀ tr, (sys_read (env.net tr) (k.CS_DEFINE_LEN + 1)).1
      ≠ ((k.CS_DEFINE_LEN + 1 : Nat) : Int))
    (fuel : Nat) (s : State) : (define_wait k env fuel s).returned = false := by
  induction fuel generalizing s with
  | zero => rfl
  | succ f ih =>
    unfold define_wait
    simp only [State.emit]
    rw [if_pos (hnever s.trace)]
    exact ih _

/-! ### Polls that find GRANT_TOKEN -/

theorem grant_events_cons (b : Int) (bs : List Int) :
    grant_events (b :: bs) =
      [.net_read 1 1 [b], .mmio_write .in_ctrl_bits 1, .mmio_write .in_ctrl_valid 1]
        ++ grant_events bs := rfl

theorem reg_writes_grant_events (bs : List Int) :
    reg_writes (grant_events bs) =
      (List.replicate bs.length [(Reg.in_ctrl_bits, (1 : Int)), (Reg.in_ctrl_valid, 1)]).flatten := by
  induction bs with
  | nil => rfl
  | cons b bs ih =>
    simp only [reg_writes] at ih ⊢
    rw [grant_events_cons, List.filterMap_append, ih]
    simp [reg_write_of, List.replicate_succ]

theorem reg_reads_grant_events (bs : List Int) : reg_reads (grant_events bs) = [] := by
  induction bs with
  | nil => rfl
  | cons b bs ih =>
    simp only [reg_reads] at ih ⊢
    rw [grant_events_cons, List.filterMap_append, ih]
    simp [reg_read_of]

theorem net_writes_grant_events (bs : List Int) : net_writes (grant_events bs) = [] := by
  induction bs with
  | nil => rfl
  | cons b bs ih =>
    simp only [net_writes] at ih ⊢
    rw [grant_events_cons, List.filterMap_append, ih]
    simp [net_write_of]

theorem poll_grants (k : Consts) (env : Env) (fuel : Nat) (bs : List Int) :
    ∀ s : State, (∀ b ∈ bs, b % 256 = k.CS_GRANT_TOKEN) →
      (∀ i b, bs.get? i = some b →
        ∃ rest, env.net (s.trace ++ grant_events (bs.take i)) = some (b :: rest)) →
      ∃ s1, poll_n k env fuel bs.length s = .done s1 ∧ s1.trace = s.trace ++ grant_events bs := by
  induction bs with
  | nil => intro s _ _; exact ⟨s, rfl, by simp [grant_events]⟩
  | cons b bs ih =>
    intro s hb hnet
    obtain ⟨rest, h0⟩ := hnet 0 b rfl
    have h0 : env.net s.trace = some (b :: rest) := by simpa [grant_events] using h0
    obtain ⟨s1, hp, ht1⟩ : ∃ s1, process_packet k env fuel s = .done s1 ∧
        s1.trace = s.trace ++ [.net_read 1 1 [b], .mmio_write .in_ctrl_bits 1,
                               .mmio_write .in_ctrl_valid 1] := by
      rw [process_packet_command k env fuel s b rest h0,
        if_pos (hb b (List.mem_cons_self _ _))]
      exact ⟨_, rfl, rfl⟩
    obtain ⟨s2, hq, ht⟩ := ih s1 (fun c hc => hb c (List.mem_cons_of_mem _ hc))
      (fun i c hi => by
        obtain ⟨r, hr⟩ := hnet (i + 1) c (by simpa using hi)
        refine ⟨r, ?_⟩
        rw [← hr, List.take_succ_cons, grant_events_cons, ht1, List.append_assoc])
    refine ⟨s2, ?_, ?_⟩
    · simp only [List.length_cons, poll_n, hp]; exact hq
    · rw [ht, ht1, grant_events_cons, List.append_assoc]

/-! ### Signal delivery inside the input step -/

theorem input_step_signals_nil (env : Env) (s : State) :
    input_step_signals env [] [] [] s = input_step env s := rfl

theorem signals_specialchar (sigs : List Int) (s t : State)
    (h : s.specialchar = t.specialchar) :
    (signals sigs s).specialchar = (signals sigs t).specialchar := by
  rcases List.eq_nil_or_concat sigs with h1 | ⟨l, last, h1⟩
  · subst h1; exact h
  · subst h1; rw [List.concat_eq_append, signals_snoc, signals_snoc]

theorem signals_after_reset (after : List Int) (s t : State) (h : t.specialchar = 0) :
    signals after t =
      { t with specialchar := (signals after { s with specialchar := 0 }).specialchar } := by
  obtain ⟨x, hx⟩ := signals_frame after t
  have hs := signals_specialchar after t { s with specialchar := 0 } h
  rw [← hs, hx]

theorem input_step_signals_take (env : Env) (before between after : List Int) (s : State)
    (hr : s.data_in.ready = true) (hv : s.specialchar ≠ 0) :
    input_step_signals env before between after s =
      { s with
        trace := s.trace ++ [.take_special (signals before s).specialchar]
        specialchar := (signals after { s with specialchar := 0 }).specialchar
        data_in := { s.data_in with bits := (signals before s).specialchar, valid := true } } := by
  obtain ⟨v, hb⟩ := signals_frame before s
  obtain ⟨w, hm⟩ := signals_frame between { s with specialchar := v }
  unfold input_step_signals
  rw [if_pos hr, if_pos hv]
  simp only [hb, hm, State.emit]
  rw [signals_after_reset after s _ rfl]

theorem transfer_signals_in_bits (env : Env) (before between after : List Int) (s : State)
    (hr : s.data_in.ready = true) (hv : s.specialchar ≠ 0) :
    in_bits_writes (transfer_signals env before between after s).trace =
      in_bits_writes s.trace ++ [(signals before s).specialchar] := by
  unfold transfer_signals
  rw [input_step_signals_take env before between after s hr hv]
  simp only [send_eq, output_step_eq, in_bits_writes, List.filterMap_append]
  have h1 : ∀ t : State, List.filterMap in_bits_of (output_events env t) = [] := by
    intro t
    unfold output_events
    split_ifs <;> rfl
  rw [h1]
  simp [send_events, Channel.fire, hr]
  split_ifs <;> simp [in_bits_of]

/-! ## Claims -/

/-! ### C1 -/

/-- Claim C1 (no double delivery).  Over any sequence of ticks and signal deliveries, in
any surroundings and from any state whose history is in order, and however each call ends
(also for the state in which a call is found still looping): the values written to in_bits
are exactly the bytes consumed (override values taken and bytes read from the Character
Stream), in consumption order and each once; every write to in_bits is directly followed by
the write in_valid = 1; and the bytes read from the stream occur among the writes in the
order in which they were read. -/
theorem no_double_delivery (k : Consts) (env : Env) (fuel : Nat) (acts : List Action)
    (s : State) (h0 : in_bits_writes s.trace = consumed s.trace)
    (h1 : paired s.trace = true) :
    in_bits_writes (run k env fuel acts s).state.trace
        = consumed (run k env fuel acts s).state.trace ∧
      paired (run k env fuel acts s).state.trace = true ∧
      (input_bytes (run k env fuel acts s).state.trace).Sublist
        (in_bits_writes (run k env fuel acts s).state.trace) := by
  obtain ⟨ev, ht, hd⟩ := run_delivered k env fuel acts s
  have hall : delivered_once (run k env fuel acts s).state.trace := by
    rw [ht]; exact delivered_once_append _ _ ⟨h0, h1⟩ hd
  refine ⟨hall.1, hall.2, ?_⟩
  rw [hall.1]
  exact input_bytes_sublist _

/-- Instance of no_double_delivery: five ticks with a SIGINT after the first, in_ready
reading 1 in every other tick and "ab" on inputfd; in_bits receives 97, 3 and 98, each
once. -/
theorem no_double_delivery_witness :
    (in_bits_writes s0.trace = consumed s0.trace ∧ paired s0.trace = true) ∧
    (in_bits_writes (run k0 env_alternating 5
        [.tick, .signal 2, .tick, .tick, .tick, .tick] s0).state.trace
      = consumed (run k0 env_alternating 5
        [.tick, .signal 2, .tick, .tick, .tick, .tick] s0).state.trace ∧
     paired (run k0 env_alternating 5
        [.tick, .signal 2, .tick, .tick, .tick, .tick] s0).state.trace = true ∧
     (input_bytes (run k0 env_alternating 5
        [.tick, .signal 2, .tick, .tick, .tick, .tick] s0).state.trace).Sublist
       (in_bits_writes (run k0 env_alternating 5
        [.tick, .signal 2, .tick, .tick, .tick, .tick] s0).state.trace)) ∧
    in_bits_writes (run k0 env_alternating 5
        [.tick, .signal 2, .tick, .tick, .tick, .tick] s0).state.trace = [97, 3, 98] :=
  ⟨⟨rfl, rfl⟩,
   no_double_delivery k0 env_alternating 5 [.tick, .signal 2, .tick, .tick, .tick, .tick] s0
     rfl rfl,
   by decide⟩

/-! ### C2 -/

/-- Claim C2 (loop continuation), the code at the failing input.  The claim has the loop
continue after an iteration in which the input channel fired; the code clears
data.in.valid before it tests the loop condition, so an input transfer alone does not keep
the loop going: with in_ready reading 1, out_valid reading 0 and "ab" waiting on inputfd,
tick delivers 'a' (97) in its first iteration and returns after that single iteration,
with 'b' (98) still waiting and in_ready still reading 1. -/
theorem tick_returns_after_input_fire :
    tick k0 env_idle_output 5 s0 =
      .done { s0 with
        data_in := ⟨97, false, true⟩
        data_out := ⟨0, false, true⟩
        buf := bzero 64
        n := -1
        trace := [.mmio_read .in_ready 1, .mmio_read .out_valid 0, .net_read 1 (-1) [],
                  .input_read 1 [97], .mmio_write .in_bits 97, .mmio_write .in_valid 1] } ∧
    iterations (tick k0 env_idle_output 5 s0).state.trace = 1 ∧
    env_idle_output.input (tick k0 env_idle_output 5 s0).state.trace = some [98] ∧
    env_idle_output.mmio (tick k0 env_idle_output 5 s0).state.trace .in_ready = 1 := by
  decide

/-! ### C3 -/

/-- Claim C3 (override precedence).  Take a loop iteration that runs to its end, in which
in_ready reads non-zero and the override byte holds v, not 0.  Then the iteration writes v
to in_bits (and nothing else there), takes v from the override byte, does not read the
Character Stream, and leaves the override byte 0.  A following iteration (no signal in
between) in which in_ready reads non-zero takes nothing from the override byte and reads
the Character Stream once. -/
theorem override_precedence (k : Consts) (env : Env) (fuel : Nat) (s s2 : State)
    (hb : tick_body k env fuel s = .done s2)
    (hr : env.mmio s.trace .in_ready ≠ 0) (hv : s.specialchar ≠ 0) :
    in_bits_writes s2.trace = in_bits_writes s.trace ++ [s.specialchar] ∧
    takes s2.trace = takes s.trace ++ [s.specialchar] ∧
    input_reads s2.trace = input_reads s.trace ∧
    s2.specialchar = 0 ∧
    ∀ fuel3 s3, tick_body k env fuel3 s2 = .done s3 → env.mmio s2.trace .in_ready ≠ 0 →
      takes s3.trace = takes s2.trace ∧ input_reads s3.trace = input_reads s2.trace + 1 := by
  obtain ⟨s1, _, rfl, f1, _, f3, c1, c2, c3⟩ := tick_body_done hb
  have hready : s1.data_in.ready = true := by
    rw [f1, (recv_frame env s).2.2.1]; simpa using hr
  have hob : obtained env s1 = some s.specialchar := by
    simp [obtained, hready, f3, hv]
  have hev : input_events env s1 = [.take_special s.specialchar] := by
    simp [input_events, hready, f3, hv]
  obtain ⟨t1, t2⟩ := transfer_input_side env s1
  have hz : (transfer env s1).specialchar = 0 := by
    rw [transfer_specialchar, hready]; rfl
  refine ⟨?_, ?_, ?_, hz, ?_⟩
  · rw [transfer_in_bits env s1 (Or.inr (by rw [hob]; rfl)), hob, c1]; rfl
  · rw [t1, hev, c2]; rfl
  · rw [t2, hev, c3]; rfl
  · intro fuel3 s3 hb3 hr3
    obtain ⟨s4, _, rfl, g1, _, g3, _, d2, d3⟩ := tick_body_done hb3
    have hready4 : s4.data_in.ready = true := by
      rw [g1, (recv_frame env _).2.2.1]; simpa using hr3
    have hsp : s4.specialchar = 0 := by rw [g3, hz]
    have hev4 : input_events env s4
        = [.input_read (sys_read (env.input s4.trace) 1).1 (sys_read (env.input s4.trace) 1).2] := by
      simp [input_events, hready4, hsp]
    obtain ⟨u1, u2⟩ := transfer_input_side env s4
    rw [u1, u2, hev4, d2, d3]
    exact ⟨by simp [takes, take_of], by simp [input_reads, is_input_read]⟩

/-- Instance of override_precedence: after a SIGINT, an iteration with in_ready reading 1
writes 3 to in_bits without reading inputfd, and the next iteration reads inputfd. -/
theorem override_precedence_witness :
    (tick_body k0 env_idle_output 1 (sighand 2 s0)
        = .done (tick_body k0 env_idle_output 1 (sighand 2 s0)).state ∧
      env_idle_output.mmio (sighand 2 s0).trace .in_ready ≠ 0 ∧
      (sighand 2 s0).specialchar ≠ 0) ∧
    in_bits_writes (tick_body k0 env_idle_output 1 (sighand 2 s0)).state.trace = [3] ∧
    takes (tick_body k0 env_idle_output 1 (sighand 2 s0)).state.trace = [3] ∧
    input_reads (tick_body k0 env_idle_output 1 (sighand 2 s0)).state.trace = 0 ∧
    (tick_body k0 env_idle_output 1 (sighand 2 s0)).state.specialchar = 0 ∧
    takes (tick_body k0 env_idle_output 1
        (tick_body k0 env_idle_output 1 (sighand 2 s0)).state).state.trace = [3] ∧
    input_reads (tick_body k0 env_idle_output 1
        (tick_body k0 env_idle_output 1 (sighand 2 s0)).state).state.trace = 1 :=
  have h := override_precedence k0 env_idle_output 1 (sighand 2 s0)
    (tick_body k0 env_idle_output 1 (sighand 2 s0)).state (by decide) (by decide) (by decide)
  ⟨⟨by decide, by decide, by decide⟩, h.1, h.2.1, h.2.2.1, h.2.2.2.1,
   (h.2.2.2.2 1 _ (by decide) (by decide)).1, (h.2.2.2.2 1 _ (by decide) (by decide)).2⟩

/-! ### C4 -/

/-- Claim C4 (drain termination).  Suppose out_valid reads 0 once B output bytes have been
acknowledged, and the peer socket never offers a CS_DEFINE_STEP command byte.  Then tick
returns, within B + 1 - (bytes acknowledged so far) loop iterations; the number of its
iterations is one more than the number of output bytes it acknowledged, so every iteration
but the last had a channel fire and the loop ran no iteration after one without a fire;
and when out_valid reads 0 in the first iteration, tick performs exactly one iteration. -/
theorem tick_terminates (k : Consts) (env : Env) (B : Nat) (s : State)
    (hout : ∀ tr, B ≤ acks tr → env.mmio tr .out_valid = 0)
    (hdef : ∀ tr b rest, env.net tr = some (b :: rest) → b % 256 ≠ k.CS_DEFINE_STEP) :
    ∃ s1, tick k env (B - acks s.trace + 1) s = .done s1 ∧
      iterations s1.trace + acks s.trace = iterations s.trace + acks s1.trace + 1 ∧
      iterations s1.trace ≤ iterations s.trace + (B - acks s.trace) + 1 ∧
      (env.mmio (s.trace ++ [.mmio_read .in_ready (env.mmio s.trace .in_ready)]) .out_valid = 0
        → iterations s1.trace = iterations s.trace + 1) := by
  unfold tick
  exact tick_loop_terminates k env B hout hdef (B - acks s.trace) _ rfl (le_refl _)

/-- Instance of tick_terminates: with two output bytes pending (and a GRANT_TOKEN byte at
every poll), tick returns within three iterations, one more than the bytes it
acknowledged. -/
theorem tick_terminates_witness :
    ∃ s1, tick k0 env_two_outputs 3 s0 = .done s1 ∧
      iterations s1.trace + 0 = 0 + acks s1.trace + 1 ∧
      iterations s1.trace ≤ 0 + 2 + 1 ∧
      (env_two_outputs.mmio [.mmio_read .in_ready 0] .out_valid = 0 →
        iterations s1.trace = 0 + 1) :=
  tick_terminates k0 env_two_outputs 2 s0
    (fun tr h => by
      show (if acks tr < 2 then (1 : Int) else 0) = 0
      rw [if_neg (by omega)])
    (fun tr b rest h => by
      have hq : some [(128 : Int)] = some (b :: rest) := h
      cases hq
      decide)

/-! ### C5 -/

/-- Counterexample to claim C5 as stated (exactly one input transfer per tick): with
in_ready reading 1, out_valid reading 1 in the first iteration only and "ab" waiting on
inputfd, tick returns after two iterations, having written both 97 and 98 to in_bits. -/
theorem two_input_transfers_in_one_tick :
    (∃ s1, tick k0 env_one_output 5 s0 = .done s1) ∧
    env_one_output.mmio s0.trace .in_ready = 1 ∧
    env_one_output.input s0.trace = some [97, 98] ∧
    in_bits_writes (tick k0 env_one_output 5 s0).state.trace = [97, 98] ∧
    iterations (tick k0 env_one_output 5 s0).state.trace = 2 := by
  refine ⟨⟨_, rfl⟩, ?_⟩
  decide

/-- Claim C5, as amended (no byte loss under readiness).  Take a tick whose first loop
iteration runs to its end, with in_ready reading non-zero in it and an input byte b
available: the override byte is b, not 0, or the override byte is 0 and the Character Stream
offers b first.  Then that iteration makes exactly one input transfer, writing b to
in_bits; so the writes of the tick to in_bits start with b, and the tick makes at most one
input transfer in each of its iterations. -/
theorem first_byte_delivered (k : Consts) (env : Env) (fuel : Nat) (s s2 : State) (b : Int)
    (hb1 : tick_body k env (fuel + 1) (tick_init s) = .done s2)
    (hr : env.mmio s.trace .in_ready ≠ 0)
    (hb : (s.specialchar ≠ 0 ∧ b = s.specialchar) ∨
      (s.specialchar = 0 ∧
        ∀ tr, input_reads tr = input_reads s.trace → ∃ rest, env.input tr = some (b :: rest))) :
    in_bits_writes s2.trace = in_bits_writes s.trace ++ [b] ∧
    ∃ more, in_bits_writes (tick k env (fuel + 1) s).state.trace
          = in_bits_writes s.trace ++ b :: more ∧
      more.length + 1 + iterations s.trace
        ≤ iterations (tick k env (fuel + 1) s).state.trace := by
  obtain ⟨s1, _, hs2, f1, _, f3, c1, _, c3⟩ := tick_body_done hb1
  have hready : s1.data_in.ready = true := by
    rw [f1, (recv_frame env _).2.2.1]; simpa [tick_init] using hr
  have hvalid : s1.data_in.valid = false := by
    rw [f1, (recv_frame env _).1]; rfl
  have hsp : s1.specialchar = s.specialchar := f3
  have hob : obtained env s1 = some b := by
    rcases hb with ⟨hne, rfl⟩ | ⟨hz, hin⟩
    · simp [obtained, hready, hsp, hne]
    · obtain ⟨rest, hrest⟩ := hin s1.trace c3
      simp [obtained, hready, hsp, hz, hrest, sys_read]
  have hfirst : in_bits_writes s2.trace = in_bits_writes s.trace ++ [b] := by
    rw [hs2, transfer_in_bits env s1 (Or.inl hvalid), hob, c1]; rfl
  refine ⟨hfirst, ?_⟩
  have hv2 : s2.data_in.valid = false := by rw [hs2]; exact transfer_valid env s1
  have hrest : ∃ ev, (tick k env (fuel + 1) s).state.trace = s2.trace ++ ev := by
    unfold tick
    rw [tick_loop, hb1]
    by_cases hc : (s2.data_in.fire || s2.data_out.fire) = true
    · simp only [if_pos hc]
      obtain ⟨ev, hev, _⟩ := tick_loop_delivered k env fuel s2 hv2
      exact ⟨ev, hev⟩
    · simp only [if_neg hc, state_done]
      exact ⟨[], by simp⟩
  obtain ⟨ev, hev⟩ := hrest
  have hcount := (tick_loop_counts k env (fuel + 1) (tick_init s) rfl).2
  refine ⟨in_bits_writes ev, ?_, ?_⟩
  · rw [hev]
    simp only [in_bits_writes, List.filterMap_append] at hfirst ⊢
    rw [hfirst]; simp
  · have hlen : (in_bits_writes (tick k env (fuel + 1) s).state.trace).length
        = (in_bits_writes s.trace).length + 1 + (in_bits_writes ev).length := by
      rw [hev]
      simp only [in_bits_writes, List.filterMap_append] at hfirst ⊢
      rw [hfirst]; simp; omega
    have e1 : (tick_init s).trace = s.trace := rfl
    unfold tick at hlen ⊢
    rw [e1] at hcount
    omega

/-- Instance of first_byte_delivered: with in_ready reading 1 and "ab" on inputfd, the
first iteration of the tick writes 97 to in_bits; the tick as a whole writes 97 and 98. -/
theorem first_byte_delivered_witness :
    (tick_body k0 env_one_output 5 (tick_init s0)
        = .done (tick_body k0 env_one_output 5 (tick_init s0)).state ∧
      env_one_output.mmio s0.trace .in_ready ≠ 0 ∧ s0.specialchar = 0) ∧
    in_bits_writes (tick_body k0 env_one_output 5 (tick_init s0)).state.trace = [97] ∧
    ∃ more, in_bits_writes (tick k0 env_one_output 5 s0).state.trace = 97 :: more ∧
      more.length + 1 + 0 ≤ iterations (tick k0 env_one_output 5 s0).state.trace :=
  have h := first_byte_delivered k0 env_one_output 4 s0
    (tick_body k0 env_one_output 5 (tick_init s0)).state 97 (by decide) (by decide)
    (Or.inr ⟨rfl, fun tr htr =>
      ⟨[98], by
        show queue [97, 98] (input_taken tr) = some [97, 98]
        rw [input_taken_zero tr htr]; rfl⟩⟩)
  ⟨⟨by decide, by decide, rfl⟩, h.1, h.2⟩

/-! ### C6 -/

/-- Counterexample to claim C6 as stated: the reply to REQUEST_CYCLES is not the decimal
digits of every register value; for
cycle_budget = 4294967295 the bytes sent are "-1" (45, 49), while the decimal digits of
4294967295 are "4294967295". -/
theorem request_cycles_reply_large :
    process_packet k0 env_large_budget 1 s0 =
      .done { s0 with
        buf := [45, 49] ++ bzero 62
        n := 1
        trace := [.net_read 1 1 [129], .mmio_read .cycle_budget 4294967295,
                  .net_write [45, 49]] } ∧
    decimal_ascii 4294967295 = [52, 50, 57, 52, 57, 54, 55, 50, 57, 53] := by
  constructor
  · decide
  · rw [← to_dec_eq]; decide

/-- Claim C6, as amended (REQUEST_CYCLES).  When the first read of process_packet returns
a byte equal to CS_REQ_CYCLES, the call returns having performed exactly: that read, one
read of the cycle_budget register giving v, and one write to the peer of the characters
the "%d" conversion produces for v, without terminator or padding; no register is
written.  For 0 ≤ v < 2^31 these characters are the decimal digits of v. -/
theorem request_cycles_reply (k : Consts) (env : Env) (fuel : Nat) (s : State) (b : Int)
    (rest : List Int) (hne : k.CS_REQ_CYCLES ≠ k.CS_GRANT_TOKEN)
    (hnet : env.net s.trace = some (b :: rest)) (hb : b % 256 = k.CS_REQ_CYCLES) :
    ∃ s1, process_packet k env fuel s = .done s1 ∧
      s1.trace = s.trace ++
        [.net_read 1 1 [b],
         .mmio_read .cycle_budget (env.mmio (s.trace ++ [.net_read 1 1 [b]]) .cycle_budget),
         .net_write (fmt_d (env.mmio (s.trace ++ [.net_read 1 1 [b]]) .cycle_budget))] ∧
      (0 ≤ env.mmio (s.trace ++ [.net_read 1 1 [b]]) .cycle_budget →
        env.mmio (s.trace ++ [.net_read 1 1 [b]]) .cycle_budget < 2 ^ 31 →
        fmt_d (env.mmio (s.trace ++ [.net_read 1 1 [b]]) .cycle_budget)
          = decimal_ascii (env.mmio (s.trace ++ [.net_read 1 1 [b]]) .cycle_budget).toNat) := by
  have hg : b % 256 ≠ k.CS_GRANT_TOKEN := by rw [hb]; exact hne
  rw [process_packet_command k env fuel s b rest hnet, if_neg hg, if_pos hb]
  refine ⟨_, rfl, ?_, fmt_d_in_range _⟩
  simp only [sprintf_d_reply, after_command]

/-- Instance of request_cycles_reply: with cycle_budget = 42 the reply is the two bytes
"42" (52, 50). -/
theorem request_cycles_reply_witness :
    (k0.CS_REQ_CYCLES ≠ k0.CS_GRANT_TOKEN ∧ env_budget_42.net s0.trace = some [129] ∧
      (129 : Int) % 256 = k0.CS_REQ_CYCLES) ∧
    ∃ s1, process_packet k0 env_budget_42 1 s0 = .done s1 ∧
      s1.trace = [.net_read 1 1 [129], .mmio_read .cycle_budget 42, .net_write [52, 50]] ∧
      ((0 : Int) ≤ 42 → (42 : Int) < 2 ^ 31 → fmt_d 42 = decimal_ascii 42) :=
  ⟨⟨by decide, rfl, by decide⟩,
   request_cycles_reply k0 env_budget_42 1 s0 129 [] (by decide) rfl (by decide)⟩

/-! ### C7 -/

/-- Counterexample to claim C7 as stated: the DEFINE_STEP payload read takes
CS_DEFINE_LEN + 1 bytes, not CS_DEFINE_LEN; with
CS_DEFINE_LEN = 4 and the peer having sent DEFINE_STEP, "0100" and then a GRANT_TOKEN
command (128), process_packet reads five bytes after the command byte, swallowing the
GRANT_TOKEN byte, and leaves nothing on the socket for the next poll. -/
theorem define_step_swallows_next_byte :
    process_packet k0 env_step_then_grant 1 s0 =
      .done { s0 with
        buf := [48, 49, 48, 48, 128] ++ bzero 59
        n := 1
        trace := [.net_read 1 1 [130], .printf_received,
                  .net_read 5 5 [48, 49, 48, 48, 128],
                  .printf_step 100, .mmio_write .cycle_step 100] } ∧
    env_step_then_grant.net (process_packet k0 env_step_then_grant 1 s0).state.trace
      = none := by
  decide

/-- Claim C7, as amended (DEFINE_STEP).  When the first read of process_packet returns a
byte equal to CS_DEFINE_STEP and the peer socket then offers CS_DEFINE_LEN decimal digits
followed by one more byte that is not a digit (and possibly further bytes), the call
returns having read exactly those CS_DEFINE_LEN + 1 bytes in one read, and having written
cycle_step exactly once, with the decimal value of the digits (taken to fit an int); what
the socket holds behind those CS_DEFINE_LEN + 1 bytes is not read. -/
theorem define_step_payload (k : Consts) (env : Env) (fuel : Nat) (s : State) (b : Int)
    (rest ds : List Int) (t : Int) (more : List Int)
    (hg : k.CS_DEFINE_STEP ≠ k.CS_GRANT_TOKEN) (hq : k.CS_DEFINE_STEP ≠ k.CS_REQ_CYCLES)
    (hnet : env.net s.trace = some (b :: rest)) (hb : b % 256 = k.CS_DEFINE_STEP)
    (hlen : ds.length = k.CS_DEFINE_LEN) (hd : ∀ d ∈ ds, isdigit d = true)
    (ht : isdigit t = false)
    (hpay : env.net (s.trace ++ [.net_read 1 1 [b], .printf_received])
      = some (ds ++ t :: more))
    (_hfit : decimal_value ds < 2 ^ 31) :
    ∃ s1, process_packet k env (fuel + 1) s = .done s1 ∧
      s1.trace = s.trace ++
        [.net_read 1 1 [b], .printf_received,
         .net_read (k.CS_DEFINE_LEN + 1) ((k.CS_DEFINE_LEN + 1 : Nat) : Int) (ds ++ [t]),
         .printf_step (decimal_value ds), .mmio_write .cycle_step (decimal_value ds)] := by
  have h1 : b % 256 ≠ k.CS_GRANT_TOKEN := by rw [hb]; exact hg
  have h2 : b % 256 ≠ k.CS_REQ_CYCLES := by rw [hb]; exact hq
  rw [process_packet_command k env fuel.succ s b rest hnet, if_neg h1, if_neg h2, if_pos hb]
  rw [define_wait_full k env fuel _ ds t more hlen hpay]
  have hbuf : store (bzero k.ROBOTICS_COSIM_BUFSIZE) (ds ++ [t])
      = ds ++ t :: List.replicate (k.ROBOTICS_COSIM_BUFSIZE - (k.CS_DEFINE_LEN + 1)) 0 := by
    simp [store, bzero, hlen]
  refine ⟨_, rfl, ?_⟩
  simp only [hbuf, atoi_payload ds hd t ht]
  simp

/-- Instance of define_step_payload: DEFINE_STEP followed by "0100" and a zero byte writes
100 to cycle_step and leaves the following GRANT_TOKEN byte on the socket. -/
theorem define_step_payload_witness :
    (env_step_100.net s0.trace = some [130, 48, 49, 48, 48, 0, 128] ∧
      (130 : Int) % 256 = k0.CS_DEFINE_STEP ∧ isdigit 0 = false ∧
      decimal_value [48, 49, 48, 48] = 100) ∧
    (∃ s1, process_packet k0 env_step_100 1 s0 = .done s1 ∧
      s1.trace = [.net_read 1 1 [130], .printf_received,
                  .net_read 5 5 [48, 49, 48, 48, 0],
                  .printf_step 100, .mmio_write .cycle_step 100]) ∧
    env_step_100.net (process_packet k0 env_step_100 1 s0).state.trace = some [128] :=
  ⟨⟨rfl, by decide, by decide, by simp [decimal_value, Nat.ofDigits]⟩,
   define_step_payload k0 env_step_100 0 s0 130 [48, 49, 48, 48, 0, 128] [48, 49, 48, 48] 0
     [128] (by decide) (by decide) rfl (by decide) rfl (by decide) (by decide) rfl
     (by simp [decimal_value, Nat.ofDigits]),
   by decide⟩

/-! ### C8 -/

/-- Claim C8 (GRANT_TOKEN).  When the first read of process_packet returns a byte equal to
CS_GRANT_TOKEN, the call returns having performed exactly: that one read of one byte, the
write of 1 to in_ctrl_bits, then the write of 1 (true) to in_ctrl_valid; no other register
is touched and nothing is sent to the peer.  And for every list bs of k GRANT_TOKEN bytes
that the peer socket hands out one per poll (the i-th poll, made after the events of the
polls before it, finds the i-th byte; nothing is assumed about the socket at any other
moment), k polls return having made exactly the events of k such polls: k pairs of writes,
each with in_ctrl_bits = 1, no register read and no write to the peer. -/
theorem grant_token (k : Consts) (env : Env) (fuel : Nat) :
    (∀ s b rest, env.net s.trace = some (b :: rest) → b % 256 = k.CS_GRANT_TOKEN →
      ∃ s1, process_packet k env fuel s = .done s1 ∧
        s1.trace = s.trace ++ [.net_read 1 1 [b], .mmio_write .in_ctrl_bits 1,
                               .mmio_write .in_ctrl_valid 1]) ∧
    (∀ bs s, (∀ b ∈ bs, b % 256 = k.CS_GRANT_TOKEN) →
      (∀ i b, bs.get? i = some b →
        ∃ rest, env.net (s.trace ++ grant_events (bs.take i)) = some (b :: rest)) →
      ∃ s1, poll_n k env fuel bs.length s = .done s1 ∧
        s1.trace = s.trace ++ grant_events bs ∧
        reg_writes s1.trace = reg_writes s.trace ++
          (List.replicate bs.length
            [(Reg.in_ctrl_bits, (1 : Int)), (Reg.in_ctrl_valid, 1)]).flatten ∧
        reg_reads s1.trace = reg_reads s.trace ∧
        net_writes s1.trace = net_writes s.trace) := by
  refine ⟨?_, ?_⟩
  · intro s b rest hnet hb
    rw [process_packet_command k env fuel s b rest hnet, if_pos hb]
    exact ⟨_, rfl, rfl⟩
  · intro bs s hb hnet
    obtain ⟨s1, hp, ht⟩ := poll_grants k env fuel bs s hb hnet
    refine ⟨s1, hp, ht, ?_, ?_, ?_⟩
    · rw [ht, reg_writes, List.filterMap_append, ← reg_writes, ← reg_writes,
        reg_writes_grant_events]
    · rw [ht, reg_reads, List.filterMap_append, ← reg_reads, ← reg_reads,
        reg_reads_grant_events, List.append_nil]
    · rw [ht, net_writes, List.filterMap_append, ← net_writes, ← net_writes,
        net_writes_grant_events, List.append_nil]

/-- Instance of grant_token: the peer has sent three GRANT_TOKEN bytes and then a byte
that is no command.  One poll makes the pair of control writes, and three polls make
three pairs and nothing else. -/
theorem grant_token_witness :
    (∃ s1, process_packet k0 env_three_grants 1 s0 = .done s1 ∧
        s1.trace = s0.trace ++ [.net_read 1 1 [128], .mmio_write .in_ctrl_bits 1,
                                .mmio_write .in_ctrl_valid 1]) ∧
    (∃ s1, poll_n k0 env_three_grants 1 3 s0 = .done s1 ∧
        s1.trace = s0.trace ++ grant_events [128, 128, 128] ∧
        reg_writes s1.trace = reg_writes s0.trace ++
          [(.in_ctrl_bits, 1), (.in_ctrl_valid, 1), (.in_ctrl_bits, 1), (.in_ctrl_valid, 1),
           (.in_ctrl_bits, 1), (.in_ctrl_valid, 1)] ∧
        reg_reads s1.trace = reg_reads s0.trace ∧ net_writes s1.trace = net_writes s0.trace) :=
  have h := grant_token k0 env_three_grants 1
  ⟨h.1 s0 128 [128, 128, 7] (by decide) (by decide),
   h.2 [128, 128, 128] s0 (by decide)
     (fun i b hi =>
       match i, hi with
       | 0, hi => ⟨[128, 128, 7], by cases hi; decide⟩
       | 1, hi => ⟨[128, 7], by cases hi; decide⟩
       | 2, hi => ⟨[7], by cases hi; decide⟩
       | _ + 3, hi => by simp at hi)⟩

/-! ### C9 -/

/-- Claim C9 (unknown command).  When the first read of process_packet returns a byte that
is none of the three command codes, the call returns at once: its only action is that read
of one byte, so no register is read or written and nothing is sent to the peer; the
channels, the override byte and the log descriptor are as before, and buf and n record the
byte just read. -/
theorem unknown_command_noop (k : Consts) (env : Env) (fuel : Nat) (s : State) (b : Int)
    (rest : List Int) (hnet : env.net s.trace = some (b :: rest))
    (h1 : b % 256 ≠ k.CS_GRANT_TOKEN) (h2 : b % 256 ≠ k.CS_REQ_CYCLES)
    (h3 : b % 256 ≠ k.CS_DEFINE_STEP) :
    process_packet k env fuel s =
      .done { s with buf := store (bzero k.ROBOTICS_COSIM_BUFSIZE) [b], n := 1,
                     trace := s.trace ++ [.net_read 1 1 [b]] } := by
  rw [process_packet_command k env fuel s b rest hnet, if_neg h1, if_neg h2, if_neg h3]
  rfl

/-- Instance of unknown_command_noop: the byte 7 is read and nothing else happens. -/
theorem unknown_command_noop_witness :
    (env_unknown.net s0.trace = some [7] ∧ (7 : Int) % 256 ≠ k0.CS_GRANT_TOKEN ∧
      (7 : Int) % 256 ≠ k0.CS_REQ_CYCLES ∧ (7 : Int) % 256 ≠ k0.CS_DEFINE_STEP) ∧
    process_packet k0 env_unknown 1 s0 =
      .done { s0 with buf := 7 :: bzero 63, n := 1, trace := [.net_read 1 1 [7]] } :=
  ⟨⟨rfl, by decide, by decide, by decide⟩,
   unknown_command_noop k0 env_unknown 1 s0 7 [] rfl (by decide) (by decide) (by decide)⟩

/-! ### C10 -/

/-- Claim C10 (one command read per poll).  Every call of process_packet, however it ends,
starts with exactly one read of one byte from the peer socket; any further read of the
socket in that call asks for CS_DEFINE_LEN + 1 bytes and happens only after the byte read
was CS_DEFINE_STEP; the call dispatches at most one command.  If the first read returns no
byte (0 or a negative count) the call returns at once and that read is its only action: no
register is read or written and nothing is written to the peer.  Hence over any tick the
number of commands dispatched is at most the number of loop iterations. -/
theorem poll_single_attempt (k : Consts) (env : Env) (fuel : Nat) (s : State) :
    (∃ ev, (process_packet k env fuel s).state.trace
        = s.trace ++ .net_read 1 (sys_read (env.net s.trace) 1).1
            (sys_read (env.net s.trace) 1).2 :: ev ∧
      dispatched ev ≤ 1 ∧
      (∀ c r bs, Event.net_read c r bs ∈ ev →
        c = k.CS_DEFINE_LEN + 1 ∧
          (sys_read (env.net s.trace) 1).2.headD 0 % 256 = k.CS_DEFINE_STEP)) ∧
    ((sys_read (env.net s.trace) 1).1 ≤ 0 →
      process_packet k env fuel s =
        .done { s with buf := bzero k.ROBOTICS_COSIM_BUFSIZE,
                       n := (sys_read (env.net s.trace) 1).1,
                       trace := s.trace ++ [.net_read 1 (sys_read (env.net s.trace) 1).1 []] }) ∧
    dispatched (tick k env fuel s).state.trace + iterations s.trace
      ≤ dispatched s.trace + iterations (tick k env fuel s).state.trace := by
  refine ⟨?_, ?_, ?_⟩
  · obtain ⟨ev, ht, hd, _, _, hr⟩ := process_packet_dispatched k env fuel s
    exact ⟨ev, ht, hd, hr⟩
  · intro h
    rw [process_packet_no_command k env fuel s h]
    rfl
  · unfold tick
    exact (tick_loop_counts k env fuel _ rfl).1

/-- Instance of poll_single_attempt: on a silent socket the poll is one failed read. -/
theorem poll_single_attempt_witness :
    (sys_read (env_idle_output.net s0.trace) 1).1 ≤ 0 ∧
    process_packet k0 env_idle_output 1 s0 =
      .done { s0 with buf := bzero 64, n := -1, trace := [.net_read 1 (-1) []] } :=
  ⟨by decide, (poll_single_attempt k0 env_idle_output 1 s0).2.1 (by decide)⟩

/-! ### C11 -/

/-- Claim C11 (output delivery).  Over any tick, however it ends: the bytes w written to
the Character Stream sink are exactly the values read from out_bits, in order and one for
each (a last value read may still be pending only while the tick has not returned); the
output-side actions are, for each byte of w in turn, the write to the sink, then the write
of the same byte to the log if loggingfd is non-zero (and no log write otherwise), then
the write out_ready = 1.  And in an iteration in which out_valid reads 0, out_bits is not
read, nothing is written to either sink and out_ready is not written. -/
theorem output_delivery (k : Consts) (env : Env) (fuel : Nat) (s : State) :
    (∃ w pending,
      out_bits_reads (tick k env fuel s).state.trace
        = out_bits_reads s.trace ++ (w ++ pending) ∧
      out_acts (tick k env fuel s).state.trace
        = out_acts s.trace ++ w.flatMap (delivery (decide (s.loggingfd ≠ 0))) ∧
      sink_writes (tick k env fuel s).state.trace = sink_writes s.trace ++ w ∧
      log_writes (tick k env fuel s).state.trace
        = log_writes s.trace ++ (if s.loggingfd ≠ 0 then w else []) ∧
      ack_values (tick k env fuel s).state.trace
        = ack_values s.trace ++ List.replicate w.length 1 ∧
      pending.length ≤ 1 ∧ ((tick k env fuel s).returned = true → pending = [])) ∧
    (∀ s1 : State,
      env.mmio (s1.trace ++ [.mmio_read .in_ready (env.mmio s1.trace .in_ready)]) .out_valid = 0 →
      out_acts (tick_body k env fuel s1).state.trace = out_acts s1.trace ∧
      out_bits_reads (tick_body k env fuel s1).state.trace = out_bits_reads s1.trace) := by
  refine ⟨?_, fun s1 hz => tick_body_idle_output k env fuel s1 hz⟩
  exact (tick_loop_ledger k env fuel (tick_init s) rfl).1

/-- Instance of output_delivery: with two output bytes 'A' pending and a log file open,
tick writes 65 twice to the sink and to the log, each followed by out_ready = 1. -/
theorem output_delivery_witness :
    (∃ w pending,
      out_bits_reads (tick k0 env_two_outputs 3 s0_logging).state.trace = [] ++ (w ++ pending) ∧
      out_acts (tick k0 env_two_outputs 3 s0_logging).state.trace
        = [] ++ w.flatMap (delivery true) ∧
      sink_writes (tick k0 env_two_outputs 3 s0_logging).state.trace = [] ++ w ∧
      log_writes (tick k0 env_two_outputs 3 s0_logging).state.trace = [] ++ w ∧
      ack_values (tick k0 env_two_outputs 3 s0_logging).state.trace
        = [] ++ List.replicate w.length 1 ∧
      pending.length ≤ 1 ∧
      ((tick k0 env_two_outputs 3 s0_logging).returned = true → pending = [])) ∧
    out_acts (tick k0 env_two_outputs 3 s0_logging).state.trace
      = [.sink 65, .log 65, .ack 1, .sink 65, .log 65, .ack 1] ∧
    out_acts (tick k0 env_two_outputs 3 s0).state.trace
      = [.sink 65, .ack 1, .sink 65, .ack 1] :=
  ⟨(output_delivery k0 env_two_outputs 3 s0_logging).1, by decide, by decide⟩

/-! ### C12 -/

/-- Counterexample to claim C12 as stated: with two output bytes pending and every write
to outputfd failing (returning -1), tick does not stop: it writes out_ready = 1 after each
failed write, runs its three iterations and returns. -/
theorem tick_carries_on_after_sink_failure :
    (tick k0 env_sink_fails 3 s0).returned = true ∧
    sink_results (tick k0 env_sink_fails 3 s0).state.trace = [-1, -1] ∧
    out_acts (tick k0 env_sink_fails 3 s0).state.trace
      = [.sink 65, .ack 1, .sink 65, .ack 1] ∧
    iterations (tick k0 env_sink_fails 3 s0).state.trace = 3 := by
  decide

/-- Claim C12, as amended (sink write failure).  The result of the write to the sink is
not looked at.  Take a loop iteration that runs to its end, entered with data.out.ready
true, in which out_valid reads non-zero, and let the write to outputfd made in this
iteration fail (return a negative count); nothing is assumed about any other write.  Then
the iteration makes its one write to the sink, which fails, still writes out_ready = 1 for
the byte, and the drain loop goes on to a further iteration. -/
theorem sink_failure_ignored (k : Consts) (env : Env) (fuel : Nat) (s s2 : State)
    (hb : tick_body k env (fuel + 1) s = .done s2)
    (hr : s.data_out.ready = true)
    (hv : env.mmio (s.trace ++ [.mmio_read .in_ready (env.mmio s.trace .in_ready)]) .out_valid
      ≠ 0)
    (hfail : ∀ r, sink_results s2.trace = sink_results s.trace ++ [r] → r < 0) :
    (∃ r, sink_results s2.trace = sink_results s.trace ++ [r] ∧ r < 0) ∧
    ack_values s2.trace = ack_values s.trace ++ [1] ∧
    tick_loop k env (fuel + 1) s = tick_loop k env fuel s2 := by
  obtain ⟨s1, hp, rfl, _, f2, _⟩ := tick_body_done hb
  have hvalid : (recv env s).data_out.valid = true ∧ (recv env s).data_out.ready = true := by
    rw [recv_eq]
    exact ⟨by simpa [out_valid_read] using hv, hr⟩
  have hfire : s1.data_out.fire = true := by
    rw [Channel.fire, f2, hvalid.1, hvalid.2]; rfl
  obtain ⟨e1, ht1, ha1⟩ := recv_grows env s
  obtain ⟨e2, ht2, ha2⟩ := process_packet_grows_eq hp
  simp only [state_done] at ht2
  have hs1 : sink_results s1.trace = sink_results s.trace := by
    rw [ht2, ht1]
    simp only [sink_results, List.filterMap_append]
    rw [filterMap_nil_of_all of_recv_sink_result e1 ha1,
      filterMap_nil_of_all of_process_packet_sink_result e2 ha2]
    simp
  obtain ⟨_, _, _, t4, _⟩ := transfer_output_side env s1
  obtain ⟨_, _, _, p4, _⟩ := process_packet_output_side hp
  obtain ⟨_, _, _, r4, _⟩ := recv_output_side env s
  simp only [state_done] at p4
  have hw : sink_results (transfer env s1).trace
      = sink_results s.trace ++ [env.output (input_step env s1).trace] := by
    rw [transfer_sink_results, hfire, hs1]; rfl
  refine ⟨⟨_, hw, hfail _ hw⟩, ?_, ?_⟩
  · rw [t4, p4, r4, hfire, f2, hvalid.2]; rfl
  · rw [tick_loop, hb]
    have hc : ((transfer env s1).data_in.fire || (transfer env s1).data_out.fire) = true := by
      rw [transfer_data_out, hfire, Bool.or_true]
    simp only [hc, if_true]

/-- Instance of sink_failure_ignored: the first iteration of a tick with two output bytes
in which only the first write of 'A' to outputfd fails.  The byte is acknowledged and the
loop goes on; the second write, in the next iteration, succeeds. -/
theorem sink_failure_ignored_witness :
    (tick_body k0 env_first_write_fails 3 (tick_init s0)
        = .done (tick_body k0 env_first_write_fails 3 (tick_init s0)).state ∧
      (tick_init s0).data_out.ready = true ∧
      env_first_write_fails.mmio [.mmio_read .in_ready 0] .out_valid ≠ 0 ∧
      sink_results (tick_body k0 env_first_write_fails 3 (tick_init s0)).state.trace = [-1] ∧
      sink_results (tick k0 env_first_write_fails 3 s0).state.trace = [-1, 1]) ∧
    (∃ r, sink_results (tick_body k0 env_first_write_fails 3 (tick_init s0)).state.trace
        = sink_results (tick_init s0).trace ++ [r] ∧ r < 0) ∧
    ack_values (tick_body k0 env_first_write_fails 3 (tick_init s0)).state.trace
      = ack_values (tick_init s0).trace ++ [1] ∧
    tick_loop k0 env_first_write_fails 3 (tick_init s0)
      = tick_loop k0 env_first_write_fails 2
          (tick_body k0 env_first_write_fails 3 (tick_init s0)).state :=
  ⟨⟨by decide, rfl, by decide, by decide, by decide⟩,
   sink_failure_ignored k0 env_first_write_fails 2 (tick_init s0)
     (tick_body k0 env_first_write_fails 3 (tick_init s0)).state (by decide) rfl (by decide)
     (fun r h => by
       have h1 : sink_results (tick_body k0 env_first_write_fails 3 (tick_init s0)).state.trace
           = [-1] := by decide
       have h0 : sink_results (tick_init s0).trace = [] := rfl
       rw [h1, h0, List.nil_append] at h
       have h2 : r = -1 := (List.head_eq_of_cons_eq h).symm
       rw [h2]; decide)⟩

/-! ### C13 -/

/-- Claim C13 (DEFINE_STEP payload is not validated).  When the first read of
process_packet returns a byte equal to CS_DEFINE_STEP and a read then returns the
CS_DEFINE_LEN + 1 payload bytes p, whatever they are, the call returns normally and writes
cycle_step exactly once, with atoi(p).  That value is: the number denoted by the leading
run of decimal digits after optional white space and an optional sign (negated after a
minus sign), and 0 when, after the white space, p does not begin with a number. -/
theorem define_step_unvalidated (k : Consts) (env : Env) (fuel : Nat) (s : State) (b : Int)
    (rest p more : List Int)
    (hg : k.CS_DEFINE_STEP ≠ k.CS_GRANT_TOKEN) (hq : k.CS_DEFINE_STEP ≠ k.CS_REQ_CYCLES)
    (hnet : env.net s.trace = some (b :: rest)) (hb : b % 256 = k.CS_DEFINE_STEP)
    (hlen : p.length = k.CS_DEFINE_LEN + 1)
    (hpay : env.net (s.trace ++ [.net_read 1 1 [b], .printf_received]) = some (p ++ more)) :
    (∃ s1, process_packet k env (fuel + 1) s = .done s1 ∧
      s1.trace = s.trace ++
        [.net_read 1 1 [b], .printf_received,
         .net_read (k.CS_DEFINE_LEN + 1) ((k.CS_DEFINE_LEN + 1 : Nat) : Int) p,
         .printf_step (atoi p), .mmio_write .cycle_step (atoi p)]) ∧
    (∀ ws ds tail, p = ws ++ (ds ++ tail) → (∀ w ∈ ws, isspace w = true) →
      (∀ d ∈ ds, isdigit d = true) → ds ≠ [] → stops tail →
      atoi p = (decimal_value ds : Int)) ∧
    (∀ ws ds tail, p = ws ++ 45 :: (ds ++ tail) → (∀ w ∈ ws, isspace w = true) →
      (∀ d ∈ ds, isdigit d = true) → stops tail →
      atoi p = - (decimal_value ds : Int)) ∧
    (∀ ws ds tail, p = ws ++ 43 :: (ds ++ tail) → (∀ w ∈ ws, isspace w = true) →
      (∀ d ∈ ds, isdigit d = true) → stops tail →
      atoi p = (decimal_value ds : Int)) ∧
    (∀ ws tail, p = ws ++ tail → (∀ w ∈ ws, isspace w = true) → no_number tail →
      atoi p = 0) := by
  refine ⟨define_step_command k env fuel s b rest p more hg hq hnet hb hlen hpay, ?_, ?_, ?_, ?_⟩
  · intro ws ds tail hp hw hd hne ht
    rw [hp, atoi_skip_spaces ws hw, atoi_unsigned ds hd hne tail ht]
  · intro ws ds tail hp hw hd ht
    rw [hp, atoi_skip_spaces ws hw, atoi_minus ds hd tail ht]
  · intro ws ds tail hp hw hd ht
    rw [hp, atoi_skip_spaces ws hw, atoi_plus ds hd tail ht]
  · intro ws tail hp hw hn
    rw [hp, atoi_skip_spaces ws hw, atoi_no_number tail hn]

/-- Instance of define_step_unvalidated: the payload "12x4" plus a newline is accepted and
12 is written to cycle_step. -/
theorem define_step_unvalidated_witness :
    (k0.CS_DEFINE_STEP ≠ k0.CS_GRANT_TOKEN ∧ k0.CS_DEFINE_STEP ≠ k0.CS_REQ_CYCLES ∧
      env_step_garbled.net s0.trace = some [130, 49, 50, 120, 52, 10] ∧
      (130 : Int) % 256 = k0.CS_DEFINE_STEP ∧
      [(49 : Int), 50, 120, 52, 10].length = k0.CS_DEFINE_LEN + 1) ∧
    (∃ s1, process_packet k0 env_step_garbled 1 s0 = .done s1 ∧
      s1.trace = [.net_read 1 1 [130], .printf_received,
                  .net_read 5 5 [49, 50, 120, 52, 10],
                  .printf_step 12, .mmio_write .cycle_step 12]) ∧
    atoi [49, 50, 120, 52, 10] = (decimal_value [49, 50] : Int) ∧
    atoi [120, 49, 50, 51, 52] = 0 :=
  have h := define_step_unvalidated k0 env_step_garbled 0 s0 130 [49, 50, 120, 52, 10]
    [49, 50, 120, 52, 10] [] (by decide) (by decide) rfl (by decide) rfl rfl
  ⟨⟨by decide, by decide, rfl, by decide, rfl⟩, h.1,
   h.2.1 [] [49, 50] [120, 52, 10] rfl (by decide) (by decide) (by decide)
     (fun c hc => by cases hc; decide),
   by decide⟩

/-! ### C14 -/

/-- Claim C14 (the override byte is one slot, the last write wins).  After any sequence of
signal deliveries ending with the signal last, and whatever the override byte held before,
the bridge state is the state before with the override byte set to 3 if last is SIGINT and
to 0 otherwise.  A tick that follows takes at most one override byte (which in_bits then
receives), namely 3, and only if the last signal was SIGINT. -/
theorem override_last_write_wins (k : Consts) (env : Env) (fuel : Nat) (sigs : List Int)
    (last : Int) (s : State) :
    signals (sigs ++ [last]) s = { s with specialchar := if last = SIGINT then 3 else 0 } ∧
    run k env fuel ((sigs ++ [last]).map Action.signal ++ [.tick]) s
      = tick k env fuel (signals (sigs ++ [last]) s) ∧
    ∃ t, takes (tick k env fuel (signals (sigs ++ [last]) s)).state.trace = takes s.trace ++ t ∧
      t.length ≤ 1 ∧ (∀ v ∈ t, v = 3 ∧ last = SIGINT) := by
  refine ⟨signals_snoc sigs last s, ?_, ?_⟩
  · rw [run_signals, run_single_tick]
  · rw [signals_snoc]
    obtain ⟨t, h1, h2, h3, _⟩ := tick_loop_takes k env fuel
      (tick_init { s with specialchar := if last = SIGINT then 3 else 0 })
    refine ⟨t, h1, h2, ?_⟩
    intro v hv
    obtain ⟨e1, e2⟩ := h3 v hv
    have e3 : v = if last = SIGINT then 3 else 0 := e1
    by_cases hl : last = SIGINT
    · rw [if_pos hl] at e3
      exact ⟨e3, hl⟩
    · rw [if_neg hl] at e3
      exact absurd e3 e2

/-- Instance of override_last_write_wins: three SIGINTs before a tick give one override
byte; a SIGINT followed by another signal gives none. -/
theorem override_last_write_wins_witness :
    (signals ([2, 2] ++ [2]) s0 = { s0 with specialchar := 3 } ∧
      takes (tick k0 env_idle_output 5 (signals ([2, 2] ++ [2]) s0)).state.trace = [3] ∧
      in_bits_writes (tick k0 env_idle_output 5 (signals ([2, 2] ++ [2]) s0)).state.trace = [3]) ∧
    (signals ([2] ++ [15]) s0 = { s0 with specialchar := 0 } ∧
      takes (tick k0 env_idle_output 5 (signals ([2] ++ [15]) s0)).state.trace = []) :=
  ⟨⟨(override_last_write_wins k0 env_idle_output 5 [2, 2] 2 s0).1, by decide, by decide⟩,
   (override_last_write_wins k0 env_idle_output 5 [2] 15 s0).1, by decide⟩

/-! ### C15 -/

/-- Counterexample to claim C15 as stated.  A SIGINT is pending when tick is called and
in_ready reads 1, so the only loop iteration of the tick takes the override byte.  When a
second SIGINT is delivered between `inp = specialchar` (line 223) and `specialchar = 0`
(line 224), the value it sets is overwritten by the reset: the tick delivers the one byte 3
it had fetched before, the override byte is 0 when it returns, and the next tick delivers
the byte 'a' of inputfd, no second override byte.  The same SIGINT delivered after line 224
is left pending and is delivered by the next tick. -/
theorem signal_between_read_and_reset_lost :
    ((tick_body_signals k0 env_idle_output 3 [] [SIGINT] [] (tick_init (sighand SIGINT s0))).returned
        = true ∧
      ((tick_body_signals k0 env_idle_output 3 [] [SIGINT] []
            (tick_init (sighand SIGINT s0))).state.data_in.fire ||
        (tick_body_signals k0 env_idle_output 3 [] [SIGINT] []
            (tick_init (sighand SIGINT s0))).state.data_out.fire) = false ∧
      (tick_body_signals k0 env_idle_output 3 [] [SIGINT] []
          (tick_init (sighand SIGINT s0))).state.specialchar = 0 ∧
      in_bits_writes (tick_body_signals k0 env_idle_output 3 [] [SIGINT] []
          (tick_init (sighand SIGINT s0))).state.trace = [3] ∧
      in_bits_writes (tick k0 env_idle_output 3
          (tick_body_signals k0 env_idle_output 3 [] [SIGINT] []
            (tick_init (sighand SIGINT s0))).state).state.trace = [3, 97]) ∧
    ((tick_body_signals k0 env_idle_output 3 [] [] [SIGINT]
          (tick_init (sighand SIGINT s0))).state.specialchar = 3 ∧
      in_bits_writes (tick k0 env_idle_output 3
          (tick_body_signals k0 env_idle_output 3 [] [] [SIGINT]
            (tick_init (sighand SIGINT s0))).state).state.trace = [3, 3]) := by
  decide

/-- Claim C15, as amended (the take is not atomic).  The take of the override byte is two
separate statements, the read `inp = specialchar` and the reset `specialchar = 0`, and a
signal can be handled before, between and after them.  In an iteration with data.in.ready
true that finds the override byte non-zero at the test of line 218: the byte delivered
(data.in.bits, with data.in.valid true, recorded as the one take, and written to in_bits by
the send of the iteration) is the value the override byte has at the read, after the
signals handled before it; the signals handled between the read and the reset have no
effect at all, the values they set are neither delivered nor left pending; the override
byte after the step is 0 when no signal is handled after the reset, and otherwise the
value set by the last of them, which is left pending.  With no signal inside the step it
is input_step. -/
theorem override_take_interleaved (env : Env) (before between after : List Int) (s : State)
    (hr : s.data_in.ready = true) (hv : s.specialchar ≠ 0) :
    (input_step_signals env before between after s).data_in.bits
      = (signals before s).specialchar ∧
    (input_step_signals env before between after s).data_in.valid = true ∧
    takes (input_step_signals env before between after s).trace
      = takes s.trace ++ [(signals before s).specialchar] ∧
    in_bits_writes (transfer_signals env before between after s).trace
      = in_bits_writes s.trace ++ [(signals before s).specialchar] ∧
    input_step_signals env before between after s = input_step_signals env before [] after s ∧
    (after = [] → (input_step_signals env before between after s).specialchar = 0) ∧
    (∀ l last, after = l ++ [last] →
      (input_step_signals env before between after s).specialchar
        = if last = SIGINT then 3 else 0) ∧
    input_step_signals env [] [] [] s = input_step env s := by
  have h := input_step_signals_take env before between after s hr hv
  refine ⟨by rw [h], by rw [h], ?_, transfer_signals_in_bits env before between after s hr hv,
    ?_, ?_, ?_, rfl⟩
  · rw [h]; simp [takes, take_of]
  · rw [h, input_step_signals_take env before [] after s hr hv]
  · intro ha; rw [h, ha]; rfl
  · intro l last ha; rw [h, ha, signals_snoc]

/-- Instance of override_take_interleaved: a SIGINT is pending and in_ready has been read
as 1; a second SIGINT handled between the read and the reset changes nothing, the byte 3
is delivered once and the override byte is 0 afterwards. -/
theorem override_take_interleaved_witness :
    ((recv env_idle_output (tick_init (sighand SIGINT s0))).data_in.ready = true ∧
      (recv env_idle_output (tick_init (sighand SIGINT s0))).specialchar ≠ 0) ∧
    takes (input_step_signals env_idle_output [] [SIGINT] []
        (recv env_idle_output (tick_init (sighand SIGINT s0)))).trace
      = takes (recv env_idle_output (tick_init (sighand SIGINT s0))).trace
          ++ [(signals [] (recv env_idle_output (tick_init (sighand SIGINT s0)))).specialchar] ∧
    input_step_signals env_idle_output [] [SIGINT] []
        (recv env_idle_output (tick_init (sighand SIGINT s0)))
      = input_step_signals env_idle_output [] [] []
          (recv env_idle_output (tick_init (sighand SIGINT s0))) ∧
    (input_step_signals env_idle_output [] [SIGINT] []
        (recv env_idle_output (tick_init (sighand SIGINT s0)))).specialchar = 0 :=
  have h := override_take_interleaved env_idle_output [] [SIGINT] []
    (recv env_idle_output (tick_init (sighand SIGINT s0))) (by decide) (by decide)
  ⟨⟨by decide, by decide⟩, h.2.2.1, h.2.2.2.2.1, h.2.2.2.2.2.1 rfl⟩

/-! ### C16 -/

/-- Claim C16 (an idle input side leaves no trace).  In a loop iteration, however it ends,
in which in_ready reads 0: inputfd is not read, nothing is taken from the override byte,
which keeps its value, nothing is consumed, and neither in_bits nor in_valid is written.
In a loop iteration entered with data.in.valid false in which in_ready reads non-zero, the
override byte is 0 and the read of inputfd returns no data (0 or a negative count): neither
in_bits nor in_valid is written, nothing is consumed, and the iteration, once the poll has
returned, completes normally after that one read. -/
theorem idle_input_frame (k : Consts) (env : Env) (fuel : Nat) (s : State) :
    (env.mmio s.trace .in_ready = 0 →
      input_reads (tick_body k env fuel s).state.trace = input_reads s.trace ∧
      takes (tick_body k env fuel s).state.trace = takes s.trace ∧
      consumed (tick_body k env fuel s).state.trace = consumed s.trace ∧
      (tick_body k env fuel s).state.specialchar = s.specialchar ∧
      in_port_writes (tick_body k env fuel s).state.trace = in_port_writes s.trace) ∧
    (env.mmio s.trace .in_ready ≠ 0 → s.specialchar = 0 → s.data_in.valid = false →
      (∀ tr, input_reads tr = input_reads s.trace → (sys_read (env.input tr) 1).1 ≤ 0) →
      in_port_writes (tick_body k env fuel s).state.trace = in_port_writes s.trace ∧
      consumed (tick_body k env fuel s).state.trace = consumed s.trace ∧
      takes (tick_body k env fuel s).state.trace = takes s.trace ∧
      (∀ s1, process_packet k env fuel (recv env s) = .done s1 →
        tick_body k env fuel s = .done (transfer env s1) ∧
        input_reads (transfer env s1).trace = input_reads s.trace + 1)) :=
  ⟨input_not_ready k env fuel s, input_no_data k env fuel s⟩

/-- Instance of idle_input_frame: with in_ready reading 0 a pending override 3 stays
pending and nothing is written to the input registers; with in_ready reading 1, no
override and nothing on inputfd, the iteration makes one read of inputfd and writes
nothing to the input registers. -/
theorem idle_input_frame_witness :
    (env_two_outputs.mmio (sighand 2 s0).trace .in_ready = 0 ∧
      (tick_body k0 env_two_outputs 1 (sighand 2 s0)).state.specialchar = 3 ∧
      input_reads (tick_body k0 env_two_outputs 1 (sighand 2 s0)).state.trace = 0 ∧
      in_port_writes (tick_body k0 env_two_outputs 1 (sighand 2 s0)).state.trace = []) ∧
    (env_no_input.mmio s0.trace .in_ready ≠ 0 ∧ s0.specialchar = 0 ∧
      s0.data_in.valid = false ∧
      in_port_writes (tick_body k0 env_no_input 1 s0).state.trace = [] ∧
      consumed (tick_body k0 env_no_input 1 s0).state.trace = [] ∧
      (tick_body k0 env_no_input 1 s0).state.trace
        = [.mmio_read .in_ready 1, .mmio_read .out_valid 0, .net_read 1 (-1) [],
           .input_read (-1) []]) :=
  have h1 := (idle_input_frame k0 env_two_outputs 1 (sighand 2 s0)).1 rfl
  have h2 := (idle_input_frame k0 env_no_input 1 s0).2 (by decide) rfl rfl
    (fun tr _ => by
      show (sys_read (queue [] (input_taken tr)) 1).1 ≤ 0
      simp [queue, sys_read])
  ⟨⟨rfl, h1.2.2.2.1, h1.1, h1.2.2.2.2⟩, by decide, rfl, rfl, h2.1, h2.2.1, by decide⟩

/-! ### C17 -/

/-- Counterexample to claim C17 as stated (every register read before the poll, every
register write after the transfer decisions): in a first iteration that polls a
GRANT_TOKEN command, the writes of in_ctrl_bits and in_ctrl_valid come before the read of
inputfd; in a second one that polls REQUEST_CYCLES, the read of cycle_budget comes after
the read of the peer socket. -/
theorem poll_touches_registers_in_between :
    (run k0 env_commands 1 [.tick, .tick] s0).state.trace =
      [.mmio_read .in_ready 1, .mmio_read .out_valid 0,
       .net_read 1 1 [128], .mmio_write .in_ctrl_bits 1, .mmio_write .in_ctrl_valid 1,
       .input_read 1 [97], .mmio_write .in_bits 97, .mmio_write .in_valid 1,
       .mmio_read .in_ready 1, .mmio_read .out_valid 0,
       .net_read 1 1 [129], .mmio_read .cycle_budget 42, .net_write [52, 50],
       .input_read 1 [98], .mmio_write .in_bits 98, .mmio_write .in_valid 1] := by
  decide

/-- Claim C17, as amended (order of effects in an iteration).  The events of every loop
iteration, however it ends, come in four consecutive stretches: first the reads of
in_ready, of out_valid and, if that was non-zero, of out_bits; then the events of the
poll, starting with the read of one byte from the peer socket and containing nothing but
peer socket traffic, the poll's own register accesses (write of in_ctrl_bits,
in_ctrl_valid, cycle_step, read of cycle_budget) and its printf calls; then the transfer
decisions (override take or read of inputfd, writes to sink and log); last the writes of
in_bits, in_valid and out_ready.  An iteration that does not return from the poll has the
first two stretches only.  No event belongs to two of the four kinds. -/
theorem iteration_order (k : Consts) (env : Env) (fuel : Nat) (s : State) :
    ∃ v b r bs e2 e3 e4,
      (tick_body k env fuel s).state.trace =
        s.trace ++
          ((.mmio_read .in_ready (env.mmio s.trace .in_ready) :: .mmio_read .out_valid v ::
              (if v ≠ 0 then [.mmio_read .out_bits b] else [])) ++
            (.net_read 1 r bs :: e2 ++ (e3 ++ e4))) ∧
      e2.all of_process_packet = true ∧ e3.all of_decision = true ∧
      e4.all of_send = true ∧
      ((tick_body k env fuel s).returned = false → e3 = [] ∧ e4 = []) ∧
      (∀ e : Event, (of_recv e).toNat + (of_process_packet e).toNat +
        (of_decision e).toNat + (of_send e).toNat ≤ 1) := by
  have hdisj : ∀ e : Event, (of_recv e).toNat + (of_process_packet e).toNat +
      (of_decision e).toNat + (of_send e).toNat ≤ 1 := by
    intro e
    cases e with
    | mmio_read r v =>
      cases r <;> simp [of_recv, of_process_packet, of_decision, of_send, Bool.toNat]
    | mmio_write r v =>
      cases r <;> simp [of_recv, of_process_packet, of_decision, of_send, Bool.toNat]
    | _ => simp [of_recv, of_process_packet, of_decision, of_send, Bool.toNat]
  have hrecv : recv_events env s =
      .mmio_read .in_ready (env.mmio s.trace .in_ready) ::
        .mmio_read .out_valid (out_valid_read env s) ::
        (if out_valid_read env s ≠ 0 then
          [.mmio_read .out_bits
            (env.mmio (s.trace ++ [.mmio_read .in_ready (env.mmio s.trace .in_ready),
              .mmio_read .out_valid (out_valid_read env s)]) .out_bits)]
         else []) := rfl
  rcases tick_body_cases k env fuel s with ⟨s1, hp, hb⟩ | ⟨s1, hp, hb⟩
  · obtain ⟨r, bs, e2, ht, ha, _⟩ := before_transfer hp
    rw [hb]
    refine ⟨out_valid_read env s,
      (env.mmio (s.trace ++ [.mmio_read .in_ready (env.mmio s.trace .in_ready),
        .mmio_read .out_valid (out_valid_read env s)]) .out_bits),
      r, bs, e2, [], [], ?_, ?_, rfl, rfl, fun _ => ⟨rfl, rfl⟩, hdisj⟩
    · rw [state_spin] at ht ⊢
      rw [ht, hrecv]
      simp
    · simp only [List.all_cons, Bool.and_eq_true] at ha
      exact ha.2
  · obtain ⟨r, bs, e2, ht, ha, _⟩ := before_transfer hp
    obtain ⟨e3, e4, ht3, h3, h4⟩ := transfer_phases env s1
    rw [hb]
    refine ⟨out_valid_read env s,
      (env.mmio (s.trace ++ [.mmio_read .in_ready (env.mmio s.trace .in_ready),
        .mmio_read .out_valid (out_valid_read env s)]) .out_bits),
      r, bs, e2, e3, e4, ?_, ?_, h3, h4, ?_, hdisj⟩
    · rw [state_done] at ht ⊢
      rw [ht3, ht, hrecv]
      simp
    · simp only [List.all_cons, Bool.and_eq_true] at ha
      exact ha.2
    · intro hc
      simp [Outcome.returned] at hc

/-- Instance of iteration_order: an iteration that polls a GRANT_TOKEN command and then
delivers an input byte. -/
theorem iteration_order_witness :
    (∃ v b r bs e2 e3 e4,
      (tick_body k0 env_commands 1 s0).state.trace =
        s0.trace ++
          ((.mmio_read .in_ready (env_commands.mmio s0.trace .in_ready) ::
              .mmio_read .out_valid v :: (if v ≠ 0 then [.mmio_read .out_bits b] else [])) ++
            (.net_read 1 r bs :: e2 ++ (e3 ++ e4))) ∧
      e2.all of_process_packet = true ∧ e3.all of_decision = true ∧
      e4.all of_send = true ∧
      ((tick_body k0 env_commands 1 s0).returned = false → e3 = [] ∧ e4 = []) ∧
      (∀ e : Event, (of_recv e).toNat + (of_process_packet e).toNat +
        (of_decision e).toNat + (of_send e).toNat ≤ 1)) ∧
    (tick_body k0 env_commands 1 s0).state.trace =
      [.mmio_read .in_ready 1, .mmio_read .out_valid 0] ++
        (.net_read 1 1 [128] :: [.mmio_write .in_ctrl_bits 1, .mmio_write .in_ctrl_valid 1] ++
          ([.input_read 1 [97]] ++ [.mmio_write .in_bits 97, .mmio_write .in_valid 1])) :=
  ⟨iteration_order k0 env_commands 1 s0, by decide⟩

/-! ### C18 -/

/-- Claim C18 (channel state of the drainer).  When the loop of tick is entered,
data.out.ready is true and data.in.valid is false; every loop iteration entered in such a
state ends in such a state, however it ends; so does tick itself.  Within an iteration,
after the input part and before send, data.in.valid is true exactly when a byte was
obtained (from the override byte or from inputfd), which requires that in_ready read
non-zero in this iteration; so data.in.valid is not true while data.in.ready is false, and
the input channel fires exactly when a byte was obtained. -/
theorem channel_invariant (k : Consts) (env : Env) (fuel : Nat) (s : State) :
    ((tick_init s).data_out.ready = true ∧ (tick_init s).data_in.valid = false) ∧
    (∀ s1 : State, s1.data_out.ready = true → s1.data_in.valid = false →
      (tick_body k env fuel s1).state.data_out.ready = true ∧
      (tick_body k env fuel s1).state.data_in.valid = false) ∧
    ((tick k env fuel s).state.data_out.ready = true ∧
      (tick k env fuel s).state.data_in.valid = false) ∧
    (∀ s1 s2 : State, s1.data_in.valid = false →
      process_packet k env fuel (recv env s1) = .done s2 →
      ((input_step env s2).data_in.valid = true → env.mmio s1.trace .in_ready ≠ 0) ∧
      ((input_step env s2).data_in.valid = true → (input_step env s2).data_in.ready = true) ∧
      (input_step env s2).data_in.valid = (obtained env s2).isSome ∧
      (input_step env s2).data_in.fire = (obtained env s2).isSome) := by
  refine ⟨⟨rfl, rfl⟩, ?_, ?_, ?_⟩
  · intro s1 hr hv
    exact ⟨(tick_body_ledger k env fuel s1 hr).2.1, (tick_body_delivered k env fuel s1 hv).2⟩
  · exact ⟨(tick_loop_ledger k env fuel (tick_init s) rfl).2,
      tick_loop_valid k env fuel (tick_init s) rfl⟩
  · intro s1 s2 hv hp
    obtain ⟨f1, _⟩ := process_packet_frame_eq hp
    simp only [state_done] at f1
    have hv2 : s2.data_in.valid = false := by rw [f1, (recv_frame env s1).1, hv]
    have hr2 : s2.data_in.ready = decide (env.mmio s1.trace .in_ready ≠ 0) := by
      rw [f1, (recv_frame env s1).2.2.1]
    obtain ⟨c1, c2, c3, c4⟩ := input_step_channel env s2 hv2
    refine ⟨?_, ?_, c3, c4⟩
    · intro h
      have := c1 h
      rw [hr2] at this
      simpa using this
    · intro h
      rw [c2]; exact c1 h

/-- Instance of channel_invariant: a tick that delivers 'a'; in its iteration data.in.valid
is true after the input part (in_ready read 1), and false again when tick returns. -/
theorem channel_invariant_witness :
    ((tick k0 env_idle_output 5 s0).state.data_out.ready = true ∧
      (tick k0 env_idle_output 5 s0).state.data_in.valid = false) ∧
    (process_packet k0 env_idle_output 5 (recv env_idle_output (tick_init s0))
      = .done (process_packet k0 env_idle_output 5
          (recv env_idle_output (tick_init s0))).state) ∧
    (input_step env_idle_output (process_packet k0 env_idle_output 5
      (recv env_idle_output (tick_init s0))).state).data_in = ⟨97, true, true⟩ ∧
    env_idle_output.mmio (tick_init s0).trace .in_ready ≠ 0 :=
  have h := channel_invariant k0 env_idle_output 5 s0
  ⟨h.2.2.1, by decide, by decide,
   (h.2.2.2 (tick_init s0)
      (process_packet k0 env_idle_output 5 (recv env_idle_output (tick_init s0))).state
      rfl (by decide)).1 (by decide)⟩

/-! ### C19 -/

/-- Claim C19 (the DEFINE_STEP wait does not accumulate).  Let the first read of
process_packet return a byte equal to CS_DEFINE_STEP.  Whenever the call returns, its reads
of the payload are a run of short reads (each asked for CS_DEFINE_LEN + 1 bytes, returned
another count and stored fewer bytes) followed by one read that returned exactly
CS_DEFINE_LEN + 1 bytes p; the buffer then holds p followed by zero bytes only, and the
value printed and written to cycle_step, once, is atoi(p): the bytes of the short reads
were consumed and appear nowhere.  And if no single read ever returns CS_DEFINE_LEN + 1
bytes, the call never returns. -/
theorem define_step_last_read_only (k : Consts) (env : Env) (fuel : Nat) (s : State)
    (b : Int) (rest : List Int)
    (hg : k.CS_DEFINE_STEP ≠ k.CS_GRANT_TOKEN) (hq : k.CS_DEFINE_STEP ≠ k.CS_REQ_CYCLES)
    (hnet : env.net s.trace = some (b :: rest)) (hb : b % 256 = k.CS_DEFINE_STEP) :
    (∀ s1, process_packet k env fuel s = .done s1 →
      ∃ ev p,
        s1.trace = s.trace ++ [.net_read 1 1 [b], .printf_received] ++ ev ++
          [.net_read (k.CS_DEFINE_LEN + 1) ((k.CS_DEFINE_LEN + 1 : Nat) : Int) p,
           .printf_step (atoi p), .mmio_write .cycle_step (atoi p)] ∧
        p.length = k.CS_DEFINE_LEN + 1 ∧ (∀ e ∈ ev, short_read k e) ∧
        s1.buf = p ++ List.replicate (k.ROBOTICS_COSIM_BUFSIZE - (k.CS_DEFINE_LEN + 1)) 0) ∧
    ((∀ tr, (sys_read (env.net tr) (k.CS_DEFINE_LEN + 1)).1
        ≠ ((k.CS_DEFINE_LEN + 1 : Nat) : Int)) →
      (process_packet k env fuel s).returned = false) := by
  have h1 : b % 256 ≠ k.CS_GRANT_TOKEN := by rw [hb]; exact hg
  have h2 : b % 256 ≠ k.CS_REQ_CYCLES := by rw [hb]; exact hq
  rw [process_packet_command k env fuel s b rest hnet, if_neg h1, if_neg h2, if_pos hb]
  constructor
  · intro s1 hdone
    cases hdw : define_wait k env fuel
        { after_command k s b with
          buf := bzero k.ROBOTICS_COSIM_BUFSIZE
          trace := s.trace ++ [.net_read 1 1 [b], .printf_received] } with
    | spin s2 => rw [hdw] at hdone; cases hdone
    | done s2 =>
      rw [hdw] at hdone
      obtain ⟨ev, p, ht, hp, hbuf, hshort⟩ := define_wait_done k env fuel _ s2 hdw
      have hbuf2 : s2.buf
          = p ++ List.replicate (k.ROBOTICS_COSIM_BUFSIZE - (k.CS_DEFINE_LEN + 1)) 0 := by
        rw [hbuf]; simp [bzero]
      cases hdone
      refine ⟨ev, p, ?_, hp, hshort, hbuf2⟩
      simp only [ht, hbuf2, atoi_append_zeros]
      simp
  · intro hnever
    have hs := define_wait_spins k env hnever fuel
      { after_command k s b with
        buf := bzero k.ROBOTICS_COSIM_BUFSIZE
        trace := s.trace ++ [.net_read 1 1 [b], .printf_received] }
    cases hdw : define_wait k env fuel
        { after_command k s b with
          buf := bzero k.ROBOTICS_COSIM_BUFSIZE
          trace := s.trace ++ [.net_read 1 1 [b], .printf_received] } with
    | spin s2 => rfl
    | done s2 => rw [hdw] at hs; simp [Outcome.returned] at hs

/-- Instance of define_step_last_read_only: the payload "0100" plus zero byte arrives
split over two reads and is lost; the five bytes "00250" that arrive next in one piece
complete the command, and 250 is written to cycle_step.  When nothing arrives after the
split payload the call is still waiting after 50 reads. -/
theorem define_step_last_read_only_witness :
    (k0.CS_DEFINE_STEP ≠ k0.CS_GRANT_TOKEN ∧ k0.CS_DEFINE_STEP ≠ k0.CS_REQ_CYCLES ∧
      env_split_payload.net s0.trace = some [130] ∧ (130 : Int) % 256 = k0.CS_DEFINE_STEP) ∧
    (process_packet k0 env_split_payload 5 s0 =
      .done { s0 with
        buf := [48, 48, 50, 53, 48] ++ bzero 59
        n := 1
        trace := [.net_read 1 1 [130], .printf_received, .net_read 5 2 [48, 49],
                  .net_read 5 3 [48, 48, 0], .net_read 5 5 [48, 48, 50, 53, 48],
                  .printf_step 250, .mmio_write .cycle_step 250] }) ∧
    (∃ ev p,
      (process_packet k0 env_split_payload 5 s0).state.trace
        = s0.trace ++ [.net_read 1 1 [130], .printf_received] ++ ev ++
          [.net_read (k0.CS_DEFINE_LEN + 1) ((k0.CS_DEFINE_LEN + 1 : Nat) : Int) p,
           .printf_step (atoi p), .mmio_write .cycle_step (atoi p)] ∧
      p.length = k0.CS_DEFINE_LEN + 1 ∧ (∀ e ∈ ev, short_read k0 e) ∧
      (process_packet k0 env_split_payload 5 s0).state.buf
        = p ++ List.replicate (k0.ROBOTICS_COSIM_BUFSIZE - (k0.CS_DEFINE_LEN + 1)) 0) ∧
    (process_packet k0 env_split_only 50 s0).returned = false :=
  ⟨⟨by decide, by decide, rfl, by decide⟩, by decide,
   (define_step_last_read_only k0 env_split_payload 5 s0 130 [] (by decide) (by decide) rfl
      (by decide)).1 (process_packet k0 env_split_payload 5 s0).state (by decide),
   (define_step_last_read_only k0 env_split_only 50 s0 130 [] (by decide) (by decide) rfl
      (by decide)).2
     (fun tr => by
       show (sys_read (pieces [[130], [48, 49], [48, 48, 0]] tr) 5).1 ≠ 5
       unfold pieces
       generalize net_read_count tr = n
       match n with
       | 0 => decide
       | 1 => decide
       | 2 => decide
       | m + 3 => simp [sys_read])⟩

end Uart
